import Mathlib

/-!
Verification of the Vole rule scan & apply engine (`src/clean.rs`).

The engine is embedded shallowly: the filesystem is a finite tree of
nodes (`FNode`), paths are component lists, and every fallible OS call
(`symlink_metadata`, `read_dir`, reading an entry's modified time, name
to UTF-8 conversion, deletion) has an explicit success/failure switch in
the model so that the error-handling branches of the source are live.
External crates (`globset`, `walkdir`, `shellexpand`) are modelled at the
boundary the source uses them: `walkdir` as an explicit depth-first event
list honouring `follow_links(false)` / `same_file_system(true)` /
`filter_entry`, `globset` as an abstract pattern library threaded in as a
parameter, and path expansion as an already-expanded path list.
-/

namespace Vole

/-- A filesystem path, as its list of components (`PathBuf` components). -/
abbrev FsPath := List String

/-- Render a path for error messages (`Path::display`). -/
def pathStr (p : FsPath) : String := String.intercalate "/" p

/-- True when `r` is a (not necessarily strict) component-wise ancestor of
`p`, i.e. `r` is a list-prefix of `p` (`Path::starts_with`). -/
def isUnder (r p : FsPath) : Bool :=
  match r, p with
  | [], _ => true
  | _ :: _, [] => false
  | a :: r', b :: p' => a = b && isUnder r' p'

/-- Drop a leading root from a path, used for `Path::strip_prefix`:
returns the components of `p` after `r`; callers only use it when
`isUnder r p` holds. -/
def dropUnder (r p : FsPath) : FsPath := p.drop r.length

/-- Per-node switches for the fallible OS calls the scanner makes on the
entry: whether `symlink_metadata`/`DirEntry::metadata` succeeds, whether
`DirEntry::file_type` succeeds, whether the file name converts to UTF-8,
and whether a `remove_file`/`remove_dir` call on this entry is permitted. -/
structure Flags where
  statOk : Bool
  ftypeOk : Bool
  utf8Ok : Bool
  removable : Bool
deriving Repr, DecidableEq

/-- All-success flags, the common case. -/
def Flags.good : Flags := ⟨true, true, true, true⟩

/-- A filesystem node. `file` carries its byte size and its modified time
(`none` means `Metadata::modified` fails); `symlink` carries the size of
the link itself and whether its target exists (for `Path::exists`, which
follows links); `dir` carries its named children, whether `read_dir`
succeeds on it, and its device id (for `same_file_system`); `errEnt` is a
directory slot whose entry cannot be read at all (yields an `Err` item
from `read_dir`/walkdir). -/
inductive FNode where
  | file (size : Nat) (modified : Option Nat) (fl : Flags)
  | symlink (size : Nat) (targetExists : Bool) (fl : Flags)
  | dir (children : List (String × FNode)) (readOk : Bool) (dev : Nat) (fl : Flags)
  | errEnt
deriving Repr

/-- First entry in a directory listing with the given name. -/
def lookupName : List (String × FNode) → String → Option FNode
  | [], _ => none
  | (a, c) :: rest, name => if a = name then some c else lookupName rest name

/-- Result of resolving a path: the node, a missing final/intermediate
component (`ENOENT`), or a non-directory met mid-path (`ENOTDIR`-like). -/
inductive ResolveRes where
  | found (n : FNode)
  | missing
  | notDir
deriving Repr

/-- Resolve a path relative to a node, without following symlinks. -/
def resolveK : FNode → FsPath → ResolveRes
  | n, [] => .found n
  | .dir ch _ _ _, name :: rest =>
    match lookupName ch name with
    | some c => resolveK c rest
    | none => .missing
  | _, _ :: _ => .notDir

/-- Boolean: no two entries of the listing share a name. -/
def nodupB : List String → Bool
  | [] => true
  | x :: xs => !(xs.contains x) && nodupB xs

mutual
/-- Well-formed filesystem: every directory's child names are distinct
(true of any real directory tree). -/
def wfb : FNode → Bool
  | .dir ch _ _ _ => nodupB (ch.map (·.1)) && wfbL ch
  | _ => true
/-- Well-formedness of a child list. -/
def wfbL : List (String × FNode) → Bool
  | [] => true
  | (_, c) :: rest => wfb c && wfbL rest
end

/-- One item yielded by the walkdir iterator: an `Ok` entry (its path and
node) or an `Err` (carrying the failing path when known). -/
inductive WEvent where
  | ok (p : FsPath) (n : FNode)
  | err (p : Option FsPath)
deriving Repr

mutual
/-- Events produced by `WalkDir::new(root).follow_links(false)
.same_file_system(true).into_iter().filter_entry(pr)` for the subtree at
path `p` holding node `n` (already accepted by the filter): the node's
own entry, then-- for a directory on the root's device `rd`-- its
children's events, or a single `Err` when the directory cannot be read.
Symlinks are never followed (they contribute a single leaf event). -/
def walkNode (rd : Nat) (pr : FsPath → FNode → Bool) (p : FsPath) : FNode → List WEvent
  | .file sz md fl => [.ok p (.file sz md fl)]
  | .symlink sz te fl => [.ok p (.symlink sz te fl)]
  | .errEnt => [.err (some p)]
  | .dir ch ro dev fl =>
    .ok p (.dir ch ro dev fl) ::
      (if dev != rd then []
       else if !ro then [.err (some p)]
       else walkChildren rd pr p ch)
/-- Events for a directory's listing, in order; entries rejected by the
`filter_entry` predicate are pruned (their subtree is never visited), and
unreadable entry slots yield an `Err` with no path. -/
def walkChildren (rd : Nat) (pr : FsPath → FNode → Bool) (p : FsPath) :
    List (String × FNode) → List WEvent
  | [] => []
  | (name, c) :: rest =>
    (match c with
     | .errEnt => [.err none]
     | _ => if pr (p ++ [name]) c then walkNode rd pr (p ++ [name]) c else []) ++
    walkChildren rd pr p rest
end

/-- ASCII lower-casing of one character (`u8::to_ascii_lowercase`). -/
def asciiLowerChar (c : Char) : Char :=
  if 'A' ≤ c ∧ c ≤ 'Z' then Char.ofNat (c.toNat + 32) else c

/-- ASCII lower-casing of a string (`str::to_ascii_lowercase`). -/
def asciiLower (s : String) : String := String.mk (s.toList.map asciiLowerChar)

/-- Does `s` start with `needle`, on character lists? -/
def startsWithL (needle s : List Char) : Bool :=
  match needle, s with
  | [], _ => true
  | _ :: _, [] => false
  | a :: as', b :: bs => a = b && startsWithL as' bs

/-- Does the character list contain `needle` as a contiguous run
(`str::contains`)? -/
def hasSubL (needle : List Char) : List Char → Bool
  | [] => needle.isEmpty
  | s@(_ :: rest) => startsWithL needle s || hasSubL needle rest

/-- Does string `s` contain `sub` as a substring? -/
def hasSub (s sub : String) : Bool := hasSubL sub.toList s.toList

/-- `str::starts_with`, on character lists. -/
def startsWithS (s p : String) : Bool := startsWithL p.toList s.toList

/-- `str::ends_with`, on character lists (a suffix is a reversed
position-wise match). -/
def endsWithS (s post : String) : Bool :=
  startsWithL post.toList.reverse s.toList.reverse

/-- Metadata as the scanner consumes it: file-type tests, `len()`, and
the `modified()` result (`none` = that call fails). -/
structure MetaM where
  isFileM : Bool
  isDirM : Bool
  isSymlinkM : Bool
  size : Nat
  modified : Option Nat
deriving Repr, DecidableEq

/-- `fs::symlink_metadata` on a node: `none` when the stat call fails. -/
def lstat : FNode → Option MetaM
  | .file sz md fl => if fl.statOk then some ⟨true, false, false, sz, md⟩ else none
  | .symlink sz _ fl => if fl.statOk then some ⟨false, false, true, sz, none⟩ else none
  | .dir _ _ _ fl => if fl.statOk then some ⟨false, true, false, 0, none⟩ else none
  | .errEnt => none

/-- `Path::exists` (follows symlinks; false on a dangling link or any
stat failure). -/
def existsB : FNode → Bool
  | .file _ _ _ => true
  | .symlink _ te _ => te
  | .dir _ _ _ _ => true
  | .errEnt => false

/-- The `root.is_file() || root.is_symlink()` test of `scan_root` /
`scan_logs_rule`: true exactly for regular files and symlinks. -/
def rootIsFileOrSymlink : FNode → Bool
  | .file _ _ _ => true
  | .symlink _ _ _ => true
  | _ => false

/-- Is the entry's file type a directory (`FileType::is_dir`, links not
followed)? -/
def isDirNode : FNode → Bool
  | .dir _ _ _ _ => true
  | _ => false

/-- Is the entry a symlink (`FileType::is_symlink`)? -/
def isSymlinkNode : FNode → Bool
  | .symlink _ _ _ => true
  | _ => false

/-- Device id of a directory node (used for `same_file_system`). -/
def devOf : FNode → Nat
  | .dir _ _ dev _ => dev
  | _ => 0

/-- Generic first-match association lookup (`HashMap::get` over the
listing order; directory names are unique in any well-formed tree). -/
def lookupA {α : Type} : List (String × α) → String → Option α
  | [], _ => none
  | (a, b) :: rest, k => if a = k then some b else lookupA rest k

/-- Association insert with replacement (`HashMap::insert`). -/
def insertA {α : Type} : List (String × α) → String → α → List (String × α)
  | [], k, v => [(k, v)]
  | (a, b) :: rest, k, v => if a = k then (k, v) :: rest else (a, b) :: insertA rest k v

/-- The seven recognized archive suffixes, in the source's order. -/
def ARCHIVE_EXTENSIONS : List String :=
  [".tar.gz", ".tgz", ".tar.xz", ".tar.zst", ".zip", ".7z", ".rar"]

/-- Case-insensitive suffix scan of `archive_base_name`: the first listed
suffix that matches decides; stripping it must leave a non-empty base
name, else the candidate is discarded (no further suffixes are tried). -/
def archiveBaseGo (name lower : String) : List String → Option String
  | [] => none
  | ext :: rest =>
    if endsWithS lower ext then
      let baseLen := name.length - ext.length
      if baseLen = 0 then none else some (String.mk (name.toList.take baseLen))
    else archiveBaseGo name lower rest

/-- `archive_base_name`: base name of a recognized archive file name, or
`none` when no suffix matches (or the base would be empty). -/
def archive_base_name (name : String) : Option String :=
  archiveBaseGo name (asciiLower name) ARCHIVE_EXTENSIONS

/-- `is_log_file_name`: case-insensitive name-shape predicate for log
files, evaluated on the path's final component. -/
def is_log_file_name (p : FsPath) : Bool :=
  match p.getLast? with
  | none => false
  | some name =>
    let lower := asciiLower name
    if lower = "xsession-errors" || startsWithS lower "xsession-errors." then true
    else if endsWithS lower ".log" || hasSub lower ".log." then true
    else endsWithS lower ".err" || endsWithS lower ".error"

/-- Largest `u64` value, the ceiling of `u64::saturating_mul`. -/
def u64Max : Nat := 2 ^ 64 - 1

/-- `cutoff_from_days`: seconds are computed with a saturating multiply,
then `SystemTime::now().checked_sub` yields `none` when `now` is too
small for the subtraction. -/
def cutoff_from_days (now : Nat) (days : Nat) : Option Nat :=
  let secs := min (days * 86400) u64Max
  if secs ≤ now then some (now - secs) else none

/-- Modelled from the spec: `RuleKind` is referenced by `clean.rs` and
`main.rs` but its declaration is missing from the `src/config.rs`
snapshot; the spec fixes it as the kind tag `Paths | Downloads | Logs`
that selects the scan strategy. -/
inductive RuleKind where
  | paths
  | downloads
  | logs
deriving Repr, DecidableEq

/-- The two sides of an archive/folder pairing a caller may choose to
clean (`options.rs`). -/
inductive DownloadsChoice where
  | archives
  | folders
deriving Repr, DecidableEq

/-- Scan options handed to the dispatcher (`options.rs`). -/
structure ScanOptions where
  downloadsChoice : Option DownloadsChoice
deriving Repr, DecidableEq

/-- A cleanup rule (`config.rs`), with its configured paths already
expanded by the external Path Expander collaborator (`shellexpand`), so
`expandedPaths` below returns them as given. The `kind` and
`older_than_days` fields are modelled from the spec, their declarations
being absent from the `src/config.rs` snapshot. -/
structure Rule where
  id : String
  label : String
  description : Option String
  kind : RuleKind
  paths : List FsPath
  requires_sudo : Bool
  enabled_by_default : Bool
  distros : List String
  exclude_globs : List String
  older_than_days : Option Nat
deriving Repr, DecidableEq

/-- `Rule::expanded_paths`, with `~`/env expansion done by the external
collaborator. -/
def Rule.expandedPaths (r : Rule) : List FsPath := r.paths

/-- The materialized result of evaluating one rule (`RuleScan`). -/
structure RuleScan where
  rule : Rule
  bytes : Nat
  entries : Nat
  files : List FsPath
  dirs : List FsPath
  errors : Nat
  error_messages : List String
deriving Repr, DecidableEq

/-- The freshly initialized scan each strategy starts from. -/
def emptyScan (rule : Rule) : RuleScan :=
  { rule := rule, bytes := 0, entries := 0, files := [], dirs := [],
    errors := 0, error_messages := [] }

/-- `record_error`: bump the error counter and append the message. -/
def record_error (scan : RuleScan) (message : String) : RuleScan :=
  { scan with errors := scan.errors + 1,
              error_messages := scan.error_messages ++ [message] }

/-- The aggregate report of one `apply` call (`CleanReport`). -/
structure CleanReport where
  files_removed : Nat
  dirs_removed : Nat
  bytes_freed : Nat
  errors : Nat
deriving Repr, DecidableEq

/-- `CleanReport::default()`. -/
def CleanReport.default : CleanReport := ⟨0, 0, 0, 0⟩

/-- The external `globset` crate, abstracted: `globNew` is `Glob::new`
and `buildSet` is `GlobSetBuilder::build`, producing a compiled matcher
that tests a root-relative path. `G` is the crate's parsed-glob type. -/
structure GlobLib (G : Type) where
  globNew : String → Except String G
  buildSet : List G → Except String (FsPath → Bool)

/-- Message recorded for a pattern that fails to parse. -/
def globParseMsg (pattern e : String) : String :=
  "Invalid exclude glob " ++ pattern ++ ": " ++ e

/-- Message recorded when the final matcher build fails. -/
def globBuildMsg (e : String) : String :=
  "Failed to build exclude globs: " ++ e

/-- The pattern loop of `build_globset`: parsed globs are added to the
builder in order; a pattern that fails to parse is skipped and reported
without aborting the remaining ones. -/
def globLoop {G : Type} (lib : GlobLib G) :
    List String → List G → List String → List G × List String
  | [], bld, errs => (bld, errs)
  | pattern :: rest, bld, errs =>
    match lib.globNew pattern with
    | .ok g => globLoop lib rest (bld ++ [g]) errs
    | .error e => globLoop lib rest bld (errs ++ [globParseMsg pattern e])

/-- `build_globset`: an empty pattern list means no matcher and no
errors; otherwise parse each pattern, then build the matcher, a build
failure yielding no matcher plus one extra message. -/
def build_globset {G : Type} (lib : GlobLib G) (patterns : List String) :
    Option (FsPath → Bool) × List String :=
  match patterns with
  | [] => (none, [])
  | _ :: _ =>
    let (bld, errors) := globLoop lib patterns [] []
    match lib.buildSet bld with
    | .ok set => (some set, errors)
    | .error e => (none, errors ++ [globBuildMsg e])

/-- `is_excluded`: match the path relative to the walk's root (falling
back to the full path when the root is not a prefix of it). -/
def is_excluded (p root : FsPath) (excl : Option (FsPath → Bool)) : Bool :=
  match excl with
  | none => false
  | some m => m (if isUnder root p then dropUnder root p else p)

/-- `is_older_than`: with no cutoff every file qualifies; a failing
`modified()` read records an error and disqualifies the file; otherwise
qualify exactly when modified ≤ cutoff (boundary inclusive). -/
def is_older_than (md : Option Nat) (cutoff : Option Nat) (p : FsPath)
    (scan : RuleScan) : Bool × RuleScan :=
  match cutoff with
  | none => (true, scan)
  | some c =>
    match md with
    | some m => (decide (m ≤ c), scan)
    | none =>
      (false, record_error scan
        ("Failed to read modified time for " ++ pathStr p ++ ": io error"))

/-- The `filter_entry` closure of `scan_root`: keep the root itself,
prune anything excluded. -/
def scanFilter (root : FsPath) (excl : Option (FsPath → Bool))
    (q : FsPath) (_n : FNode) : Bool :=
  decide (q = root) || !(is_excluded q root excl)

/-- Size contribution of a walk entry: `entry.metadata()` adds `len()`
when the stat succeeds and silently adds nothing when it fails. -/
def entrySize (n : FNode) : Nat :=
  match lstat n with
  | some meta => meta.size
  | none => 0

/-- Walk-error message when the failing entry's path is known. -/
def walkErrMsg (p : FsPath) : String :=
  "Failed to read entry " ++ pathStr p ++ ": io error"

/-- Walk-error message when only the walk's root is known. -/
def walkErrRootMsg (root : FsPath) : String :=
  "Failed to read entry under " ++ pathStr root ++ ": io error"

/-- The event loop of `scan_root`: skip the root and excluded entries,
record directories in `dirs`, everything else in `files` (adding its
size when readable), and collect walk errors as messages for the caller
to record. -/
def procWalk (root : FsPath) (excl : Option (FsPath → Bool)) :
    List WEvent → RuleScan × List String → RuleScan × List String
  | [], acc => acc
  | .ok q m :: rest, (scan, msgs) =>
    if q = root then procWalk root excl rest (scan, msgs)
    else if is_excluded q root excl then procWalk root excl rest (scan, msgs)
    else if isDirNode m then
      procWalk root excl rest ({ scan with dirs := scan.dirs ++ [q] }, msgs)
    else
      procWalk root excl rest
        ({ scan with bytes := scan.bytes + entrySize m,
                     entries := scan.entries + 1,
                     files := scan.files ++ [q] }, msgs)
  | .err (some p) :: rest, (scan, msgs) =>
    procWalk root excl rest (scan, msgs ++ [walkErrMsg p])
  | .err none :: rest, (scan, msgs) =>
    procWalk root excl rest (scan, msgs ++ [walkErrRootMsg root])

/-- The walkdir event stream `scan_root` iterates for a non-leaf root:
a directory is walked; anything else yields a single `Err` entry, as
`WalkDir` does on an unreadable or missing root. -/
def rootEvents (root : FsPath) (excl : Option (FsPath → Bool)) (n : FNode) :
    List WEvent :=
  match n with
  | .dir ch ro dev fl => walkNode dev (scanFilter root excl) root (.dir ch ro dev fl)
  | _ => [.err (some root)]

/-- `scan_root`: a root that is itself a regular file or symlink is
recorded directly as a single file entry (subject to exclusion) and not
opened as a directory; otherwise the tree is walked without following
links or crossing devices, with excluded entries pruned. Walk errors are
returned for the caller to record. -/
def scan_root (fs : FNode) (root : FsPath) (excl : Option (FsPath → Bool))
    (scan : RuleScan) : RuleScan × List String :=
  match resolveK fs root with
  | .found n =>
    if rootIsFileOrSymlink n then
      (if !(is_excluded root root excl) then
        { scan with bytes := scan.bytes + entrySize n,
                    entries := scan.entries + 1,
                    files := scan.files ++ [root] }
       else scan, [])
    else
      procWalk root excl (rootEvents root excl n) (scan, [])
  | _ => procWalk root excl [.err (some root)] (scan, [])

/-- The per-root loop of `scan_paths_rule`: skip roots that do not
exist, walk the rest, recording each returned walk error. -/
def pathsRoots (fs : FNode) (excl : Option (FsPath → Bool)) :
    List FsPath → RuleScan → RuleScan
  | [], scan => scan
  | root :: rest, scan =>
    let scan' :=
      match resolveK fs root with
      | .found n =>
        if existsB n then
          let r := scan_root fs root excl scan
          r.2.foldl record_error r.1
        else scan
      | _ => scan
    pathsRoots fs excl rest scan'

/-- `scan_paths_rule`: compile the exclusion globs (recording their
errors), then walk each configured root. -/
def scan_paths_rule {G : Type} (lib : GlobLib G) (fs : FNode) (rule : Rule) :
    RuleScan :=
  let bg := build_globset lib rule.exclude_globs
  let scan := bg.2.foldl record_error (emptyScan rule)
  pathsRoots fs bg.1 rule.expandedPaths scan

/-- `scan_log_path`: the predicate chain applied to a single-file root:
exclusion, name shape, lstat (a failure is recorded), regular
non-symlink check, then the age predicate. -/
def scan_log_path (fs : FNode) (p root : FsPath) (excl : Option (FsPath → Bool))
    (cutoff : Option Nat) (scan : RuleScan) : RuleScan :=
  if is_excluded p root excl then scan
  else if !(is_log_file_name p) then scan
  else
    match resolveK fs p with
    | .found n =>
      match lstat n with
      | none =>
        record_error scan ("Failed to read metadata for " ++ pathStr p ++ ": io error")
      | some meta =>
        if meta.isSymlinkM || !meta.isFileM then scan
        else
          let r := is_older_than meta.modified cutoff p scan
          if !r.1 then r.2
          else { r.2 with bytes := r.2.bytes + meta.size,
                          entries := r.2.entries + 1,
                          files := r.2.files ++ [p] }
    | _ =>
      record_error scan ("Failed to read metadata for " ++ pathStr p ++ ": io error")

/-- The event loop of `scan_logs_rule`: skip the root, directories,
symlinks, excluded entries and non-log names; a failing metadata read is
recorded and the entry skipped; qualifying files are summed into the
scan. Walk errors are recorded immediately. -/
def procLogs (root : FsPath) (excl : Option (FsPath → Bool)) (cutoff : Option Nat) :
    List WEvent → RuleScan → RuleScan
  | [], scan => scan
  | .ok q m :: rest, scan =>
    if q = root then procLogs root excl cutoff rest scan
    else if isDirNode m then procLogs root excl cutoff rest scan
    else if isSymlinkNode m then procLogs root excl cutoff rest scan
    else if is_excluded q root excl then procLogs root excl cutoff rest scan
    else if !(is_log_file_name q) then procLogs root excl cutoff rest scan
    else
      match lstat m with
      | none =>
        procLogs root excl cutoff rest
          (record_error scan ("Failed to read metadata for " ++ pathStr q ++ ": io error"))
      | some meta =>
        if !meta.isFileM then procLogs root excl cutoff rest scan
        else
          let (old, scan') := is_older_than meta.modified cutoff q scan
          if !old then procLogs root excl cutoff rest scan'
          else
            procLogs root excl cutoff rest
              { scan' with bytes := scan'.bytes + meta.size,
                           entries := scan'.entries + 1,
                           files := scan'.files ++ [q] }
  | .err (some p) :: rest, scan =>
    procLogs root excl cutoff rest (record_error scan (walkErrMsg p))
  | .err none :: rest, scan =>
    procLogs root excl cutoff rest (record_error scan (walkErrRootMsg root))

/-- The per-root loop of `scan_logs_rule`: skip roots that do not exist;
a file or symlink root goes through `scan_log_path` against its parent;
a directory root is walked (no `filter_entry` here, so exclusion never
prunes descent). -/
def logsRoots (fs : FNode) (excl : Option (FsPath → Bool)) (cutoff : Option Nat) :
    List FsPath → RuleScan → RuleScan
  | [], scan => scan
  | root :: rest, scan =>
    let scan' :=
      match resolveK fs root with
      | .found n =>
        if !(existsB n) then scan
        else if rootIsFileOrSymlink n then
          scan_log_path fs root (if root = [] then root else root.dropLast)
            excl cutoff scan
        else
          procLogs root excl cutoff
            (match n with
             | .dir ch ro dev fl => walkNode dev (fun _ _ => true) root (.dir ch ro dev fl)
             | _ => [.err (some root)])
            scan
      | _ => scan
    logsRoots fs excl cutoff rest scan'

/-- `scan_logs_rule`: compile exclusions, derive the cutoff from the
optional day threshold, then process each root. -/
def scan_logs_rule {G : Type} (lib : GlobLib G) (now : Nat) (fs : FNode)
    (rule : Rule) : RuleScan :=
  let bg := build_globset lib rule.exclude_globs
  let scan := bg.2.foldl record_error (emptyScan rule)
  let cutoff := rule.older_than_days.bind (cutoff_from_days now)
  logsRoots fs bg.1 cutoff rule.expandedPaths scan

/-- Flag accessors of a node (trivially true for `errEnt`, which is
matched before they are consulted). -/
def utf8Of : FNode → Bool
  | .file _ _ fl => fl.utf8Ok
  | .symlink _ _ fl => fl.utf8Ok
  | .dir _ _ _ fl => fl.utf8Ok
  | .errEnt => true

/-- Whether `DirEntry::file_type` succeeds for the node. -/
def ftypeOkOf : FNode → Bool
  | .file _ _ fl => fl.ftypeOk
  | .symlink _ _ fl => fl.ftypeOk
  | .dir _ _ _ fl => fl.ftypeOk
  | .errEnt => true

/-- The single-level listing loop of `scan_downloads_rule`: directories
go into a name-to-path map; regular files with a recognized archive
suffix and readable metadata are collected with their base name and
size; symlinks are ignored; read, UTF-8 and file-type failures are
recorded and skipped. -/
def collectStep (root : FsPath) (name : String) (c : FNode)
    (acc : RuleScan × List (String × FsPath × Nat) × List (String × FsPath)) :
    RuleScan × List (String × FsPath × Nat) × List (String × FsPath) :=
  match acc with
  | (scan, archives, folders) =>
    match c with
    | .errEnt =>
      (record_error scan
        ("Failed to read directory entry in " ++ pathStr root ++ ": io error"),
       archives, folders)
    | _ =>
      let path := root ++ [name]
      if !(utf8Of c) then
        (record_error scan ("Non-utf8 filename in " ++ pathStr path),
         archives, folders)
      else if !(ftypeOkOf c) then
        (record_error scan
          ("Failed to read file type for " ++ pathStr path ++ ": io error"),
         archives, folders)
      else if isSymlinkNode c then (scan, archives, folders)
      else if isDirNode c then (scan, archives, insertA folders name path)
      else
        match archive_base_name name with
        | none => (scan, archives, folders)
        | some base =>
          match lstat c with
          | some meta => (scan, archives ++ [(base, path, meta.size)], folders)
          | none =>
            (record_error scan
              ("Failed to read metadata for " ++ pathStr path ++ ": io error"),
             archives, folders)

/-- The single-level listing loop of `scan_downloads_rule`, applying
`collectStep` to each entry in order. -/
def collectDownloads (root : FsPath) :
    List (String × FNode) →
    RuleScan × List (String × FsPath × Nat) × List (String × FsPath) →
    RuleScan × List (String × FsPath × Nat) × List (String × FsPath)
  | [], acc => acc
  | (name, c) :: rest, acc => collectDownloads root rest (collectStep root name c acc)

/-- The pairing loop of `scan_downloads_rule`: an archive whose base
name finds a directory in the map is recorded per the caller's choice;
under Folders each distinct paired directory is walked once (no
exclusions at this nested level) and then recorded itself. -/
def pairDownloads (fs : FNode) (choice : DownloadsChoice)
    (folders : List (String × FsPath)) :
    List (String × FsPath × Nat) → RuleScan × List FsPath → RuleScan × List FsPath
  | [], acc => acc
  | (base, apath, size) :: rest, (scan, seen) =>
    match lookupA folders base with
    | none => pairDownloads fs choice folders rest (scan, seen)
    | some dpath =>
      match choice with
      | .archives =>
        pairDownloads fs choice folders rest
          ({ scan with entries := scan.entries + 1,
                       bytes := scan.bytes + size,
                       files := scan.files ++ [apath] }, seen)
      | .folders =>
        if seen.contains dpath then pairDownloads fs choice folders rest (scan, seen)
        else
          let r := scan_root fs dpath none scan
          let s' := r.2.foldl record_error r.1
          pairDownloads fs choice folders rest
            ({ s' with dirs := s'.dirs ++ [dpath] }, seen ++ [dpath])

/-- The per-root loop of `scan_downloads_rule`: a root whose metadata
cannot be read is recorded and skipped; symlink or non-directory roots
are skipped silently; an unreadable listing is recorded; otherwise the
single-level listing is collected and paired. -/
def downloadsRoots (fs : FNode) (choice : DownloadsChoice) :
    List FsPath → RuleScan → RuleScan
  | [], scan => scan
  | root :: rest, scan =>
    let scan' :=
      match resolveK fs root with
      | .found n =>
        match lstat n with
        | none =>
          record_error scan ("Failed to read metadata for " ++ pathStr root ++ ": io error")
        | some meta =>
          if meta.isSymlinkM || !meta.isDirM then scan
          else
            match n with
            | .dir ch ro _ _ =>
              if !ro then
                record_error scan ("Failed to list " ++ pathStr root ++ ": io error")
              else
                let cd := collectDownloads root ch (scan, [], [])
                (pairDownloads fs choice cd.2.2 cd.2.1 (cd.1, [])).1
            | _ => scan
      | _ =>
        record_error scan ("Failed to read metadata for " ++ pathStr root ++ ": io error")
    downloadsRoots fs choice rest scan'

/-- `scan_downloads_rule`: with no resolved choice the rule contributes
an empty scan; otherwise each configured root's single-level listing is
paired. -/
def scan_downloads_rule (fs : FNode) (rule : Rule)
    (choice : Option DownloadsChoice) : RuleScan :=
  match choice with
  | none => emptyScan rule
  | some c => downloadsRoots fs c rule.expandedPaths (emptyScan rule)

/-- `scan_rule`: dispatch on the rule's kind. -/
def scan_rule {G : Type} (lib : GlobLib G) (now : Nat) (fs : FNode)
    (rule : Rule) (options : ScanOptions) : RuleScan :=
  match rule.kind with
  | .paths => scan_paths_rule lib fs rule
  | .downloads => scan_downloads_rule fs rule options.downloadsChoice
  | .logs => scan_logs_rule lib now fs rule

/-- Result of `fs::symlink_metadata` on a full path: the entry's size,
`NotFound` (a missing component), or any other stat failure
(`ENOTDIR` mid-path, an unreadable entry, a failing stat call). -/
inductive StatRes where
  | ok (size : Nat)
  | notFound
  | otherErr
deriving Repr, DecidableEq

/-- Stat of a resolved node (fails when the node's stat switch is off or
the entry slot is unreadable). -/
def nodeStat : FNode → StatRes
  | .file sz _ fl => if fl.statOk then .ok sz else .otherErr
  | .symlink sz _ fl => if fl.statOk then .ok sz else .otherErr
  | .dir _ _ _ fl => if fl.statOk then .ok 0 else .otherErr
  | .errEnt => .otherErr

/-- `fs::symlink_metadata` on a path of the tree. -/
def statF (fs : FNode) (p : FsPath) : StatRes :=
  match resolveK fs p with
  | .found n => nodeStat n
  | .missing => .notFound
  | .notDir => .otherErr

/-- Result of a removal call: the updated tree, `NotFound`, or any other
failure (the path is left in place). -/
inductive RmRes where
  | ok (fs : FNode)
  | notFound
  | failed
deriving Repr

/-- Whether the found child may be removed by this call: `remove_dir`
requires an empty, deletable directory (empty-directory removal only,
never recursive); `remove_file` requires a deletable non-directory
entry (`EISDIR` otherwise). -/
def rmAllowed (isDirOp : Bool) : FNode → Bool
  | .file _ _ fl => !isDirOp && fl.removable
  | .symlink _ _ fl => !isDirOp && fl.removable
  | .dir ch _ _ fl => isDirOp && ch.isEmpty && fl.removable
  | .errEnt => false

/-- Drop the named entry from a listing. -/
def removeChildEntry (ch : List (String × FNode)) (name : String) :
    List (String × FNode) :=
  ch.filter (fun e => e.1 ≠ name)

/-- Replace the named entry's node in a listing. -/
def replaceChildEntry (ch : List (String × FNode)) (name : String)
    (c' : FNode) : List (String × FNode) :=
  ch.map (fun e => if e.1 = name then (e.1, c') else e)

/-- `fs::remove_file` (`isDirOp = false`) or `fs::remove_dir`
(`isDirOp = true`) on a path: a missing component is `NotFound`; a
non-directory met mid-path, a disallowed target, or an empty path all
fail; success removes exactly the named leaf entry. -/
def removePath (isDirOp : Bool) : FNode → FsPath → RmRes
  | _, [] => .failed
  | .dir ch ro dev fl, [name] =>
    (match lookupName ch name with
     | none => .notFound
     | some c =>
       if rmAllowed isDirOp c then .ok (.dir (removeChildEntry ch name) ro dev fl)
       else .failed)
  | .dir ch ro dev fl, name :: rest =>
    (match lookupName ch name with
     | none => .notFound
     | some c =>
       match removePath isDirOp c rest with
       | .ok c' => .ok (.dir (replaceChildEntry ch name c') ro dev fl)
       | .notFound => .notFound
       | .failed => .failed)
  | _, _ :: _ => .failed

/-- The outcome recorded for one removal attempt during `apply`. -/
inductive AttemptRes where
  | removed (size : Nat)
  | notFound
  | failed
deriving Repr, DecidableEq

/-- One attempted path with its outcome. -/
abbrev Attempt := FsPath × AttemptRes

/-- The file loop of `apply`: lstat first (a `NotFound` stat is the
already-clean skip; any other stat failure is an error), then remove,
crediting the pre-captured size on success and counting an error on any
removal failure. The trace records one attempt per recorded path. -/
def applyFiles : FNode → List FsPath → CleanReport →
    FNode × CleanReport × List Attempt
  | fs, [], rep => (fs, rep, [])
  | fs, p :: rest, rep =>
    match statF fs p with
    | .notFound =>
      let r := applyFiles fs rest rep
      (r.1, r.2.1, (p, .notFound) :: r.2.2)
    | .otherErr =>
      let r := applyFiles fs rest { rep with errors := rep.errors + 1 }
      (r.1, r.2.1, (p, .failed) :: r.2.2)
    | .ok size =>
      match removePath false fs p with
      | .ok fs1 =>
        let r := applyFiles fs1 rest
          { rep with bytes_freed := rep.bytes_freed + size,
                     files_removed := rep.files_removed + 1 }
        (r.1, r.2.1, (p, .removed size) :: r.2.2)
      | _ =>
        let r := applyFiles fs rest { rep with errors := rep.errors + 1 }
        (r.1, r.2.1, (p, .failed) :: r.2.2)

/-- Stable insertion of a path into a list sorted by descending
component count: the path goes after every element at least as deep. -/
def insDeep (p : FsPath) : List FsPath → List FsPath
  | [] => [p]
  | q :: rest => if q.length < p.length then p :: q :: rest else q :: insDeep p rest

/-- `dirs.sort_by_key(|path| Reverse(path.components().count()))`: the
scan's directory list sorted deepest-first, stably. -/
def sortDirs (l : List FsPath) : List FsPath := l.foldl (fun acc p => insDeep p acc) []

/-- The directory loop of `apply` on the already-sorted list: empty-dir
removal per path, skipping `NotFound` silently and counting any other
failure, never aborting the sweep. -/
def applyDirs : FNode → List FsPath → CleanReport →
    FNode × CleanReport × List Attempt
  | fs, [], rep => (fs, rep, [])
  | fs, p :: rest, rep =>
    match removePath true fs p with
    | .ok fs1 =>
      let r := applyDirs fs1 rest { rep with dirs_removed := rep.dirs_removed + 1 }
      (r.1, r.2.1, (p, .removed 0) :: r.2.2)
    | .notFound =>
      let r := applyDirs fs rest rep
      (r.1, r.2.1, (p, .notFound) :: r.2.2)
    | .failed =>
      let r := applyDirs fs rest { rep with errors := rep.errors + 1 }
      (r.1, r.2.1, (p, .failed) :: r.2.2)

/-- One scan's pass of `apply`: all recorded files, then the recorded
directories deepest-first. -/
def applyScan (fs : FNode) (scan : RuleScan) (rep : CleanReport) :
    FNode × CleanReport × List Attempt × List Attempt :=
  let r1 := applyFiles fs scan.files rep
  let r2 := applyDirs r1.1 (sortDirs scan.dirs) r1.2.1
  (r2.1, r2.2.1, r1.2.2, r2.2.2)

/-- The scan loop of `apply`, accumulating the report and the traces. -/
def applyGo : FNode → List RuleScan → CleanReport →
    FNode × CleanReport × List Attempt × List Attempt
  | fs, [], rep => (fs, rep, [], [])
  | fs, scan :: rest, rep =>
    let r1 := applyScan fs scan rep
    let r := applyGo r1.1 rest r1.2.1
    (r.1, r.2.1, r1.2.2.1 ++ r.2.2.1, r1.2.2.2 ++ r.2.2.2)

/-- `apply`: delete everything the scans recorded, best-effort, starting
from a default report. -/
def apply (fs : FNode) (scans : List RuleScan) :
    FNode × CleanReport × List Attempt × List Attempt :=
  applyGo fs scans CleanReport.default

/-- The globs that parse successfully, in pattern order (what the
builder receives). -/
def parseOks {G : Type} (lib : GlobLib G) (patterns : List String) : List G :=
  patterns.filterMap (fun p => (lib.globNew p).toOption)

/-- One recorded message per pattern that fails to parse, in order. -/
def parseFails {G : Type} (lib : GlobLib G) (patterns : List String) : List String :=
  patterns.filterMap (fun p =>
    match lib.globNew p with
    | .ok _ => none
    | .error e => some (globParseMsg p e))

/-- The size `apply`/the scans can observe for a path: the `len()` of a
successful `symlink_metadata`, and 0 when the stat fails or the path is
gone. -/
def readSize (fs : FNode) (p : FsPath) : Nat :=
  match statF fs p with
  | .ok sz => sz
  | _ => 0

/-- The size a path's node actually has in the tree, whether or not a
stat call on it succeeds. -/
def trueSize (fs : FNode) (p : FsPath) : Nat :=
  match resolveK fs p with
  | .found (.file sz _ _) => sz
  | .found (.symlink sz _ _) => sz
  | _ => 0

/-- Is `r` a strict component-wise ancestor of `p`? -/
def strictUnder (r p : FsPath) : Bool :=
  isUnder r p && decide (r.length < p.length)

/-- No configured root lies strictly inside another configured root's
subtree (and so no root's walk can list another root). -/
def rootsNoNest (roots : List FsPath) : Bool :=
  roots.all (fun r => roots.all (fun s => !(strictUnder r s)))

/-- The error-accounting invariant of a scan: the counter equals the
number of recorded messages. -/
def EInv (s : RuleScan) : Prop := s.errors = s.error_messages.length

/-- A minimal rule value used to instantiate witnesses. -/
def ruleNoop : Rule :=
  { id := "x", label := "x", description := none, kind := .paths, paths := [],
    requires_sudo := false, enabled_by_default := false, distros := [],
    exclude_globs := [], older_than_days := none }

/-- Example tree: a directory `d` that still contains a file `x` not
recorded by any scan. -/
def exFsNonEmptyDir : FNode :=
  .dir [("d", .dir [("x", .file 1 none Flags.good)] true 0 Flags.good)] true 0 Flags.good

/-- Example scan recording only the directory `d` (not its content). -/
def exScanDirOnly : RuleScan :=
  { rule := ruleNoop, bytes := 0, entries := 0, files := [],
    dirs := [["d"]], errors := 0, error_messages := [] }

/-- Example tree: a single removable file `f`. -/
def exFsOneFile : FNode :=
  .dir [("f", .file 5 none Flags.good)] true 0 Flags.good

/-- Example scan recording the file `f` plus an already-absent dir. -/
def exScanOneFile : RuleScan :=
  { rule := ruleNoop, bytes := 0, entries := 0, files := [["f"]],
    dirs := [["gone"]], errors := 0, error_messages := [] }

/-- Number of attempts in a trace that failed for a reason other than
`NotFound` (exactly the ones `apply` counts as errors). -/
def countFailed (tr : List Attempt) : Nat :=
  (tr.filter (fun a => a.2 = AttemptRes.failed)).length

/-- Number of attempts in a trace that removed their path. -/
def countRemoved (tr : List Attempt) : Nat :=
  (tr.filter (fun a =>
    match a.2 with
    | .removed _ => true
    | _ => false)).length

/-- Bytes credited by the removed attempts of a trace. -/
def sumRemovedBytes (tr : List Attempt) : Nat :=
  (tr.map (fun a =>
    match a.2 with
    | .removed sz => sz
    | _ => 0)).sum

/-- Certificate for an entry of the archive list the downloads listing
loop builds: it stems from a readable, non-symlink, non-directory child
whose name carries a recognized archive suffix. -/
def archCert (root : FsPath) (l : List (String × FNode))
    (a : String × FsPath × Nat) : Prop :=
  ∃ nm c meta, (nm, c) ∈ l ∧ lstat c = some meta ∧
    archive_base_name nm = some a.1 ∧ a.2.1 = root ++ [nm] ∧ a.2.2 = meta.size ∧
    isDirNode c = false ∧ isSymlinkNode c = false ∧ c ≠ .errEnt

/-- Certificate for an entry of the folder map the downloads listing
loop builds: it stems from a non-symlink directory child of the root. -/
def folderCert (root : FsPath) (l : List (String × FNode))
    (f : String × FsPath) : Prop :=
  ∃ d, (f.1, d) ∈ l ∧ isDirNode d = true ∧ isSymlinkNode d = false ∧
    f.2 = root ++ [f.1]

/-- A glob library for concrete instances: every pattern parses and the
built matcher matches nothing. -/
def exGlobLib : GlobLib Unit :=
  ⟨fun _ => .ok (), fun _ => .ok (fun _ => false)⟩

/-- A Paths rule whose single configured root is the file `f`. -/
def exRulePaths : Rule := { ruleNoop with paths := [["f"]] }

/-- Example tree: a single file `f` of size 5 whose `symlink_metadata`
call fails (`statOk = false`). -/
def exFsStatFail : FNode :=
  .dir [("f", .file 5 none ⟨false, true, true, true⟩)] true 0 Flags.good

/-- Example tree: a directory `r` containing a symlink `s` (target
exists, size 3). -/
def exFsSym : FNode :=
  .dir [("r", .dir [("s", .symlink 3 true Flags.good)] true 0 Flags.good)]
    true 0 Flags.good

/-- A Paths rule whose single configured root is the directory `r`. -/
def exRuleSymPaths : Rule := { ruleNoop with paths := [["r"]] }

/-- Example downloads tree: `dl` holds a paired archive `proj.tar.gz`
with its directory `proj`, an unpaired archive `lone.zip` and an
unpaired directory `unpaired`. -/
def exFsDl : FNode :=
  .dir [("dl", .dir
    [("proj.tar.gz", .file 11 none Flags.good),
     ("proj", .dir [("inner.txt", .file 4 none Flags.good)] true 0 Flags.good),
     ("lone.zip", .file 13 none Flags.good),
     ("unpaired", .dir [] true 0 Flags.good)] true 0 Flags.good)]
    true 0 Flags.good

/-- A Downloads rule whose single configured root is `dl`. -/
def exRuleDl : Rule := { ruleNoop with kind := .downloads, paths := [["dl"]] }

/-! Theorems. -/

theorem globLoop_eq {G : Type} (lib : GlobLib G) :
    ∀ (pats : List String) (bld : List G) (errs : List String),
      globLoop lib pats bld errs =
        (bld ++ parseOks lib pats, errs ++ parseFails lib pats) := by
  intro pats
  induction pats with
  | nil => intro bld errs; simp [globLoop, parseOks, parseFails]
  | cons p ps ih =>
    intro bld errs
    simp only [globLoop, parseOks, parseFails, List.filterMap_cons]
    cases h : lib.globNew p with
    | ok gl =>
      simp only [h, Except.toOption, ih]
      simp only [parseOks, parseFails, List.append_assoc, List.singleton_append]
      rfl
    | error e =>
      simp only [h, Except.toOption, ih]
      simp only [parseOks, parseFails, List.append_assoc, List.singleton_append]
      rfl

/-- C9: the Glob Compiler maps an empty pattern list to no matcher and
no error messages; each pattern that fails to parse yields exactly one
message while the remaining patterns are still compiled into the final
matcher; and if the final matcher build fails, the result is no matcher
plus one additional message. -/
theorem glob_compiler_contract {G : Type} (lib : GlobLib G) :
    build_globset lib [] = (none, []) ∧
    ∀ (p : String) (ps : List String),
      (match lib.buildSet (parseOks lib (p :: ps)) with
       | .ok set => build_globset lib (p :: ps) = (some set, parseFails lib (p :: ps))
       | .error e => build_globset lib (p :: ps) =
           (none, parseFails lib (p :: ps) ++ [globBuildMsg e])) := by
  refine ⟨rfl, ?_⟩
  intro p ps
  cases h : lib.buildSet (parseOks lib (p :: ps)) with
  | ok set => simp [build_globset, globLoop_eq, h]
  | error e => simp [build_globset, globLoop_eq, h]

/-- C8: with a configured day threshold whose span does not underflow
`now`, the cutoff is `now − days·24h` and a file qualifies exactly when
its modification time is at or before the cutoff: the file modified
exactly at the cutoff is included, one second later is excluded. -/
theorem log_age_cutoff_semantics (now days m : Nat) (p : FsPath) (scan : RuleScan)
    (h1 : days * 86400 ≤ now) (h2 : days * 86400 ≤ u64Max) :
    cutoff_from_days now days = some (now - days * 86400) ∧
    ((is_older_than (some m) (cutoff_from_days now days) p scan).1 = true ↔
      m ≤ now - days * 86400) ∧
    (is_older_than (some (now - days * 86400)) (cutoff_from_days now days) p scan).1
      = true ∧
    (is_older_than (some (now - days * 86400 + 1)) (cutoff_from_days now days) p scan).1
      = false := by
  have hc : cutoff_from_days now days = some (now - days * 86400) := by
    simp [cutoff_from_days, Nat.min_eq_left h2, h1]
  refine ⟨hc, ?_, ?_, ?_⟩ <;> simp [hc, is_older_than]

theorem log_age_cutoff_semantics_witness :
    (7 * 86400 ≤ 1209600 ∧ 7 * 86400 ≤ u64Max) ∧
    (is_older_than (some (1209600 - 7 * 86400)) (cutoff_from_days 1209600 7) []
      (emptyScan ruleNoop)).1 = true ∧
    (is_older_than (some (1209600 - 7 * 86400 + 1)) (cutoff_from_days 1209600 7) []
      (emptyScan ruleNoop)).1 = false := by
  have h1 : 7 * 86400 ≤ 1209600 := by norm_num
  have h2 : 7 * 86400 ≤ u64Max := by norm_num [u64Max]
  have h := log_age_cutoff_semantics 1209600 7 0 [] (emptyScan ruleNoop) h1 h2
  exact ⟨⟨h1, h2⟩, h.2.2.1, h.2.2.2⟩

theorem record_error_einv {s : RuleScan} {m : String} (h : EInv s) :
    EInv (record_error s m) := by
  simp [EInv, record_error] at *
  omega

theorem foldl_record_error_einv :
    ∀ (msgs : List String) (s : RuleScan), EInv s →
      EInv (msgs.foldl record_error s) := by
  intro msgs
  induction msgs with
  | nil => intro s h; simpa using h
  | cons m ms ih =>
    intro s h
    simpa using ih _ (record_error_einv h)

theorem procWalk_fixed_fields (root : FsPath) (excl : Option (FsPath → Bool)) :
    ∀ (evs : List WEvent) (scan : RuleScan) (msgs : List String),
      ((procWalk root excl evs (scan, msgs)).1.errors = scan.errors) ∧
      ((procWalk root excl evs (scan, msgs)).1.error_messages = scan.error_messages) ∧
      ((procWalk root excl evs (scan, msgs)).1.rule = scan.rule) := by
  intro evs
  induction evs with
  | nil => intro scan msgs; simp [procWalk]
  | cons ev rest ih =>
    intro scan msgs
    cases ev with
    | ok q m =>
      simp only [procWalk]
      split_ifs with h1 h2 h3
      · exact ih scan msgs
      · exact ih scan msgs
      · exact ih _ msgs
      · exact ih _ msgs
    | err op =>
      cases op with
      | some p => exact ih scan _
      | none => exact ih scan _

theorem scan_root_fixed_fields (fs : FNode) (root : FsPath)
    (excl : Option (FsPath → Bool)) (scan : RuleScan) :
    ((scan_root fs root excl scan).1.errors = scan.errors) ∧
    ((scan_root fs root excl scan).1.error_messages = scan.error_messages) ∧
    ((scan_root fs root excl scan).1.rule = scan.rule) := by
  unfold scan_root
  cases h : resolveK fs root with
  | found n =>
    cases n with
    | file sz md fl => simp [rootIsFileOrSymlink]; split_ifs <;> simp
    | symlink sz te fl => simp [rootIsFileOrSymlink]; split_ifs <;> simp
    | dir ch ro dev fl => simpa [rootIsFileOrSymlink] using procWalk_fixed_fields root excl _ scan []
    | errEnt => simpa [rootIsFileOrSymlink] using procWalk_fixed_fields root excl _ scan []
  | missing => exact procWalk_fixed_fields root excl _ scan []
  | notDir => exact procWalk_fixed_fields root excl _ scan []

theorem scan_root_then_record_einv (fs : FNode) (root : FsPath)
    (excl : Option (FsPath → Bool)) (scan : RuleScan) (h : EInv scan) :
    EInv ((scan_root fs root excl scan).2.foldl record_error
      (scan_root fs root excl scan).1) := by
  apply foldl_record_error_einv
  have hf := scan_root_fixed_fields fs root excl scan
  simp [EInv, hf.1, hf.2.1]
  exact h

theorem pathsRoots_einv (fs : FNode) (excl : Option (FsPath → Bool)) :
    ∀ (roots : List FsPath) (scan : RuleScan), EInv scan →
      EInv (pathsRoots fs excl roots scan) := by
  intro roots
  induction roots with
  | nil => intro scan h; simpa [pathsRoots] using h
  | cons root rest ih =>
    intro scan h
    simp only [pathsRoots]
    apply ih
    cases hr : resolveK fs root with
    | found n =>
      dsimp only
      split_ifs with he
      · exact scan_root_then_record_einv fs root excl scan h
      · exact h
    | missing => exact h
    | notDir => exact h

theorem is_older_than_einv {md cutoff : Option Nat} {p : FsPath} {s : RuleScan}
    (h : EInv s) : EInv (is_older_than md cutoff p s).2 := by
  unfold is_older_than
  cases cutoff with
  | none => exact h
  | some c =>
    cases md with
    | some m => exact h
    | none => exact record_error_einv h

theorem scan_log_path_einv (fs : FNode) (p root : FsPath)
    (excl : Option (FsPath → Bool)) (cutoff : Option Nat) (s : RuleScan)
    (h : EInv s) : EInv (scan_log_path fs p root excl cutoff s) := by
  unfold scan_log_path
  split_ifs with h1 h2
  · exact h
  · exact h
  · cases hr : resolveK fs p with
    | found n =>
      dsimp only
      cases hl : lstat n with
      | none => exact record_error_einv h
      | some meta =>
        dsimp only
        split_ifs with h3 h5
        · exact h
        · exact is_older_than_einv h
        · simpa [EInv] using (@is_older_than_einv meta.modified cutoff p s h)
    | missing => exact record_error_einv h
    | notDir => exact record_error_einv h

theorem procLogs_einv (root : FsPath) (excl : Option (FsPath → Bool))
    (cutoff : Option Nat) :
    ∀ (evs : List WEvent) (s : RuleScan), EInv s →
      EInv (procLogs root excl cutoff evs s) := by
  intro evs
  induction evs with
  | nil => intro s h; simpa [procLogs] using h
  | cons ev rest ih =>
    intro s h
    cases ev with
    | ok q m =>
      simp only [procLogs]
      split_ifs with h1 h2 h3 h4 h5
      · exact ih s h
      · exact ih s h
      · exact ih s h
      · exact ih s h
      · exact ih s h
      · cases hl : lstat m with
        | none => exact ih _ (record_error_einv h)
        | some meta =>
          dsimp only
          split_ifs with h6 h8
          · exact ih s h
          · exact ih _ (is_older_than_einv h)
          · apply ih
            simpa [EInv] using (@is_older_than_einv meta.modified cutoff q s h)
    | err op =>
      cases op with
      | some p => exact ih _ (record_error_einv h)
      | none => exact ih _ (record_error_einv h)

theorem logsRoots_einv (fs : FNode) (excl : Option (FsPath → Bool))
    (cutoff : Option Nat) :
    ∀ (roots : List FsPath) (s : RuleScan), EInv s →
      EInv (logsRoots fs excl cutoff roots s) := by
  intro roots
  induction roots with
  | nil => intro s h; simpa [logsRoots] using h
  | cons root rest ih =>
    intro s h
    simp only [logsRoots]
    apply ih
    cases hr : resolveK fs root with
    | found n =>
      dsimp only
      split_ifs with h1 h2 h3
      · exact h
      · exact scan_log_path_einv fs root _ excl cutoff s h
      · exact scan_log_path_einv fs root _ excl cutoff s h
      · exact procLogs_einv root excl cutoff _ s h
    | missing => exact h
    | notDir => exact h

theorem collectStep_einv (root : FsPath) (name : String) (c : FNode)
    (acc : RuleScan × List (String × FsPath × Nat) × List (String × FsPath))
    (h : EInv acc.1) : EInv (collectStep root name c acc).1 := by
  obtain ⟨s, archives, folders⟩ := acc
  cases c with
  | errEnt => simp only [collectStep]; exact record_error_einv h
  | file sz md fl =>
    simp only [collectStep, utf8Of, ftypeOkOf, isSymlinkNode, isDirNode,
      Bool.false_eq_true, if_false, if_true]
    split_ifs with h1 h2
    · exact record_error_einv h
    · exact record_error_einv h
    · cases hb : archive_base_name name with
      | none => exact h
      | some base =>
        dsimp only [lstat]
        split_ifs with h5
        · exact h
        · exact record_error_einv h
  | symlink sz te fl =>
    simp only [collectStep, utf8Of, ftypeOkOf, isSymlinkNode, isDirNode,
      Bool.false_eq_true, if_false, if_true]
    split_ifs with h1 h2
    · exact record_error_einv h
    · exact record_error_einv h
    · exact h
  | dir ch2 ro dev fl =>
    simp only [collectStep, utf8Of, ftypeOkOf, isSymlinkNode, isDirNode,
      Bool.false_eq_true, if_false, if_true]
    split_ifs with h1 h2
    · exact record_error_einv h
    · exact record_error_einv h
    · exact h

theorem collectDownloads_einv (root : FsPath) :
    ∀ (ch : List (String × FNode))
      (acc : RuleScan × List (String × FsPath × Nat) × List (String × FsPath)),
      EInv acc.1 → EInv (collectDownloads root ch acc).1 := by
  intro ch
  induction ch with
  | nil => intro acc h; simpa [collectDownloads] using h
  | cons e rest ih =>
    intro acc h
    obtain ⟨name, c⟩ := e
    simp only [collectDownloads]
    exact ih _ (collectStep_einv root name c acc h)

theorem pairDownloads_einv (fs : FNode) (choice : DownloadsChoice)
    (folders : List (String × FsPath)) :
    ∀ (archives : List (String × FsPath × Nat)) (s : RuleScan) (seen : List FsPath),
      EInv s → EInv (pairDownloads fs choice folders archives (s, seen)).1 := by
  intro archives
  induction archives with
  | nil => intro s seen h; simpa [pairDownloads] using h
  | cons a rest ih =>
    intro s seen h
    obtain ⟨base, apath, size⟩ := a
    simp only [pairDownloads]
    cases hl : lookupA folders base with
    | none => exact ih s seen h
    | some dpath =>
      dsimp only
      cases choice with
      | archives =>
        apply ih
        simpa [EInv] using h
      | folders =>
        dsimp only
        split_ifs with h1
        · exact ih s seen h
        · apply ih
          simpa [EInv] using scan_root_then_record_einv fs dpath none s h

theorem downloadsRoots_einv (fs : FNode) (choice : DownloadsChoice) :
    ∀ (roots : List FsPath) (s : RuleScan), EInv s →
      EInv (downloadsRoots fs choice roots s) := by
  intro roots
  induction roots with
  | nil => intro s h; simpa [downloadsRoots] using h
  | cons root rest ih =>
    intro s h
    simp only [downloadsRoots]
    apply ih
    cases hr : resolveK fs root with
    | found n =>
      dsimp only
      cases hl : lstat n with
      | none => exact record_error_einv h
      | some meta =>
        dsimp only
        split_ifs with h1
        · exact h
        · cases n with
          | file sz md fl => exact h
          | symlink sz te fl => exact h
          | errEnt => exact h
          | dir ch ro dev fl =>
            dsimp only
            split_ifs with h2
            · exact record_error_einv h
            · exact pairDownloads_einv fs choice _ _ _ []
                (collectDownloads_einv root ch (s, [], []) h)
    | missing => exact record_error_einv h
    | notDir => exact record_error_einv h

/-- C10: for every `RuleScan` produced by `scan_rule`-- any rule kind,
any options-- the `errors` counter equals the length of the
`error_messages` list. -/
theorem scan_rule_errors_eq_messages {G : Type} (lib : GlobLib G) (now : Nat)
    (fs : FNode) (rule : Rule) (options : ScanOptions) :
    (scan_rule lib now fs rule options).errors =
      (scan_rule lib now fs rule options).error_messages.length := by
  have hempty : EInv (emptyScan rule) := by simp [EInv, emptyScan]
  have hbase : EInv ((build_globset lib rule.exclude_globs).2.foldl record_error
      (emptyScan rule)) := foldl_record_error_einv _ _ hempty
  unfold scan_rule
  cases hk : rule.kind with
  | paths =>
    unfold scan_paths_rule
    exact pathsRoots_einv fs _ _ _ hbase
  | downloads =>
    unfold scan_downloads_rule
    cases options.downloadsChoice with
    | none => exact hempty
    | some c => exact downloadsRoots_einv fs c _ _ hempty
  | logs =>
    unfold scan_logs_rule
    exact logsRoots_einv fs _ _ _ _ hbase

theorem countFailed_append (a b : List Attempt) :
    countFailed (a ++ b) = countFailed a + countFailed b := by
  simp [countFailed]

theorem countRemoved_append (a b : List Attempt) :
    countRemoved (a ++ b) = countRemoved a + countRemoved b := by
  simp [countRemoved]

theorem sumRemovedBytes_append (a b : List Attempt) :
    sumRemovedBytes (a ++ b) = sumRemovedBytes a + sumRemovedBytes b := by
  simp [sumRemovedBytes]

theorem applyFiles_spec : ∀ (paths : List FsPath) (fs : FNode) (rep : CleanReport),
    ((applyFiles fs paths rep).2.2.map Prod.fst = paths) ∧
    ((applyFiles fs paths rep).2.1.errors =
      rep.errors + countFailed (applyFiles fs paths rep).2.2) ∧
    ((applyFiles fs paths rep).2.1.files_removed =
      rep.files_removed + countRemoved (applyFiles fs paths rep).2.2) ∧
    ((applyFiles fs paths rep).2.1.bytes_freed =
      rep.bytes_freed + sumRemovedBytes (applyFiles fs paths rep).2.2) ∧
    ((applyFiles fs paths rep).2.1.dirs_removed = rep.dirs_removed) := by
  intro paths
  induction paths with
  | nil =>
    intro fs rep
    simp [applyFiles, countFailed, countRemoved, sumRemovedBytes]
  | cons p rest ih =>
    intro fs rep
    simp only [applyFiles]
    cases hs : statF fs p with
    | notFound =>
      dsimp only
      have hi := ih fs rep
      refine ⟨by simp [hi.1], ?_, ?_, ?_, ?_⟩ <;>
        simp [countFailed, countRemoved, sumRemovedBytes, hi.2.1, hi.2.2.1,
          hi.2.2.2.1, hi.2.2.2.2]
    | otherErr =>
      dsimp only
      have hi := ih fs { rep with errors := rep.errors + 1 }
      refine ⟨by simp [hi.1], ?_, ?_, ?_, ?_⟩ <;>
        simp [countFailed, countRemoved, sumRemovedBytes, hi.2.1, hi.2.2.1,
          hi.2.2.2.1, hi.2.2.2.2] <;> try omega
    | ok size =>
      dsimp only
      cases hr : removePath false fs p with
      | ok fs1 =>
        dsimp only
        have hi := ih fs1
          { rep with bytes_freed := rep.bytes_freed + size,
                     files_removed := rep.files_removed + 1 }
        refine ⟨by simp [hi.1], ?_, ?_, ?_, ?_⟩ <;>
          simp [countFailed, countRemoved, sumRemovedBytes, hi.2.1, hi.2.2.1,
            hi.2.2.2.1, hi.2.2.2.2] <;> try omega
      | notFound =>
        dsimp only
        have hi := ih fs { rep with errors := rep.errors + 1 }
        refine ⟨by simp [hi.1], ?_, ?_, ?_, ?_⟩ <;>
          simp [countFailed, countRemoved, sumRemovedBytes, hi.2.1, hi.2.2.1,
            hi.2.2.2.1, hi.2.2.2.2] <;> try omega
      | failed =>
        dsimp only
        have hi := ih fs { rep with errors := rep.errors + 1 }
        refine ⟨by simp [hi.1], ?_, ?_, ?_, ?_⟩ <;>
          simp [countFailed, countRemoved, sumRemovedBytes, hi.2.1, hi.2.2.1,
            hi.2.2.2.1, hi.2.2.2.2] <;> try omega

theorem applyDirs_spec : ∀ (paths : List FsPath) (fs : FNode) (rep : CleanReport),
    ((applyDirs fs paths rep).2.2.map Prod.fst = paths) ∧
    ((applyDirs fs paths rep).2.1.errors =
      rep.errors + countFailed (applyDirs fs paths rep).2.2) ∧
    ((applyDirs fs paths rep).2.1.dirs_removed =
      rep.dirs_removed + countRemoved (applyDirs fs paths rep).2.2) ∧
    ((applyDirs fs paths rep).2.1.files_removed = rep.files_removed) ∧
    ((applyDirs fs paths rep).2.1.bytes_freed = rep.bytes_freed) := by
  intro paths
  induction paths with
  | nil =>
    intro fs rep
    simp [applyDirs, countFailed, countRemoved]
  | cons p rest ih =>
    intro fs rep
    simp only [applyDirs]
    cases hr : removePath true fs p with
    | ok fs1 =>
      dsimp only
      have hi := ih fs1 { rep with dirs_removed := rep.dirs_removed + 1 }
      refine ⟨by simp [hi.1], ?_, ?_, ?_, ?_⟩ <;>
        simp [countFailed, countRemoved, hi.2.1, hi.2.2.1, hi.2.2.2.1,
          hi.2.2.2.2] <;> try omega
    | notFound =>
      dsimp only
      have hi := ih fs rep
      refine ⟨by simp [hi.1], ?_, ?_, ?_, ?_⟩ <;>
        simp [countFailed, countRemoved, hi.2.1, hi.2.2.1, hi.2.2.2.1, hi.2.2.2.2]
    | failed =>
      dsimp only
      have hi := ih fs { rep with errors := rep.errors + 1 }
      refine ⟨by simp [hi.1], ?_, ?_, ?_, ?_⟩ <;>
        simp [countFailed, countRemoved, hi.2.1, hi.2.2.1, hi.2.2.2.1,
          hi.2.2.2.2] <;> try omega

theorem applyScan_spec (fs : FNode) (scan : RuleScan) (rep : CleanReport) :
    ((applyScan fs scan rep).2.2.1.map Prod.fst = scan.files) ∧
    ((applyScan fs scan rep).2.2.2.map Prod.fst = sortDirs scan.dirs) ∧
    ((applyScan fs scan rep).2.1.errors = rep.errors +
      countFailed (applyScan fs scan rep).2.2.1 +
      countFailed (applyScan fs scan rep).2.2.2) ∧
    ((applyScan fs scan rep).2.1.files_removed = rep.files_removed +
      countRemoved (applyScan fs scan rep).2.2.1) ∧
    ((applyScan fs scan rep).2.1.dirs_removed = rep.dirs_removed +
      countRemoved (applyScan fs scan rep).2.2.2) ∧
    ((applyScan fs scan rep).2.1.bytes_freed = rep.bytes_freed +
      sumRemovedBytes (applyScan fs scan rep).2.2.1) := by
  simp only [applyScan]
  obtain ⟨ha1, ha2, ha3, ha4, ha5⟩ := applyFiles_spec scan.files fs rep
  obtain ⟨hb1, hb2, hb3, hb4, hb5⟩ := applyDirs_spec (sortDirs scan.dirs)
    (applyFiles fs scan.files rep).1 (applyFiles fs scan.files rep).2.1
  exact ⟨ha1, hb1, by omega, by omega, by omega, by omega⟩

theorem applyGo_spec : ∀ (scans : List RuleScan) (fs : FNode) (rep : CleanReport),
    ((applyGo fs scans rep).2.2.1.map Prod.fst = (scans.map (fun s => s.files)).flatten) ∧
    ((applyGo fs scans rep).2.2.2.map Prod.fst =
      (scans.map (fun s => sortDirs s.dirs)).flatten) ∧
    ((applyGo fs scans rep).2.1.errors = rep.errors +
      countFailed (applyGo fs scans rep).2.2.1 +
      countFailed (applyGo fs scans rep).2.2.2) ∧
    ((applyGo fs scans rep).2.1.files_removed = rep.files_removed +
      countRemoved (applyGo fs scans rep).2.2.1) ∧
    ((applyGo fs scans rep).2.1.dirs_removed = rep.dirs_removed +
      countRemoved (applyGo fs scans rep).2.2.2) ∧
    ((applyGo fs scans rep).2.1.bytes_freed = rep.bytes_freed +
      sumRemovedBytes (applyGo fs scans rep).2.2.1) := by
  intro scans
  induction scans with
  | nil =>
    intro fs rep
    simp [applyGo, countFailed, countRemoved, sumRemovedBytes]
  | cons scan rest ih =>
    intro fs rep
    simp only [applyGo]
    obtain ⟨ha1, ha2, ha3, ha4, ha5, ha6⟩ := applyScan_spec fs scan rep
    obtain ⟨hb1, hb2, hb3, hb4, hb5, hb6⟩ :=
      ih (applyScan fs scan rep).1 (applyScan fs scan rep).2.1
    refine ⟨?_, ?_, ?_, ?_, ?_, ?_⟩
    · simp [ha1, hb1]
    · simp [ha2, hb2]
    · simp only [countFailed_append]; omega
    · simp only [countRemoved_append]; omega
    · simp only [countRemoved_append]; omega
    · simp only [sumRemovedBytes_append]; omega

/-- C5: during `apply`, every recorded file path and every recorded
directory path of every scan is attempted (a per-path failure never
aborts the sweep); the error counter counts exactly the attempts that
failed for a reason other than `NotFound`, so a `NotFound` is silently
skipped and contributes to no counter; the removal counters and freed
bytes likewise count exactly the successful removals. -/
theorem apply_counts_non_notfound_failures (fs : FNode) (scans : List RuleScan) :
    ((apply fs scans).2.2.1.map Prod.fst = (scans.map (fun s => s.files)).flatten) ∧
    ((apply fs scans).2.2.2.map Prod.fst =
      (scans.map (fun s => sortDirs s.dirs)).flatten) ∧
    ((apply fs scans).2.1.errors =
      countFailed (apply fs scans).2.2.1 + countFailed (apply fs scans).2.2.2) ∧
    ((apply fs scans).2.1.files_removed = countRemoved (apply fs scans).2.2.1) ∧
    ((apply fs scans).2.1.dirs_removed = countRemoved (apply fs scans).2.2.2) ∧
    ((apply fs scans).2.1.bytes_freed = sumRemovedBytes (apply fs scans).2.2.1) := by
  have h := applyGo_spec scans fs CleanReport.default
  simpa [apply, CleanReport.default] using h

theorem insDeep_mem (p : FsPath) : ∀ (l : List FsPath) (x : FsPath),
    x ∈ insDeep p l ↔ x = p ∨ x ∈ l := by
  intro l
  induction l with
  | nil => intro x; simp [insDeep]
  | cons q rest ih =>
    intro x
    simp only [insDeep]
    split_ifs with h
    · simp [or_comm, or_left_comm]
    · simp only [List.mem_cons, ih]
      tauto

theorem insDeep_pairwise (p : FsPath) :
    ∀ (l : List FsPath),
      List.Pairwise (fun x y : FsPath => y.length ≤ x.length) l →
      List.Pairwise (fun x y : FsPath => y.length ≤ x.length) (insDeep p l) := by
  intro l
  induction l with
  | nil => intro _; simp [insDeep]
  | cons q rest ih =>
    intro h
    rw [List.pairwise_cons] at h
    simp only [insDeep]
    split_ifs with hq
    · refine List.pairwise_cons.mpr ⟨?_, List.pairwise_cons.mpr ⟨h.1, h.2⟩⟩
      intro y hy
      rcases List.mem_cons.mp hy with rfl | hy'
      · omega
      · have := h.1 y hy'
        omega
    · refine List.pairwise_cons.mpr ⟨?_, ih h.2⟩
      intro y hy
      rcases (insDeep_mem p rest y).mp hy with rfl | hy'
      · omega
      · exact h.1 y hy'

theorem sortDirs_go_pairwise :
    ∀ (l : List FsPath) (acc : List FsPath),
      List.Pairwise (fun x y : FsPath => y.length ≤ x.length) acc →
      List.Pairwise (fun x y : FsPath => y.length ≤ x.length)
        (l.foldl (fun acc p => insDeep p acc) acc) := by
  intro l
  induction l with
  | nil => intro acc h; simpa using h
  | cons p rest ih =>
    intro acc h
    simp only [List.foldl_cons]
    exact ih _ (insDeep_pairwise p acc h)

theorem sortDirs_pairwise (l : List FsPath) :
    List.Pairwise (fun x y : FsPath => y.length ≤ x.length) (sortDirs l) :=
  sortDirs_go_pairwise l [] (by simp)

theorem sortDirs_go_mem :
    ∀ (l : List FsPath) (acc : List FsPath) (x : FsPath),
      (x ∈ l.foldl (fun acc p => insDeep p acc) acc ↔ x ∈ acc ∨ x ∈ l) := by
  intro l
  induction l with
  | nil => intro acc x; simp
  | cons p rest ih =>
    intro acc x
    simp only [List.foldl_cons, ih, insDeep_mem, List.mem_cons]
    tauto

theorem mem_sortDirs (l : List FsPath) (x : FsPath) : x ∈ sortDirs l ↔ x ∈ l := by
  simp [sortDirs, sortDirs_go_mem]

theorem removePath_ok_empty_dir :
    ∀ (q : FsPath) (g : FNode) (fs1 : FNode),
      removePath true g q = RmRes.ok fs1 →
      ∃ ro dev fl, resolveK g q = .found (.dir [] ro dev fl) := by
  intro q
  induction q with
  | nil => intro g fs1 h; simp [removePath] at h
  | cons name rest ih =>
    intro g fs1 h
    cases g with
    | file sz md fl => simp [removePath] at h
    | symlink sz te fl => simp [removePath] at h
    | errEnt => simp [removePath] at h
    | dir ch ro dev fl =>
      cases rest with
      | nil =>
        simp only [removePath] at h
        cases hl : lookupName ch name with
        | none => rw [hl] at h; simp at h
        | some c =>
          rw [hl] at h
          dsimp only at h
          split_ifs at h with hall
          · cases c with
            | dir ch2 ro2 dev2 fl2 =>
              simp only [rmAllowed, Bool.and_eq_true, List.isEmpty_iff] at hall
              refine ⟨ro2, dev2, fl2, ?_⟩
              simp [resolveK, hl, hall.1.2]
            | file _ _ _ => simp [rmAllowed] at hall
            | symlink _ _ _ => simp [rmAllowed] at hall
            | errEnt => simp [rmAllowed] at hall
      | cons n2 rest2 =>
        simp only [removePath] at h
        cases hl : lookupName ch name with
        | none => rw [hl] at h; simp at h
        | some c =>
          rw [hl] at h
          dsimp only at h
          cases hr : removePath true c (n2 :: rest2) with
          | ok c' =>
            obtain ⟨ro2, dev2, fl2, hres⟩ := ih c c' hr
            exact ⟨ro2, dev2, fl2, by simp [resolveK, hl, hres]⟩
          | notFound => rw [hr] at h; simp at h
          | failed => rw [hr] at h; simp at h

/-- C4: in `apply`, a scan's recorded directories are attempted exactly
in descending component-count order: the trace attempts every entry of
the sorted list in order; any occurrence of `a ++ b` (a strict
descendant) sits strictly before any occurrence of `a`; a failed
removal only adds to the error count (all attempts still happen); and a
directory removal only ever succeeds on an empty directory (never
recursive). -/
theorem apply_dirs_deepest_first (fs : FNode) (scan : RuleScan) (rep : CleanReport)
    (a b : FsPath) (hb : b ≠ []) :
    ((applyScan fs scan rep).2.2.2.map Prod.fst = sortDirs scan.dirs) ∧
    (a ++ b ∈ scan.dirs → a ++ b ∈ sortDirs scan.dirs) ∧
    (a ∈ scan.dirs → a ∈ sortDirs scan.dirs) ∧
    (∀ (i j : Nat) (hi : i < (sortDirs scan.dirs).length)
      (hj : j < (sortDirs scan.dirs).length),
      (sortDirs scan.dirs).get ⟨i, hi⟩ = a ++ b →
      (sortDirs scan.dirs).get ⟨j, hj⟩ = a → i < j) ∧
    (∀ (g : FNode) (q : FsPath) (fs1 : FNode),
      removePath true g q = RmRes.ok fs1 →
      ∃ ro dev fl, resolveK g q = .found (.dir [] ro dev fl)) ∧
    ((applyScan fs scan rep).2.1.errors = rep.errors +
      countFailed (applyScan fs scan rep).2.2.1 +
      countFailed (applyScan fs scan rep).2.2.2) := by
  have hs := applyScan_spec fs scan rep
  refine ⟨hs.2.1, (mem_sortDirs _ _).mpr, (mem_sortDirs _ _).mpr, ?_,
    fun g q fs1 h => removePath_ok_empty_dir q g fs1 h, hs.2.2.1⟩
  intro i j hi hj hgi hgj
  by_contra hij
  have hpw := sortDirs_pairwise scan.dirs
  rcases Nat.lt_or_ge j i with hji | hij2
  · have := (List.pairwise_iff_get.mp hpw) ⟨j, hj⟩ ⟨i, hi⟩ hji
    rw [hgi, hgj] at this
    simp only [List.length_append] at this
    have hb0 : b.length = 0 := by omega
    exact hb (List.eq_nil_of_length_eq_zero hb0)
  · have hij3 : i = j := by omega
    subst hij3
    rw [hgi] at hgj
    have hlen : (a ++ b).length = a.length := by rw [hgj]
    simp only [List.length_append] at hlen
    exact hb (List.eq_nil_of_length_eq_zero (by omega))

theorem apply_dirs_deepest_first_witness :
    ((["b"] : FsPath) ≠ []) ∧
    ((applyScan (.dir [] true 0 Flags.good)
      { rule := ruleNoop, bytes := 0, entries := 0, files := [],
        dirs := [["a"], ["a", "b"]], errors := 0,
        error_messages := [] } CleanReport.default).2.2.2.map Prod.fst =
      [["a", "b"], ["a"]]) := by
  have h := apply_dirs_deepest_first (.dir [] true 0 Flags.good)
    { rule := ruleNoop, bytes := 0, entries := 0, files := [],
      dirs := [["a"], ["a", "b"]], errors := 0, error_messages := [] }
    CleanReport.default ["a"] ["b"] (by decide)
  refine ⟨by decide, ?_⟩
  rw [h.1]
  rfl

theorem removePath_notFound_of_missing :
    ∀ (q : FsPath) (b : Bool) (g : FNode),
      resolveK g q = .missing → removePath b g q = .notFound := by
  intro q
  induction q with
  | nil => intro b g h; simp [resolveK] at h
  | cons name rest ih =>
    intro b g h
    cases g with
    | file sz md fl => simp [resolveK] at h
    | symlink sz te fl => simp [resolveK] at h
    | errEnt => simp [resolveK] at h
    | dir ch ro dev fl =>
      simp only [resolveK] at h
      cases hl : lookupName ch name with
      | none =>
        cases rest with
        | nil => simp [removePath, hl]
        | cons n2 r2 => simp [removePath, hl]
      | some c =>
        rw [hl] at h
        dsimp only at h
        cases rest with
        | nil => simp [resolveK] at h
        | cons n2 r2 =>
          simp only [removePath, hl]
          rw [ih b c h]

theorem resolveK_missing_of_removePath_notFound :
    ∀ (q : FsPath) (b : Bool) (g : FNode),
      removePath b g q = .notFound → resolveK g q = .missing := by
  intro q
  induction q with
  | nil => intro b g h; simp [removePath] at h
  | cons name rest ih =>
    intro b g h
    cases g with
    | file sz md fl =>
      cases rest <;> simp [removePath] at h
    | symlink sz te fl =>
      cases rest <;> simp [removePath] at h
    | errEnt =>
      cases rest <;> simp [removePath] at h
    | dir ch ro dev fl =>
      cases rest with
      | nil =>
        simp only [removePath] at h
        cases hl : lookupName ch name with
        | none => simp [resolveK, hl]
        | some c =>
          rw [hl] at h
          dsimp only at h
          split_ifs at h <;> simp at h
      | cons n2 r2 =>
        simp only [removePath] at h
        cases hl : lookupName ch name with
        | none => simp [resolveK, hl]
        | some c =>
          rw [hl] at h
          dsimp only at h
          cases hr : removePath b c (n2 :: r2) with
          | ok c' => rw [hr] at h; simp at h
          | failed => rw [hr] at h; simp at h
          | notFound =>
            have := ih b c hr
            simp [resolveK, hl, this]

theorem statF_notFound_iff (g : FNode) (q : FsPath) :
    statF g q = .notFound ↔ resolveK g q = .missing := by
  unfold statF
  cases hr : resolveK g q with
  | found n =>
    simp only
    constructor
    · intro h
      cases n <;> simp only [nodeStat] at h <;>
        first
          | (split_ifs at h <;> simp at h)
          | simp at h
    · intro h; simp at h
  | missing => simp
  | notDir => simp

theorem lookupName_remove_same :
    ∀ (ch : List (String × FNode)) (name : String),
      lookupName (removeChildEntry ch name) name = none := by
  intro ch name
  induction ch with
  | nil => simp [removeChildEntry, lookupName]
  | cons e rest ih =>
    obtain ⟨a, c⟩ := e
    simp only [removeChildEntry, List.filter_cons, decide_not] at ih ⊢
    by_cases ha : a = name
    · rw [if_neg (by simp [ha])]
      exact ih
    · rw [if_pos (by simp [ha])]
      simp [lookupName, ha, ih]

theorem lookupName_remove_other :
    ∀ (ch : List (String × FNode)) (name x : String), x ≠ name →
      lookupName (removeChildEntry ch name) x = lookupName ch x := by
  intro ch name x hx
  induction ch with
  | nil => simp [removeChildEntry, lookupName]
  | cons e rest ih =>
    obtain ⟨a, c⟩ := e
    simp only [removeChildEntry, List.filter_cons, decide_not] at ih ⊢
    by_cases ha : a = name
    · rw [if_neg (by simp [ha])]
      rw [ih]
      simp only [lookupName]
      rw [if_neg (by rw [ha]; exact fun hh => hx hh.symm)]
    · rw [if_pos (by simp [ha])]
      by_cases hax : a = x
      · simp [lookupName, hax]
      · simp [lookupName, hax, ih]

theorem lookupName_replace_same :
    ∀ (ch : List (String × FNode)) (name : String) (c' : FNode),
      lookupName (replaceChildEntry ch name c') name =
        (lookupName ch name).map (fun _ => c') := by
  intro ch name c'
  induction ch with
  | nil => simp [replaceChildEntry, lookupName]
  | cons e rest ih =>
    obtain ⟨a, c⟩ := e
    dsimp only [replaceChildEntry, List.map_cons] at ih ⊢
    by_cases ha : a = name
    · rw [if_pos (by simpa using ha)]
      simp [lookupName, ha]
    · rw [if_neg (by simpa using ha)]
      simp [lookupName, ha, ih]

theorem lookupName_replace_other :
    ∀ (ch : List (String × FNode)) (name : String) (c' : FNode) (x : String),
      x ≠ name →
      lookupName (replaceChildEntry ch name c') x = lookupName ch x := by
  intro ch name c' x hx
  induction ch with
  | nil => simp [replaceChildEntry, lookupName]
  | cons e rest ih =>
    obtain ⟨a, c⟩ := e
    dsimp only [replaceChildEntry, List.map_cons] at ih ⊢
    by_cases ha : a = name
    · rw [if_pos (by simpa using ha)]
      simp only [lookupName]
      rw [if_neg (by rw [ha]; exact fun hh => hx hh.symm),
        if_neg (by rw [ha]; exact fun hh => hx hh.symm)]
      exact ih
    · rw [if_neg (by simpa using ha)]
      by_cases hax : a = x
      · simp [lookupName, hax]
      · simp [lookupName, hax, ih]

theorem statF_dir_cons (ch : List (String × FNode)) (ro : Bool) (dev : Nat)
    (fl : Flags) (x : String) (p' : FsPath) :
    statF (.dir ch ro dev fl) (x :: p') =
      (match lookupName ch x with
       | some c => statF c p'
       | none => .notFound) := by
  cases hl : lookupName ch x <;> simp [statF, resolveK, hl]

theorem removePath_statF_pres :
    ∀ (q : FsPath) (b : Bool) (g g' : FNode),
      removePath b g q = .ok g' →
      ∀ (p : FsPath), statF g' p = statF g p ∨ statF g' p = .notFound := by
  intro q
  induction q with
  | nil => intro b g g' h; simp [removePath] at h
  | cons name rest ih =>
    intro b g g' h p
    cases g with
    | file sz md fl => cases rest <;> simp [removePath] at h
    | symlink sz te fl => cases rest <;> simp [removePath] at h
    | errEnt => cases rest <;> simp [removePath] at h
    | dir ch ro dev fl =>
      cases rest with
      | nil =>
        simp only [removePath] at h
        cases hl : lookupName ch name with
        | none => rw [hl] at h; simp at h
        | some c =>
          rw [hl] at h
          dsimp only at h
          split_ifs at h with hall
          cases h
          cases p with
          | nil => left; simp [statF, resolveK, nodeStat]
          | cons x p' =>
            rw [statF_dir_cons, statF_dir_cons]
            by_cases hx : x = name
            · subst hx
              rw [lookupName_remove_same]
              right; rfl
            · rw [lookupName_remove_other ch name x hx]
              left; rfl
      | cons n2 r2 =>
        simp only [removePath] at h
        cases hl : lookupName ch name with
        | none => rw [hl] at h; simp at h
        | some c =>
          rw [hl] at h
          dsimp only at h
          cases hr : removePath b c (n2 :: r2) with
          | notFound => rw [hr] at h; simp at h
          | failed => rw [hr] at h; simp at h
          | ok c' =>
            rw [hr] at h
            dsimp only at h
            cases h
            cases p with
            | nil => left; simp [statF, resolveK, nodeStat]
            | cons x p' =>
              rw [statF_dir_cons, statF_dir_cons]
              by_cases hx : x = name
              · subst hx
                rw [lookupName_replace_same, hl]
                dsimp only [Option.map]
                exact ih b c c' hr p'
              · rw [lookupName_replace_other ch name c' x hx]
                left; rfl

theorem removePath_ok_statF_notFound :
    ∀ (q : FsPath) (b : Bool) (g g' : FNode),
      removePath b g q = .ok g' → statF g' q = .notFound := by
  intro q
  induction q with
  | nil => intro b g g' h; simp [removePath] at h
  | cons name rest ih =>
    intro b g g' h
    cases g with
    | file sz md fl => cases rest <;> simp [removePath] at h
    | symlink sz te fl => cases rest <;> simp [removePath] at h
    | errEnt => cases rest <;> simp [removePath] at h
    | dir ch ro dev fl =>
      cases rest with
      | nil =>
        simp only [removePath] at h
        cases hl : lookupName ch name with
        | none => rw [hl] at h; simp at h
        | some c =>
          rw [hl] at h
          dsimp only at h
          split_ifs at h with hall
          cases h
          rw [statF_dir_cons, lookupName_remove_same]
      | cons n2 r2 =>
        simp only [removePath] at h
        cases hl : lookupName ch name with
        | none => rw [hl] at h; simp at h
        | some c =>
          rw [hl] at h
          dsimp only at h
          cases hr : removePath b c (n2 :: r2) with
          | notFound => rw [hr] at h; simp at h
          | failed => rw [hr] at h; simp at h
          | ok c' =>
            rw [hr] at h
            dsimp only at h
            cases h
            rw [statF_dir_cons, lookupName_replace_same, hl]
            dsimp only [Option.map]
            exact ih b c c' hr

theorem applyFiles_pres_absence :
    ∀ (paths : List FsPath) (fs : FNode) (rep : CleanReport) (p : FsPath),
      statF fs p = .notFound → statF (applyFiles fs paths rep).1 p = .notFound := by
  intro paths
  induction paths with
  | nil => intro fs rep p h; simpa [applyFiles] using h
  | cons q rest ih =>
    intro fs rep p h
    simp only [applyFiles]
    cases hs : statF fs q with
    | notFound => exact ih fs rep p h
    | otherErr => exact ih fs { rep with errors := rep.errors + 1 } p h
    | ok size =>
      dsimp only
      cases hr : removePath false fs q with
      | ok fs1 =>
        have h1 : statF fs1 p = .notFound := by
          rcases removePath_statF_pres q false fs fs1 hr p with h2 | h2
          · rw [h2]; exact h
          · exact h2
        exact ih fs1
          { rep with bytes_freed := rep.bytes_freed + size,
                     files_removed := rep.files_removed + 1 } p h1
      | notFound => exact ih fs { rep with errors := rep.errors + 1 } p h
      | failed => exact ih fs { rep with errors := rep.errors + 1 } p h

theorem applyDirs_pres_absence :
    ∀ (paths : List FsPath) (fs : FNode) (rep : CleanReport) (p : FsPath),
      statF fs p = .notFound → statF (applyDirs fs paths rep).1 p = .notFound := by
  intro paths
  induction paths with
  | nil => intro fs rep p h; simpa [applyDirs] using h
  | cons q rest ih =>
    intro fs rep p h
    simp only [applyDirs]
    cases hr : removePath true fs q with
    | ok fs1 =>
      have h1 : statF fs1 p = .notFound := by
        rcases removePath_statF_pres q true fs fs1 hr p with h2 | h2
        · rw [h2]; exact h
        · exact h2
      exact ih fs1 { rep with dirs_removed := rep.dirs_removed + 1 } p h1
    | notFound => exact ih fs rep p h
    | failed => exact ih fs { rep with errors := rep.errors + 1 } p h

theorem applyScan_pres_absence (fs : FNode) (scan : RuleScan) (rep : CleanReport)
    (p : FsPath) (h : statF fs p = .notFound) :
    statF (applyScan fs scan rep).1 p = .notFound := by
  simp only [applyScan]
  exact applyDirs_pres_absence _ _ _ p (applyFiles_pres_absence _ _ _ p h)

theorem applyGo_pres_absence :
    ∀ (scans : List RuleScan) (fs : FNode) (rep : CleanReport) (p : FsPath),
      statF fs p = .notFound → statF (applyGo fs scans rep).1 p = .notFound := by
  intro scans
  induction scans with
  | nil => intro fs rep p h; simpa [applyGo] using h
  | cons scan rest ih =>
    intro fs rep p h
    simp only [applyGo]
    exact ih _ _ p (applyScan_pres_absence _ _ _ p h)

theorem countFailed_cons_notFound (p : FsPath) (tr : List Attempt) :
    countFailed ((p, AttemptRes.notFound) :: tr) = countFailed tr := by
  simp [countFailed]

theorem countFailed_cons_removed (p : FsPath) (sz : Nat) (tr : List Attempt) :
    countFailed ((p, AttemptRes.removed sz) :: tr) = countFailed tr := by
  simp [countFailed]

theorem countFailed_cons_failed (p : FsPath) (tr : List Attempt) :
    countFailed ((p, AttemptRes.failed) :: tr) = countFailed tr + 1 := by
  simp [countFailed]

theorem applyFiles_all_absent :
    ∀ (paths : List FsPath) (fs : FNode) (rep : CleanReport),
      countFailed (applyFiles fs paths rep).2.2 = 0 →
      ∀ p ∈ paths, statF (applyFiles fs paths rep).1 p = .notFound := by
  intro paths
  induction paths with
  | nil => intro fs rep _ p hp; simp at hp
  | cons q rest ih =>
    intro fs rep hcf p hp
    simp only [applyFiles] at hcf ⊢
    cases hs : statF fs q with
    | notFound =>
      rw [hs] at hcf
      have hcf2 : countFailed ((q, AttemptRes.notFound) ::
          (applyFiles fs rest rep).2.2) = 0 := hcf
      rw [countFailed_cons_notFound] at hcf2
      show statF (applyFiles fs rest rep).1 p = .notFound
      rcases List.mem_cons.mp hp with rfl | hp'
      · exact applyFiles_pres_absence rest fs rep p hs
      · exact ih fs rep hcf2 p hp'
    | otherErr =>
      rw [hs] at hcf
      have hcf2 : countFailed ((q, AttemptRes.failed) ::
          (applyFiles fs rest { rep with errors := rep.errors + 1 }).2.2) = 0 := hcf
      rw [countFailed_cons_failed] at hcf2
      simp at hcf2
    | ok size =>
      rw [hs] at hcf
      cases hr : removePath false fs q with
      | ok fs1 =>
        rw [hr] at hcf
        have hcf2 : countFailed ((q, AttemptRes.removed size) ::
            (applyFiles fs1 rest
              { rep with bytes_freed := rep.bytes_freed + size,
                         files_removed := rep.files_removed + 1 }).2.2) = 0 := hcf
        rw [countFailed_cons_removed] at hcf2
        show statF (applyFiles fs1 rest
          { rep with bytes_freed := rep.bytes_freed + size,
                     files_removed := rep.files_removed + 1 }).1 p = .notFound
        rcases List.mem_cons.mp hp with rfl | hp'
        · exact applyFiles_pres_absence rest fs1
            { rep with bytes_freed := rep.bytes_freed + size,
                       files_removed := rep.files_removed + 1 } p
            (removePath_ok_statF_notFound p false fs fs1 hr)
        · exact ih fs1
            { rep with bytes_freed := rep.bytes_freed + size,
                       files_removed := rep.files_removed + 1 } hcf2 p hp'
      | notFound =>
        rw [hr] at hcf
        have hcf2 : countFailed ((q, AttemptRes.failed) ::
            (applyFiles fs rest { rep with errors := rep.errors + 1 }).2.2) = 0 := hcf
        rw [countFailed_cons_failed] at hcf2
        simp at hcf2
      | failed =>
        rw [hr] at hcf
        have hcf2 : countFailed ((q, AttemptRes.failed) ::
            (applyFiles fs rest { rep with errors := rep.errors + 1 }).2.2) = 0 := hcf
        rw [countFailed_cons_failed] at hcf2
        simp at hcf2

theorem applyDirs_all_absent :
    ∀ (paths : List FsPath) (fs : FNode) (rep : CleanReport),
      countFailed (applyDirs fs paths rep).2.2 = 0 →
      ∀ p ∈ paths, statF (applyDirs fs paths rep).1 p = .notFound := by
  intro paths
  induction paths with
  | nil => intro fs rep _ p hp; simp at hp
  | cons q rest ih =>
    intro fs rep hcf p hp
    simp only [applyDirs] at hcf ⊢
    cases hr : removePath true fs q with
    | ok fs1 =>
      rw [hr] at hcf
      have hcf2 : countFailed ((q, AttemptRes.removed 0) ::
          (applyDirs fs1 rest
            { rep with dirs_removed := rep.dirs_removed + 1 }).2.2) = 0 := hcf
      rw [countFailed_cons_removed] at hcf2
      show statF (applyDirs fs1 rest
        { rep with dirs_removed := rep.dirs_removed + 1 }).1 p = .notFound
      rcases List.mem_cons.mp hp with rfl | hp'
      · exact applyDirs_pres_absence rest fs1
          { rep with dirs_removed := rep.dirs_removed + 1 } p
          (removePath_ok_statF_notFound p true fs fs1 hr)
      · exact ih fs1 { rep with dirs_removed := rep.dirs_removed + 1 } hcf2 p hp'
    | notFound =>
      rw [hr] at hcf
      have hcf2 : countFailed ((q, AttemptRes.notFound) ::
          (applyDirs fs rest rep).2.2) = 0 := hcf
      rw [countFailed_cons_notFound] at hcf2
      show statF (applyDirs fs rest rep).1 p = .notFound
      rcases List.mem_cons.mp hp with rfl | hp'
      · exact applyDirs_pres_absence rest fs rep p
          ((statF_notFound_iff fs p).mpr
            (resolveK_missing_of_removePath_notFound p true fs hr))
      · exact ih fs rep hcf2 p hp'
    | failed =>
      rw [hr] at hcf
      have hcf2 : countFailed ((q, AttemptRes.failed) ::
          (applyDirs fs rest { rep with errors := rep.errors + 1 }).2.2) = 0 := hcf
      rw [countFailed_cons_failed] at hcf2
      simp at hcf2

theorem applyScan_all_absent (fs : FNode) (scan : RuleScan) (rep : CleanReport)
    (h1 : countFailed (applyScan fs scan rep).2.2.1 = 0)
    (h2 : countFailed (applyScan fs scan rep).2.2.2 = 0) :
    ∀ p, (p ∈ scan.files ∨ p ∈ scan.dirs) →
      statF (applyScan fs scan rep).1 p = .notFound := by
  simp only [applyScan] at h1 h2 ⊢
  intro p hp
  rcases hp with hpf | hpd
  · exact applyDirs_pres_absence _ _ _ p
      (applyFiles_all_absent scan.files fs rep h1 p hpf)
  · exact applyDirs_all_absent (sortDirs scan.dirs) _ _ h2 p
      ((mem_sortDirs _ _).mpr hpd)

theorem applyGo_all_absent :
    ∀ (scans : List RuleScan) (fs : FNode) (rep : CleanReport),
      countFailed (applyGo fs scans rep).2.2.1 = 0 →
      countFailed (applyGo fs scans rep).2.2.2 = 0 →
      ∀ scan ∈ scans, ∀ p, (p ∈ scan.files ∨ p ∈ scan.dirs) →
        statF (applyGo fs scans rep).1 p = .notFound := by
  intro scans
  induction scans with
  | nil => intro fs rep _ _ scan hs; simp at hs
  | cons scan0 rest ih =>
    intro fs rep h1 h2 scan hs p hp
    simp only [applyGo] at h1 h2 ⊢
    rw [countFailed_append] at h1 h2
    rcases List.mem_cons.mp hs with rfl | hs'
    · exact applyGo_pres_absence rest _ _ p
        (applyScan_all_absent fs scan rep (by omega) (by omega) p hp)
    · exact ih _ _ (by omega) (by omega) scan hs' p hp

theorem applyFiles_skip_all :
    ∀ (paths : List FsPath) (fs : FNode) (rep : CleanReport),
      (∀ p ∈ paths, statF fs p = .notFound) →
      applyFiles fs paths rep =
        (fs, rep, paths.map (fun p => (p, AttemptRes.notFound))) := by
  intro paths
  induction paths with
  | nil => intro fs rep _; simp [applyFiles]
  | cons q rest ih =>
    intro fs rep h
    have hq := h q (by simp)
    simp only [applyFiles, hq]
    rw [ih fs rep (fun p hp => h p (by simp [hp]))]
    rfl

theorem applyDirs_skip_all :
    ∀ (paths : List FsPath) (fs : FNode) (rep : CleanReport),
      (∀ p ∈ paths, statF fs p = .notFound) →
      applyDirs fs paths rep =
        (fs, rep, paths.map (fun p => (p, AttemptRes.notFound))) := by
  intro paths
  induction paths with
  | nil => intro fs rep _; simp [applyDirs]
  | cons q rest ih =>
    intro fs rep h
    have hq : removePath true fs q = .notFound :=
      removePath_notFound_of_missing q true fs
        ((statF_notFound_iff fs q).mp (h q (by simp)))
    simp only [applyDirs, hq]
    rw [ih fs rep (fun p hp => h p (by simp [hp]))]
    rfl

theorem applyGo_skip_all :
    ∀ (scans : List RuleScan) (fs : FNode) (rep : CleanReport),
      (∀ scan ∈ scans, ∀ p, (p ∈ scan.files ∨ p ∈ scan.dirs) →
        statF fs p = .notFound) →
      ((applyGo fs scans rep).1 = fs) ∧ ((applyGo fs scans rep).2.1 = rep) := by
  intro scans
  induction scans with
  | nil => intro fs rep _; simp [applyGo]
  | cons scan rest ih =>
    intro fs rep h
    simp only [applyGo, applyScan]
    rw [applyFiles_skip_all scan.files fs rep
      (fun p hp => h scan (by simp) p (Or.inl hp))]
    dsimp only
    rw [applyDirs_skip_all (sortDirs scan.dirs) fs rep
      (fun p hp => h scan (by simp) p (Or.inr ((mem_sortDirs _ _).mp hp)))]
    dsimp only
    exact ih fs rep (fun scan' hs' p hp => h scan' (by simp [hs']) p hp)

/-- C3 (amended): when the first `apply` pass reports zero errors,
running `apply` again on the same (now-stale) scans over the resulting
tree yields a report with zero files removed, zero directories removed,
zero bytes freed and zero errors: everything is already gone. -/
theorem apply_twice_reports_zero (fs : FNode) (scans : List RuleScan)
    (h : (apply fs scans).2.1.errors = 0) :
    (apply (apply fs scans).1 scans).2.1 = CleanReport.default := by
  have hspec := applyGo_spec scans fs CleanReport.default
  simp only [apply, CleanReport.default] at h ⊢
  have hf0 : countFailed (applyGo fs scans ⟨0, 0, 0, 0⟩).2.2.1 = 0 := by
    have := hspec.2.2.1
    simp only [CleanReport.default] at this
    omega
  have hd0 : countFailed (applyGo fs scans ⟨0, 0, 0, 0⟩).2.2.2 = 0 := by
    have := hspec.2.2.1
    simp only [CleanReport.default] at this
    omega
  have habs := applyGo_all_absent scans fs ⟨0, 0, 0, 0⟩ hf0 hd0
  have hskip := applyGo_skip_all scans (applyGo fs scans ⟨0, 0, 0, 0⟩).1 ⟨0, 0, 0, 0⟩
    (fun scan hs p hp => habs scan hs p hp)
  exact hskip.2

theorem apply_twice_reports_zero_witness :
    ((apply exFsOneFile [exScanOneFile]).2.1.errors = 0) ∧
    (apply (apply exFsOneFile [exScanOneFile]).1 [exScanOneFile]).2.1 =
      CleanReport.default :=
  ⟨by decide, apply_twice_reports_zero exFsOneFile [exScanOneFile] (by decide)⟩

/-- C3 counterexample to the claim as stated: with a recorded directory
that still contains an unrecorded file, the first apply removes
everything it could (nothing) and a second apply over the unchanged
result still reports an error, not zero: idempotence of the report does
not hold when the first pass had errors. -/
theorem apply_twice_reports_zero_counterexample :
    ((apply exFsNonEmptyDir [exScanDirOnly]).2.1.files_removed = 0) ∧
    ((apply exFsNonEmptyDir [exScanDirOnly]).2.1.dirs_removed = 0) ∧
    ((apply (apply exFsNonEmptyDir [exScanDirOnly]).1 [exScanDirOnly]).2.1.errors = 1) := by
  refine ⟨?_, ?_, ?_⟩ <;> decide

theorem isUnder_append (r x : FsPath) : isUnder r (r ++ x) = true := by
  induction r with
  | nil => simp [isUnder]
  | cons a r' ih => simp [isUnder, ih]

theorem isUnder_length_le : ∀ (r p : FsPath), isUnder r p = true → r.length ≤ p.length := by
  intro r
  induction r with
  | nil => intro p _; simp
  | cons a r' ih =>
    intro p h
    cases p with
    | nil => simp [isUnder] at h
    | cons b p' =>
      simp only [isUnder, Bool.and_eq_true, decide_eq_true_eq] at h
      have := ih p' h.2
      simp only [List.length_cons]
      omega

theorem isUnder_trans : ∀ (a b c : FsPath),
    isUnder a b = true → isUnder b c = true → isUnder a c = true := by
  intro a
  induction a with
  | nil => intro b c _ _; simp [isUnder]
  | cons x a' ih =>
    intro b c h1 h2
    cases b with
    | nil => simp [isUnder] at h1
    | cons y b' =>
      cases c with
      | nil => simp [isUnder] at h2
      | cons z c' =>
        simp only [isUnder, Bool.and_eq_true, decide_eq_true_eq] at h1 h2 ⊢
        exact ⟨h1.1.trans h2.1, ih b' c' h1.2 h2.2⟩

theorem strictUnder_append (r : FsPath) (x : FsPath) (hx : x ≠ []) :
    strictUnder r (r ++ x) = true := by
  simp only [strictUnder, isUnder_append, Bool.and_eq_true, decide_eq_true_eq,
    List.length_append, true_and]
  cases x with
  | nil => exact absurd rfl hx
  | cons a x' => simp

theorem strictUnder_trans_of (a b p : FsPath) (h1 : strictUnder a b = true)
    (h2 : strictUnder b p = true) : strictUnder a p = true := by
  simp only [strictUnder, Bool.and_eq_true, decide_eq_true_eq] at h1 h2 ⊢
  exact ⟨isUnder_trans a b p h1.1 h2.1, by omega⟩

theorem resolveK_append :
    ∀ (a : FsPath) (n m : FNode) (b : FsPath),
      resolveK n a = .found m → resolveK n (a ++ b) = resolveK m b := by
  intro a
  induction a with
  | nil =>
    intro n m b h
    simp only [resolveK] at h
    cases h
    simp
  | cons x a' ih =>
    intro n m b h
    cases n with
    | file sz md fl => simp [resolveK] at h
    | symlink sz te fl => simp [resolveK] at h
    | errEnt => simp [resolveK] at h
    | dir ch ro dev fl =>
      simp only [resolveK] at h
      cases hl : lookupName ch x with
      | none => rw [hl] at h; simp at h
      | some c =>
        rw [hl] at h
        dsimp only at h
        simp only [List.cons_append, resolveK, hl]
        exact ih c m b h

theorem entrySize_eq_readSize (fs : FNode) (q : FsPath) (m : FNode)
    (h : resolveK fs q = .found m) : entrySize m = readSize fs q := by
  cases m <;> simp [entrySize, lstat, readSize, statF, h, nodeStat] <;> split_ifs <;> rfl

theorem lookupName_of_mem_nodup :
    ∀ (ch : List (String × FNode)) (name : String) (c : FNode),
      nodupB (ch.map (·.1)) = true → (name, c) ∈ ch →
      lookupName ch name = some c := by
  intro ch
  induction ch with
  | nil => intro name c _ hm; simp at hm
  | cons e rest ih =>
    intro name c hnd hm
    obtain ⟨a, b⟩ := e
    simp only [List.map_cons, nodupB, Bool.and_eq_true, Bool.not_eq_true'] at hnd
    rcases List.mem_cons.mp hm with heq | hm'
    · cases heq
      simp [lookupName]
    · simp only [lookupName]
      by_cases ha : a = name
      · exfalso
        subst ha
        have : a ∈ (rest.map (·.1)) := List.mem_map.mpr ⟨(a, c), hm', rfl⟩
        rw [List.contains_eq_any_beq] at hnd
        have h2 := hnd.1
        simp only [List.any_eq_false] at h2
        have := h2 a this
        simp at this
      · rw [if_neg ha]
        exact ih name c hnd.2 hm'

theorem wfbL_mem :
    ∀ (ch : List (String × FNode)) (name : String) (c : FNode),
      wfbL ch = true → (name, c) ∈ ch → wfb c = true := by
  intro ch
  induction ch with
  | nil => intro name c _ hm; simp at hm
  | cons e rest ih =>
    intro name c hw hm
    obtain ⟨a, b⟩ := e
    simp only [wfbL, Bool.and_eq_true] at hw
    rcases List.mem_cons.mp hm with heq | hm'
    · cases heq; exact hw.1
    · exact ih name c hw.2 hm'

theorem wfb_resolve :
    ∀ (p : FsPath) (fs n : FNode),
      wfb fs = true → resolveK fs p = .found n → wfb n = true := by
  intro p
  induction p with
  | nil => intro fs n hw h; simp only [resolveK] at h; cases h; exact hw
  | cons x p' ih =>
    intro fs n hw h
    cases fs with
    | file sz md fl => simp [resolveK] at h
    | symlink sz te fl => simp [resolveK] at h
    | errEnt => simp [resolveK] at h
    | dir ch ro dev fl =>
      simp only [resolveK] at h
      cases hl : lookupName ch x with
      | none => rw [hl] at h; simp at h
      | some c =>
        rw [hl] at h
        dsimp only at h
        simp only [wfb, Bool.and_eq_true] at hw
        have hc : wfb c = true := by
          have hmem : (x, c) ∈ ch := by
            clear h ih hw
            induction ch with
            | nil => simp [lookupName] at hl
            | cons e rest ih2 =>
              obtain ⟨a, b⟩ := e
              simp only [lookupName] at hl
              by_cases ha : a = x
              · rw [if_pos ha] at hl
                cases hl
                subst ha
                exact List.mem_cons_self _ _
              · rw [if_neg ha] at hl
                exact List.mem_cons_of_mem _ (ih2 hl)
          exact wfbL_mem ch x c hw.2 hmem
        exact ih c n hc h

theorem sizeOf_pos_fnode : ∀ (n : FNode), 0 < sizeOf n := by
  intro n
  cases n <;> simp <;> omega

theorem walk_sound_aux : ∀ (fuel : Nat),
    (∀ (n : FNode), sizeOf n ≤ fuel →
      ∀ (rd : Nat) (pr : FsPath → FNode → Bool) (p q : FsPath) (m : FNode),
        wfb n = true → WEvent.ok q m ∈ walkNode rd pr p n →
        (q = p ∧ m = n) ∨
          ∃ rel, rel ≠ [] ∧ q = p ++ rel ∧ resolveK n rel = .found m) ∧
    (∀ (cs : List (String × FNode)), sizeOf cs ≤ fuel →
      ∀ (rd : Nat) (pr : FsPath → FNode → Bool) (p q : FsPath) (m : FNode),
        wfbL cs = true → WEvent.ok q m ∈ walkChildren rd pr p cs →
        ∃ name c rel, (name, c) ∈ cs ∧ q = p ++ name :: rel ∧
          resolveK c rel = .found m) := by
  intro fuel
  induction fuel with
  | zero =>
    constructor
    · intro n hsz
      have := sizeOf_pos_fnode n
      omega
    · intro cs hsz
      have : 0 < sizeOf cs := by cases cs <;> simp <;> omega
      omega
  | succ fuel ih =>
    constructor
    · intro n hsz rd pr p q m hwf hmem
      cases n with
      | file sz md fl =>
        simp only [walkNode, List.mem_singleton, WEvent.ok.injEq] at hmem
        left
        exact ⟨hmem.1, hmem.2⟩
      | symlink sz te fl =>
        simp only [walkNode, List.mem_singleton, WEvent.ok.injEq] at hmem
        left
        exact ⟨hmem.1, hmem.2⟩
      | errEnt => simp [walkNode] at hmem
      | dir ch ro dev fl =>
        simp only [walkNode, List.mem_cons] at hmem
        rcases hmem with heq | hmem'
        · simp only [WEvent.ok.injEq] at heq
          left
          exact ⟨heq.1, heq.2⟩
        · split_ifs at hmem' with h1 h2
          · simp at hmem'
          · simp at hmem'
          · simp only [wfb, Bool.and_eq_true] at hwf
            have hszc : sizeOf ch ≤ fuel := by
              have h3 : sizeOf ch < sizeOf (FNode.dir ch ro dev fl) := by
                simp
                omega
              omega
            obtain ⟨name, c, rel, hm2, hq, hres⟩ :=
              ih.2 ch hszc rd pr p q m hwf.2 hmem'
            right
            refine ⟨name :: rel, by simp, hq, ?_⟩
            simp only [resolveK, lookupName_of_mem_nodup ch name c hwf.1 hm2]
            exact hres
    · intro cs hsz rd pr p q m hwl hmem
      cases cs with
      | nil => simp [walkChildren] at hmem
      | cons e rest =>
        obtain ⟨name, c⟩ := e
        simp only [walkChildren, List.mem_append] at hmem
        simp only [wfbL, Bool.and_eq_true] at hwl
        rcases hmem with hml | hmr
        · cases c with
          | errEnt => simp at hml
          | file szf mdf flf =>
            split_ifs at hml with hpr
            · have hszc : sizeOf (FNode.file szf mdf flf) ≤ fuel := by
                have h1 : sizeOf (FNode.file szf mdf flf) < sizeOf (((name, (FNode.file szf mdf flf)) : String × FNode) :: rest) := by
                  simp
                  omega
                omega
              have hwc : wfb (FNode.file szf mdf flf) = true := hwl.1
              rcases ih.1 (FNode.file szf mdf flf) hszc rd pr (p ++ [name]) q m hwc hml with
                ⟨hq, hm⟩ | ⟨rel, hne, hq, hres⟩
              · refine ⟨name, (FNode.file szf mdf flf), [], List.mem_cons_self _ _, by simpa using hq, ?_⟩
                simp [resolveK, hm]
              · refine ⟨name, (FNode.file szf mdf flf), rel, List.mem_cons_self _ _, ?_, hres⟩
                rw [hq]
                simp
            · simp at hml
          | symlink szf tef flf =>
            split_ifs at hml with hpr
            · have hszc : sizeOf (FNode.symlink szf tef flf) ≤ fuel := by
                have h1 : sizeOf (FNode.symlink szf tef flf) < sizeOf (((name, (FNode.symlink szf tef flf)) : String × FNode) :: rest) := by
                  simp
                  omega
                omega
              have hwc : wfb (FNode.symlink szf tef flf) = true := hwl.1
              rcases ih.1 (FNode.symlink szf tef flf) hszc rd pr (p ++ [name]) q m hwc hml with
                ⟨hq, hm⟩ | ⟨rel, hne, hq, hres⟩
              · refine ⟨name, (FNode.symlink szf tef flf), [], List.mem_cons_self _ _, by simpa using hq, ?_⟩
                simp [resolveK, hm]
              · refine ⟨name, (FNode.symlink szf tef flf), rel, List.mem_cons_self _ _, ?_, hres⟩
                rw [hq]
                simp
            · simp at hml
          | dir ch2 ro2 dev2 fl2 =>
            split_ifs at hml with hpr
            · have hszc : sizeOf (FNode.dir ch2 ro2 dev2 fl2) ≤ fuel := by
                have h1 : sizeOf (FNode.dir ch2 ro2 dev2 fl2) < sizeOf (((name, (FNode.dir ch2 ro2 dev2 fl2)) : String × FNode) :: rest) := by
                  simp
                  omega
                omega
              have hwc : wfb (FNode.dir ch2 ro2 dev2 fl2) = true := hwl.1
              rcases ih.1 (FNode.dir ch2 ro2 dev2 fl2) hszc rd pr (p ++ [name]) q m hwc hml with
                ⟨hq, hm⟩ | ⟨rel, hne, hq, hres⟩
              · refine ⟨name, (FNode.dir ch2 ro2 dev2 fl2), [], List.mem_cons_self _ _, by simpa using hq, ?_⟩
                simp [resolveK, hm]
              · refine ⟨name, (FNode.dir ch2 ro2 dev2 fl2), rel, List.mem_cons_self _ _, ?_, hres⟩
                rw [hq]
                simp
            · simp at hml
        · have hszr : sizeOf rest ≤ fuel := by
            have h3 : sizeOf rest < sizeOf (((name, c) : String × FNode) :: rest) := by
              simp
              try omega
            omega
          obtain ⟨name2, c2, rel, hm2, hq, hres⟩ :=
            ih.2 rest hszr rd pr p q m hwl.2 hmr
          exact ⟨name2, c2, rel, List.mem_cons_of_mem _ hm2, hq, hres⟩

theorem walkNode_sound (n : FNode) (rd : Nat) (pr : FsPath → FNode → Bool)
    (p q : FsPath) (m : FNode) (hwf : wfb n = true)
    (hmem : WEvent.ok q m ∈ walkNode rd pr p n) :
    (q = p ∧ m = n) ∨
      ∃ rel, rel ≠ [] ∧ q = p ++ rel ∧ resolveK n rel = .found m :=
  (walk_sound_aux (sizeOf n)).1 n le_rfl rd pr p q m hwf hmem

theorem procWalk_master (fs : FNode) (root : FsPath) (excl : Option (FsPath → Bool)) :
    ∀ (evs : List WEvent) (scan : RuleScan) (msgs : List String),
      (∀ (q : FsPath) (m : FNode), WEvent.ok q m ∈ evs →
        resolveK fs q = .found m ∧ (q = root ∨ strictUnder root q = true)) →
      ∃ fd dd,
        ((procWalk root excl evs (scan, msgs)).1.files = scan.files ++ fd) ∧
        ((procWalk root excl evs (scan, msgs)).1.dirs = scan.dirs ++ dd) ∧
        ((procWalk root excl evs (scan, msgs)).1.bytes =
          scan.bytes + (fd.map (readSize fs)).sum) ∧
        (∀ p ∈ fd, (∃ m, resolveK fs p = .found m ∧ isDirNode m = false) ∧
          strictUnder root p = true) ∧
        (∀ p ∈ dd, (∃ m, resolveK fs p = .found m ∧ isDirNode m = true) ∧
          strictUnder root p = true) := by
  intro evs
  induction evs with
  | nil =>
    intro scan msgs _
    exact ⟨[], [], by simp [procWalk], by simp [procWalk], by simp [procWalk],
      by simp, by simp⟩
  | cons ev rest ih =>
    intro scan msgs hev
    have hevr : ∀ (q : FsPath) (m : FNode), WEvent.ok q m ∈ rest →
        resolveK fs q = .found m ∧ (q = root ∨ strictUnder root q = true) :=
      fun q m hm => hev q m (List.mem_cons_of_mem _ hm)
    cases ev with
    | err op =>
      cases op with
      | some p => simp only [procWalk]; exact ih scan _ hevr
      | none => simp only [procWalk]; exact ih scan _ hevr
    | ok q m =>
      have hq := hev q m (List.mem_cons_self _ _)
      simp only [procWalk]
      split_ifs with h1 h2 h3
      · exact ih scan msgs hevr
      · exact ih scan msgs hevr
      · obtain ⟨fd, dd, ha, hb, hc, hd, he⟩ :=
          ih { scan with dirs := scan.dirs ++ [q] } msgs hevr
        refine ⟨fd, q :: dd, ?_, ?_, ?_, hd, ?_⟩
        · simpa using ha
        · rw [hb]; simp
        · simpa using hc
        · intro p hp
          rcases List.mem_cons.mp hp with rfl | hp2
          · have hstrict : strictUnder root p = true := by
              rcases hq.2 with h4 | h4
              · exact absurd h4 h1
              · exact h4
            exact ⟨⟨m, hq.1, h3⟩, hstrict⟩
          · exact he p hp2
      · obtain ⟨fd, dd, ha, hb, hc, hd, he⟩ := ih
          { scan with bytes := scan.bytes + entrySize m, entries := scan.entries + 1,
                      files := scan.files ++ [q] } msgs hevr
        refine ⟨q :: fd, dd, ?_, ?_, ?_, ?_, ?_⟩
        · rw [ha]; simp
        · simpa using hb
        · rw [hc]
          rw [entrySize_eq_readSize fs q m hq.1]
          simp only [List.map_cons, List.sum_cons]
          omega
        · intro p hp
          rcases List.mem_cons.mp hp with rfl | hp2
          · have hstrict : strictUnder root p = true := by
              rcases hq.2 with h4 | h4
              · exact absurd h4 h1
              · exact h4
            refine ⟨⟨m, hq.1, ?_⟩, hstrict⟩
            simpa using h3
          · exact hd p hp2
        · exact he

theorem scan_root_master (fs : FNode) (root : FsPath) (excl : Option (FsPath → Bool))
    (scan : RuleScan) (hwf : wfb fs = true) :
    ∃ fd dd,
      ((scan_root fs root excl scan).1.files = scan.files ++ fd) ∧
      ((scan_root fs root excl scan).1.dirs = scan.dirs ++ dd) ∧
      ((scan_root fs root excl scan).1.bytes =
        scan.bytes + (fd.map (readSize fs)).sum) ∧
      (∀ p ∈ fd, (∃ m, resolveK fs p = .found m ∧ isDirNode m = false) ∧
        (p = root ∨ strictUnder root p = true)) ∧
      (∀ p ∈ dd, (∃ m, resolveK fs p = .found m ∧ isDirNode m = true) ∧
        strictUnder root p = true) := by
  unfold scan_root
  cases hres : resolveK fs root with
  | found n =>
    dsimp only
    split_ifs with hfl hex
    · refine ⟨[root], [], by simp, by simp, ?_, ?_, by simp⟩
      · simp [entrySize_eq_readSize fs root n hres]
      · intro p hp
        simp only [List.mem_singleton] at hp
        subst hp
        refine ⟨⟨n, hres, ?_⟩, Or.inl rfl⟩
        cases n <;> simp [isDirNode] <;> simp [rootIsFileOrSymlink] at hfl
    · exact ⟨[], [], by simp, by simp, by simp, by simp, by simp⟩
    · cases n with
      | file sz md fl => simp [rootIsFileOrSymlink] at hfl
      | symlink sz te fl => simp [rootIsFileOrSymlink] at hfl
      | errEnt =>
        simp only [rootEvents]
        obtain ⟨fd, dd, ha, hb, hc, hd, he⟩ :=
          procWalk_master fs root excl [WEvent.err (some root)] scan []
            (fun q m hm => by simp at hm)
        exact ⟨fd, dd, ha, hb, hc,
          fun p hp => ⟨(hd p hp).1, Or.inr (hd p hp).2⟩, he⟩
      | dir ch ro dev fl =>
        simp only [rootEvents]
        have hev : ∀ (q : FsPath) (m : FNode),
            WEvent.ok q m ∈ walkNode dev (scanFilter root excl) root
              (FNode.dir ch ro dev fl) →
            resolveK fs q = .found m ∧ (q = root ∨ strictUnder root q = true) := by
          intro q m hm
          have hwn : wfb (FNode.dir ch ro dev fl) = true := wfb_resolve root fs _ hwf hres
          rcases walkNode_sound _ dev (scanFilter root excl) root q m hwn hm with
            ⟨hq, hm2⟩ | ⟨rel, hne, hq, hres2⟩
          · subst hq
            subst hm2
            exact ⟨hres, Or.inl rfl⟩
          · subst hq
            refine ⟨?_, Or.inr (strictUnder_append root rel hne)⟩
            rw [resolveK_append root fs _ rel hres]
            exact hres2
        obtain ⟨fd, dd, ha, hb, hc, hd, he⟩ :=
          procWalk_master fs root excl
            (walkNode dev (scanFilter root excl) root (FNode.dir ch ro dev fl))
            scan [] hev
        exact ⟨fd, dd, ha, hb, hc,
          fun p hp => ⟨(hd p hp).1, Or.inr (hd p hp).2⟩, he⟩
  | missing =>
    try dsimp only
    obtain ⟨fd, dd, ha, hb, hc, hd, he⟩ :=
      procWalk_master fs root excl [WEvent.err (some root)] scan []
        (fun q m hm => by simp at hm)
    exact ⟨fd, dd, ha, hb, hc,
      fun p hp => ⟨(hd p hp).1, Or.inr (hd p hp).2⟩, he⟩
  | notDir =>
    try dsimp only
    obtain ⟨fd, dd, ha, hb, hc, hd, he⟩ :=
      procWalk_master fs root excl [WEvent.err (some root)] scan []
        (fun q m hm => by simp at hm)
    exact ⟨fd, dd, ha, hb, hc,
      fun p hp => ⟨(hd p hp).1, Or.inr (hd p hp).2⟩, he⟩

theorem foldl_record_error_fixed :
    ∀ (msgs : List String) (s : RuleScan),
      ((msgs.foldl record_error s).files = s.files) ∧
      ((msgs.foldl record_error s).dirs = s.dirs) ∧
      ((msgs.foldl record_error s).bytes = s.bytes) ∧
      ((msgs.foldl record_error s).rule = s.rule) := by
  intro msgs
  induction msgs with
  | nil => intro s; simp
  | cons m ms ih =>
    intro s
    simp only [List.foldl_cons]
    have := ih (record_error s m)
    simpa [record_error] using this

theorem pathsRoots_master (fs : FNode) (excl : Option (FsPath → Bool))
    (hwf : wfb fs = true) :
    ∀ (roots : List FsPath) (scan : RuleScan),
      ∃ fd dd,
        ((pathsRoots fs excl roots scan).files = scan.files ++ fd) ∧
        ((pathsRoots fs excl roots scan).dirs = scan.dirs ++ dd) ∧
        ((pathsRoots fs excl roots scan).bytes =
          scan.bytes + (fd.map (readSize fs)).sum) ∧
        (∀ p ∈ fd, (∃ m, resolveK fs p = .found m ∧ isDirNode m = false) ∧
          ∃ r ∈ roots, (p = r ∨ strictUnder r p = true)) ∧
        (∀ p ∈ dd, (∃ m, resolveK fs p = .found m ∧ isDirNode m = true) ∧
          ∃ r ∈ roots, strictUnder r p = true) := by
  intro roots
  induction roots with
  | nil =>
    intro scan
    exact ⟨[], [], by simp [pathsRoots], by simp [pathsRoots], by simp [pathsRoots],
      by simp, by simp⟩
  | cons root rest ih =>
    intro scan
    simp only [pathsRoots]
    cases hres : resolveK fs root with
    | found n =>
      dsimp only
      split_ifs with hex
      · obtain ⟨fd1, dd1, ha1, hb1, hc1, hd1, he1⟩ := scan_root_master fs root excl scan hwf
        have hfix := foldl_record_error_fixed (scan_root fs root excl scan).2
          (scan_root fs root excl scan).1
        obtain ⟨fd2, dd2, ha2, hb2, hc2, hd2, he2⟩ :=
          ih ((scan_root fs root excl scan).2.foldl record_error
            (scan_root fs root excl scan).1)
        refine ⟨fd1 ++ fd2, dd1 ++ dd2, ?_, ?_, ?_, ?_, ?_⟩
        · rw [ha2, hfix.1, ha1, List.append_assoc]
        · rw [hb2, hfix.2.1, hb1, List.append_assoc]
        · rw [hc2, hfix.2.2.1, hc1]
          simp only [List.map_append, List.sum_append]
          omega
        · intro p hp
          rcases List.mem_append.mp hp with h1 | h2
          · exact ⟨(hd1 p h1).1, ⟨root, by simp, (hd1 p h1).2⟩⟩
          · obtain ⟨hn, r, hr, ho⟩ := hd2 p h2
            exact ⟨hn, ⟨r, by simp [hr], ho⟩⟩
        · intro p hp
          rcases List.mem_append.mp hp with h1 | h2
          · exact ⟨(he1 p h1).1, ⟨root, by simp, (he1 p h1).2⟩⟩
          · obtain ⟨hn, r, hr, ho⟩ := he2 p h2
            exact ⟨hn, ⟨r, by simp [hr], ho⟩⟩
      · obtain ⟨fd2, dd2, ha2, hb2, hc2, hd2, he2⟩ := ih scan
        refine ⟨fd2, dd2, ha2, hb2, hc2, ?_, ?_⟩
        · intro p hp
          obtain ⟨hn, r, hr, ho⟩ := hd2 p hp
          exact ⟨hn, ⟨r, by simp [hr], ho⟩⟩
        · intro p hp
          obtain ⟨hn, r, hr, ho⟩ := he2 p hp
          exact ⟨hn, ⟨r, by simp [hr], ho⟩⟩
    | missing =>
      obtain ⟨fd2, dd2, ha2, hb2, hc2, hd2, he2⟩ := ih scan
      refine ⟨fd2, dd2, ha2, hb2, hc2, ?_, ?_⟩
      · intro p hp
        obtain ⟨hn, r, hr, ho⟩ := hd2 p hp
        exact ⟨hn, ⟨r, by simp [hr], ho⟩⟩
      · intro p hp
        obtain ⟨hn, r, hr, ho⟩ := he2 p hp
        exact ⟨hn, ⟨r, by simp [hr], ho⟩⟩
    | notDir =>
      obtain ⟨fd2, dd2, ha2, hb2, hc2, hd2, he2⟩ := ih scan
      refine ⟨fd2, dd2, ha2, hb2, hc2, ?_, ?_⟩
      · intro p hp
        obtain ⟨hn, r, hr, ho⟩ := hd2 p hp
        exact ⟨hn, ⟨r, by simp [hr], ho⟩⟩
      · intro p hp
        obtain ⟨hn, r, hr, ho⟩ := he2 p hp
        exact ⟨hn, ⟨r, by simp [hr], ho⟩⟩

theorem is_older_than_fixed (md cutoff : Option Nat) (p : FsPath) (s : RuleScan) :
    ((is_older_than md cutoff p s).2.files = s.files) ∧
    ((is_older_than md cutoff p s).2.dirs = s.dirs) ∧
    ((is_older_than md cutoff p s).2.bytes = s.bytes) := by
  unfold is_older_than
  cases cutoff with
  | none => simp
  | some c =>
    cases md with
    | some m => simp
    | none => simp [record_error]

theorem lstat_file_readSize (fs : FNode) (q : FsPath) (m : FNode) (meta : MetaM)
    (hl : lstat m = some meta) (hf : meta.isFileM = true)
    (hres : resolveK fs q = .found m) : meta.size = readSize fs q := by
  cases m with
  | file sz md fl =>
    simp only [lstat] at hl
    split_ifs at hl with hst
    cases hl
    simp [readSize, statF, hres, nodeStat, hst]
  | symlink sz te fl =>
    simp only [lstat] at hl
    split_ifs at hl with hst
    cases hl
    simp at hf
  | dir ch ro dev fl =>
    simp only [lstat] at hl
    split_ifs at hl with hst
    cases hl
    simp at hf
  | errEnt => simp [lstat] at hl

theorem procLogs_master (fs : FNode) (root : FsPath) (excl : Option (FsPath → Bool))
    (cutoff : Option Nat) :
    ∀ (evs : List WEvent) (scan : RuleScan),
      (∀ (q : FsPath) (m : FNode), WEvent.ok q m ∈ evs →
        resolveK fs q = .found m ∧ (q = root ∨ strictUnder root q = true)) →
      ∃ fd,
        ((procLogs root excl cutoff evs scan).files = scan.files ++ fd) ∧
        ((procLogs root excl cutoff evs scan).dirs = scan.dirs) ∧
        ((procLogs root excl cutoff evs scan).bytes =
          scan.bytes + (fd.map (readSize fs)).sum) ∧
        (∀ p ∈ fd, (∃ m, resolveK fs p = .found m ∧ isDirNode m = false) ∧
          strictUnder root p = true) := by
  intro evs
  induction evs with
  | nil =>
    intro scan _
    exact ⟨[], by simp [procLogs], by simp [procLogs], by simp [procLogs], by simp⟩
  | cons ev rest ih =>
    intro scan hev
    have hevr : ∀ (q : FsPath) (m : FNode), WEvent.ok q m ∈ rest →
        resolveK fs q = .found m ∧ (q = root ∨ strictUnder root q = true) :=
      fun q m hm => hev q m (List.mem_cons_of_mem _ hm)
    cases ev with
    | err op =>
      cases op with
      | some p =>
        simp only [procLogs]
        obtain ⟨fd, ha, hb, hc, hd⟩ := ih (record_error scan (walkErrMsg p)) hevr
        exact ⟨fd, by simpa [record_error] using ha, by simpa [record_error] using hb,
          by simpa [record_error] using hc, hd⟩
      | none =>
        simp only [procLogs]
        obtain ⟨fd, ha, hb, hc, hd⟩ := ih (record_error scan (walkErrRootMsg root)) hevr
        exact ⟨fd, by simpa [record_error] using ha, by simpa [record_error] using hb,
          by simpa [record_error] using hc, hd⟩
    | ok q m =>
      have hq := hev q m (List.mem_cons_self _ _)
      simp only [procLogs]
      split_ifs with h1 h2 h3 h4 h5
      · exact ih scan hevr
      · exact ih scan hevr
      · exact ih scan hevr
      · exact ih scan hevr
      · exact ih scan hevr
      · cases hl : lstat m with
        | none =>
          dsimp only
          obtain ⟨fd, ha, hb, hc, hd⟩ := ih (record_error scan _) hevr
          exact ⟨fd, by simpa [record_error] using ha, by simpa [record_error] using hb,
            by simpa [record_error] using hc, hd⟩
        | some meta =>
          dsimp only
          split_ifs with h6 h8
          · exact ih scan hevr
          · obtain ⟨fd, ha, hb, hc, hd⟩ := ih (is_older_than meta.modified cutoff q scan).2 hevr
            have hfix := is_older_than_fixed meta.modified cutoff q scan
            exact ⟨fd, by rw [ha, hfix.1], by rw [hb, hfix.2.1],
              by rw [hc, hfix.2.2], hd⟩
          · have hmf : meta.isFileM = true := by simpa using h6
            have hsz := lstat_file_readSize fs q m meta hl hmf hq.1
            have hfix := is_older_than_fixed meta.modified cutoff q scan
            obtain ⟨fd, ha, hb, hc, hd⟩ := ih
              { (is_older_than meta.modified cutoff q scan).2 with
                bytes := (is_older_than meta.modified cutoff q scan).2.bytes + meta.size,
                entries := (is_older_than meta.modified cutoff q scan).2.entries + 1,
                files := (is_older_than meta.modified cutoff q scan).2.files ++ [q] } hevr
            refine ⟨q :: fd, ?_, ?_, ?_, ?_⟩
            · rw [ha]
              simp [hfix.1]
            · rw [hb]
              simp [hfix.2.1]
            · rw [hc]
              simp only [List.map_cons, List.sum_cons]
              rw [hfix.2.2, hsz]
              try dsimp only
              omega
            · intro p hp
              rcases List.mem_cons.mp hp with rfl | hp2
              · have hstrict : strictUnder root p = true := by
                  rcases hq.2 with h9 | h9
                  · exact absurd h9 h1
                  · exact h9
                exact ⟨⟨m, hq.1, by simpa using h2⟩, hstrict⟩
              · exact hd p hp2

theorem scan_log_path_master (fs : FNode) (p root : FsPath)
    (excl : Option (FsPath → Bool)) (cutoff : Option Nat) (scan : RuleScan) :
    ∃ fd,
      ((scan_log_path fs p root excl cutoff scan).files = scan.files ++ fd) ∧
      ((scan_log_path fs p root excl cutoff scan).dirs = scan.dirs) ∧
      ((scan_log_path fs p root excl cutoff scan).bytes =
        scan.bytes + (fd.map (readSize fs)).sum) ∧
      (∀ x ∈ fd, (∃ m, resolveK fs x = .found m ∧ isDirNode m = false) ∧ x = p) := by
  unfold scan_log_path
  split_ifs with h1 h2
  · exact ⟨[], by simp, by simp, by simp, by simp⟩
  · exact ⟨[], by simp, by simp, by simp, by simp⟩
  · cases hres : resolveK fs p with
    | found n =>
      dsimp only
      cases hl : lstat n with
      | none => exact ⟨[], by simp [record_error], by simp [record_error],
          by simp [record_error], by simp⟩
      | some meta =>
        dsimp only
        split_ifs with h3 h5
        · exact ⟨[], by simp, by simp, by simp, by simp⟩
        · have hfix := is_older_than_fixed meta.modified cutoff p scan
          exact ⟨[], by simp [hfix.1], by simp [hfix.2.1], by simp [hfix.2.2], by simp⟩
        · have h3x : meta.isSymlinkM = false ∧ meta.isFileM = true := by simpa using h3
          have hmf : meta.isFileM = true := h3x.2
          have hsz := lstat_file_readSize fs p n meta hl hmf hres
          have hfix := is_older_than_fixed meta.modified cutoff p scan
          refine ⟨[p], ?_, ?_, ?_, ?_⟩
          · simp [hfix.1]
          · simp [hfix.2.1]
          · simp only [List.map_cons, List.map_nil, List.sum_cons, List.sum_nil]
            rw [hfix.2.2, hsz]
            try dsimp only
            omega
          · intro x hx
            simp only [List.mem_singleton] at hx
            subst hx
            have hnd : isDirNode n = false := by
              cases n with
              | file _ _ _ => rfl
              | symlink _ _ _ => rfl
              | dir _ _ _ _ =>
                simp only [lstat] at hl
                split_ifs at hl
                cases hl
                simp at hmf
              | errEnt => rfl
            exact ⟨⟨n, hres, hnd⟩, rfl⟩
    | missing =>
      exact ⟨[], by simp [record_error], by simp [record_error],
        by simp [record_error], by simp⟩
    | notDir =>
      exact ⟨[], by simp [record_error], by simp [record_error],
        by simp [record_error], by simp⟩

theorem logsRoots_master (fs : FNode) (excl : Option (FsPath → Bool))
    (cutoff : Option Nat) (hwf : wfb fs = true) :
    ∀ (roots : List FsPath) (scan : RuleScan),
      ∃ fd,
        ((logsRoots fs excl cutoff roots scan).files = scan.files ++ fd) ∧
        ((logsRoots fs excl cutoff roots scan).dirs = scan.dirs) ∧
        ((logsRoots fs excl cutoff roots scan).bytes =
          scan.bytes + (fd.map (readSize fs)).sum) ∧
        (∀ p ∈ fd, (∃ m, resolveK fs p = .found m ∧ isDirNode m = false) ∧
          ∃ r ∈ roots, (p = r ∨ strictUnder r p = true)) := by
  intro roots
  induction roots with
  | nil =>
    intro scan
    exact ⟨[], by simp [logsRoots], by simp [logsRoots], by simp [logsRoots], by simp⟩
  | cons root rest ih =>
    intro scan
    simp only [logsRoots]
    cases hres : resolveK fs root with
    | found n =>
      dsimp only
      by_cases h1 : (!existsB n) = true
      · rw [if_pos h1]
        obtain ⟨fd2, ha2, hb2, hc2, hd2⟩ := ih scan
        refine ⟨fd2, ha2, hb2, hc2, ?_⟩
        intro p hp
        obtain ⟨hn, r, hr, ho⟩ := hd2 p hp
        exact ⟨hn, ⟨r, by simp [hr], ho⟩⟩
      · rw [if_neg h1]
        by_cases h2 : rootIsFileOrSymlink n = true
        · rw [if_pos h2]
          obtain ⟨fd1, ha1, hb1, hc1, hd1⟩ := scan_log_path_master fs root
            (if root = [] then root else root.dropLast) excl cutoff scan
          obtain ⟨fd2, ha2, hb2, hc2, hd2⟩ := ih
            (scan_log_path fs root (if root = [] then root else root.dropLast)
              excl cutoff scan)
          refine ⟨fd1 ++ fd2, ?_, ?_, ?_, ?_⟩
          · rw [ha2, ha1, List.append_assoc]
          · rw [hb2, hb1]
          · rw [hc2, hc1]
            simp only [List.map_append, List.sum_append]
            omega
          · intro p hp
            rcases List.mem_append.mp hp with hx | hx
            · obtain ⟨hn, hpr⟩ := hd1 p hx
              exact ⟨hn, ⟨root, by simp, Or.inl hpr⟩⟩
            · obtain ⟨hn, r, hr, ho⟩ := hd2 p hx
              exact ⟨hn, ⟨r, by simp [hr], ho⟩⟩
        · rw [if_neg h2]
          have hev : ∀ (q : FsPath) (m : FNode),
              WEvent.ok q m ∈ (match n with
                | .dir ch ro dev fl =>
                  walkNode dev (fun _ _ => true) root (.dir ch ro dev fl)
                | _ => [WEvent.err (some root)]) →
              resolveK fs q = .found m ∧ (q = root ∨ strictUnder root q = true) := by
            intro q m hm
            cases n with
            | file sz md fl => simp [rootIsFileOrSymlink] at h2
            | symlink sz te fl => simp [rootIsFileOrSymlink] at h2
            | errEnt => simp at hm
            | dir ch ro dev fl =>
              have hwn : wfb (FNode.dir ch ro dev fl) = true :=
                wfb_resolve root fs _ hwf hres
              rcases walkNode_sound _ dev (fun _ _ => true) root q m hwn hm with
                ⟨hq, hm2⟩ | ⟨rel, hne, hq, hres2⟩
              · subst hq
                subst hm2
                exact ⟨hres, Or.inl rfl⟩
              · subst hq
                refine ⟨?_, Or.inr (strictUnder_append root rel hne)⟩
                rw [resolveK_append root fs _ rel hres]
                exact hres2
          obtain ⟨fd1, ha1, hb1, hc1, hd1⟩ := procLogs_master fs root excl cutoff _ scan hev
          obtain ⟨fd2, ha2, hb2, hc2, hd2⟩ := ih (procLogs root excl cutoff _ scan)
          refine ⟨fd1 ++ fd2, ?_, ?_, ?_, ?_⟩
          · rw [ha2, ha1, List.append_assoc]
          · rw [hb2, hb1]
          · rw [hc2, hc1]
            simp only [List.map_append, List.sum_append]
            omega
          · intro p hp
            rcases List.mem_append.mp hp with hx | hx
            · obtain ⟨hn, hpr⟩ := hd1 p hx
              exact ⟨hn, ⟨root, by simp, Or.inr hpr⟩⟩
            · obtain ⟨hn, r, hr, ho⟩ := hd2 p hx
              exact ⟨hn, ⟨r, by simp [hr], ho⟩⟩
    | missing =>
      obtain ⟨fd2, ha2, hb2, hc2, hd2⟩ := ih scan
      refine ⟨fd2, ha2, hb2, hc2, ?_⟩
      intro p hp
      obtain ⟨hn, r, hr, ho⟩ := hd2 p hp
      exact ⟨hn, ⟨r, by simp [hr], ho⟩⟩
    | notDir =>
      obtain ⟨fd2, ha2, hb2, hc2, hd2⟩ := ih scan
      refine ⟨fd2, ha2, hb2, hc2, ?_⟩
      intro p hp
      obtain ⟨hn, r, hr, ho⟩ := hd2 p hp
      exact ⟨hn, ⟨r, by simp [hr], ho⟩⟩

theorem lookupA_mem {α : Type} :
    ∀ (m : List (String × α)) (k : String) (v : α),
      lookupA m k = some v → (k, v) ∈ m := by
  intro m
  induction m with
  | nil => intro k v h; simp [lookupA] at h
  | cons e rest ih =>
    intro k v h
    obtain ⟨a, b⟩ := e
    simp only [lookupA] at h
    by_cases ha : a = k
    · rw [if_pos ha] at h
      cases h
      subst ha
      exact List.mem_cons_self _ _
    · rw [if_neg ha] at h
      exact List.mem_cons_of_mem _ (ih k v h)

theorem mem_insertA {α : Type} :
    ∀ (m : List (String × α)) (k : String) (v : α) (x : String × α),
      x ∈ insertA m k v → x ∈ m ∨ x = (k, v) := by
  intro m
  induction m with
  | nil =>
    intro k v x h
    simp only [insertA, List.mem_singleton] at h
    exact Or.inr h
  | cons e rest ih =>
    intro k v x h
    obtain ⟨a, b⟩ := e
    simp only [insertA] at h
    by_cases ha : a = k
    · rw [if_pos ha] at h
      rcases List.mem_cons.mp h with h1 | h2
      · exact Or.inr h1
      · exact Or.inl (List.mem_cons_of_mem _ h2)
    · rw [if_neg ha] at h
      rcases List.mem_cons.mp h with h1 | h2
      · exact Or.inl (h1 ▸ List.mem_cons_self _ _)
      · rcases ih k v x h2 with h3 | h3
        · exact Or.inl (List.mem_cons_of_mem _ h3)
        · exact Or.inr h3

theorem lookupA_insertA_same {α : Type} :
    ∀ (m : List (String × α)) (k : String) (v : α),
      lookupA (insertA m k v) k = some v := by
  intro m
  induction m with
  | nil => intro k v; simp [insertA, lookupA]
  | cons e rest ih =>
    intro k v
    obtain ⟨a, b⟩ := e
    simp only [insertA]
    by_cases ha : a = k
    · rw [if_pos ha]
      simp [lookupA]
    · rw [if_neg ha]
      simp only [lookupA, if_neg ha]
      exact ih k v

theorem lookupA_insertA_other {α : Type} :
    ∀ (m : List (String × α)) (k : String) (v : α) (k2 : String), k2 ≠ k →
      lookupA (insertA m k v) k2 = lookupA m k2 := by
  intro m
  induction m with
  | nil =>
    intro k v k2 hne
    simp only [insertA, lookupA]
    rw [if_neg (fun h => hne h.symm)]
  | cons e rest ih =>
    intro k v k2 hne
    obtain ⟨a, b⟩ := e
    simp only [insertA]
    by_cases ha : a = k
    · rw [if_pos ha]
      subst ha
      simp only [lookupA]
      rw [if_neg (fun h => hne h.symm), if_neg (fun h => hne h.symm)]
    · rw [if_neg ha]
      simp only [lookupA]
      by_cases ha2 : a = k2
      · rw [if_pos ha2, if_pos ha2]
      · rw [if_neg ha2, if_neg ha2]
        exact ih k v k2 hne

theorem isUnder_exists : ∀ (r p : FsPath), isUnder r p = true → ∃ x, p = r ++ x := by
  intro r
  induction r with
  | nil => intro p _; exact ⟨p, rfl⟩
  | cons a r' ih =>
    intro p h
    cases p with
    | nil => simp [isUnder] at h
    | cons b p' =>
      simp only [isUnder, Bool.and_eq_true, decide_eq_true_eq] at h
      obtain ⟨x, hx⟩ := ih p' h.2
      exact ⟨x, by simp [h.1, hx]⟩

theorem strictUnder_exists (r p : FsPath) (h : strictUnder r p = true) :
    ∃ x, x ≠ [] ∧ p = r ++ x := by
  simp only [strictUnder, Bool.and_eq_true, decide_eq_true_eq] at h
  obtain ⟨x, hx⟩ := isUnder_exists r p h.1
  refine ⟨x, ?_, hx⟩
  intro hxe
  subst hxe
  simp [hx] at h

theorem strictUnder_length_lt (r p : FsPath) (h : strictUnder r p = true) :
    r.length < p.length := by
  simp only [strictUnder, Bool.and_eq_true, decide_eq_true_eq] at h
  exact h.2

theorem mem_nodup_unique (ch : List (String × FNode)) (nm : String) (c d : FNode)
    (hnd : nodupB (ch.map (·.1)) = true) (hc : (nm, c) ∈ ch) (hd : (nm, d) ∈ ch) :
    c = d := by
  have h1 := lookupName_of_mem_nodup ch nm c hnd hc
  have h2 := lookupName_of_mem_nodup ch nm d hnd hd
  rw [h1] at h2
  exact Option.some.inj h2

theorem collectStep_chars (root : FsPath) (name : String) (c : FNode)
    (scan : RuleScan) (archives : List (String × FsPath × Nat))
    (folders : List (String × FsPath)) :
    ((collectStep root name c (scan, archives, folders)).1.files = scan.files) ∧
    ((collectStep root name c (scan, archives, folders)).1.dirs = scan.dirs) ∧
    ((collectStep root name c (scan, archives, folders)).1.bytes = scan.bytes) ∧
    (∀ a ∈ (collectStep root name c (scan, archives, folders)).2.1,
      a ∈ archives ∨ archCert root [(name, c)] a) ∧
    (∀ f ∈ (collectStep root name c (scan, archives, folders)).2.2,
      f ∈ folders ∨ folderCert root [(name, c)] f) := by
  cases c with
  | errEnt =>
    refine ⟨by simp [collectStep, record_error], by simp [collectStep, record_error],
      by simp [collectStep, record_error], ?_, ?_⟩
    · intro a ha
      exact Or.inl (by simpa [collectStep] using ha)
    · intro f hf
      exact Or.inl (by simpa [collectStep] using hf)
  | file sz md fl =>
    simp only [collectStep, utf8Of, ftypeOkOf, isSymlinkNode, isDirNode,
      Bool.false_eq_true, if_false]
    split_ifs with h1 h2
    · exact ⟨by simp [record_error], by simp [record_error], by simp [record_error],
        fun a ha => Or.inl ha, fun f hf => Or.inl hf⟩
    · exact ⟨by simp [record_error], by simp [record_error], by simp [record_error],
        fun a ha => Or.inl ha, fun f hf => Or.inl hf⟩
    · cases hb : archive_base_name name with
      | none =>
        exact ⟨by simp, by simp, by simp, fun a ha => Or.inl ha, fun f hf => Or.inl hf⟩
      | some base =>
        cases hl : lstat (FNode.file sz md fl) with
        | none =>
          exact ⟨by simp [record_error], by simp [record_error], by simp [record_error],
            fun a ha => Or.inl ha, fun f hf => Or.inl hf⟩
        | some meta =>
          refine ⟨by simp, by simp, by simp, ?_, fun f hf => Or.inl hf⟩
          intro a ha
          simp only at ha
          rcases List.mem_append.mp ha with h3 | h3
          · exact Or.inl h3
          · simp only [List.mem_singleton] at h3
            subst h3
            exact Or.inr ⟨name, .file sz md fl, meta, by simp, hl, hb, rfl, rfl,
              rfl, rfl, by simp⟩
  | symlink sz te fl =>
    simp only [collectStep, utf8Of, ftypeOkOf, isSymlinkNode, isDirNode, if_true]
    split_ifs with h1 h2
    · exact ⟨by simp [record_error], by simp [record_error], by simp [record_error],
        fun a ha => Or.inl ha, fun f hf => Or.inl hf⟩
    · exact ⟨by simp [record_error], by simp [record_error], by simp [record_error],
        fun a ha => Or.inl ha, fun f hf => Or.inl hf⟩
    · exact ⟨by simp, by simp, by simp, fun a ha => Or.inl ha, fun f hf => Or.inl hf⟩
  | dir ch ro dev fl =>
    simp only [collectStep, utf8Of, ftypeOkOf, isSymlinkNode, isDirNode,
      Bool.false_eq_true, if_false, if_true]
    split_ifs with h1 h2
    · exact ⟨by simp [record_error], by simp [record_error], by simp [record_error],
        fun a ha => Or.inl ha, fun f hf => Or.inl hf⟩
    · exact ⟨by simp [record_error], by simp [record_error], by simp [record_error],
        fun a ha => Or.inl ha, fun f hf => Or.inl hf⟩
    · refine ⟨by simp, by simp, by simp, fun a ha => Or.inl ha, ?_⟩
      intro f hf
      simp only at hf
      rcases mem_insertA folders name (root ++ [name]) f hf with h3 | h3
      · exact Or.inl h3
      · subst h3
        exact Or.inr ⟨.dir ch ro dev fl, by simp, rfl, rfl, rfl⟩

theorem collectDownloads_chars (root : FsPath) :
    ∀ (l : List (String × FNode))
      (acc : RuleScan × List (String × FsPath × Nat) × List (String × FsPath)),
      ((collectDownloads root l acc).1.files = acc.1.files) ∧
      ((collectDownloads root l acc).1.dirs = acc.1.dirs) ∧
      ((collectDownloads root l acc).1.bytes = acc.1.bytes) ∧
      (∀ a ∈ (collectDownloads root l acc).2.1, a ∈ acc.2.1 ∨ archCert root l a) ∧
      (∀ f ∈ (collectDownloads root l acc).2.2, f ∈ acc.2.2 ∨ folderCert root l f) := by
  intro l
  induction l with
  | nil =>
    intro acc
    exact ⟨by simp [collectDownloads], by simp [collectDownloads],
      by simp [collectDownloads], fun a ha => Or.inl (by simpa [collectDownloads] using ha),
      fun f hf => Or.inl (by simpa [collectDownloads] using hf)⟩
  | cons e rest ih =>
    intro acc
    obtain ⟨name, c⟩ := e
    have hstep := collectStep_chars root name c acc.1 acc.2.1 acc.2.2
    have hstep2 :
        ((collectStep root name c acc).1.files = acc.1.files) ∧
        ((collectStep root name c acc).1.dirs = acc.1.dirs) ∧
        ((collectStep root name c acc).1.bytes = acc.1.bytes) ∧
        (∀ a ∈ (collectStep root name c acc).2.1,
          a ∈ acc.2.1 ∨ archCert root [(name, c)] a) ∧
        (∀ f ∈ (collectStep root name c acc).2.2,
          f ∈ acc.2.2 ∨ folderCert root [(name, c)] f) := hstep
    have hrec := ih (collectStep root name c acc)
    have hgoal :
        collectDownloads root ((name, c) :: rest) acc =
          collectDownloads root rest (collectStep root name c acc) := rfl
    rw [hgoal]
    refine ⟨by rw [hrec.1, hstep2.1], by rw [hrec.2.1, hstep2.2.1],
      by rw [hrec.2.2.1, hstep2.2.2.1], ?_, ?_⟩
    · intro a ha
      rcases hrec.2.2.2.1 a ha with h1 | h1
      · rcases hstep2.2.2.2.1 a h1 with h2 | h2
        · exact Or.inl h2
        · obtain ⟨nm, c2, meta, hm, rest2⟩ := h2
          simp only [List.mem_singleton] at hm
          exact Or.inr ⟨nm, c2, meta, by simp [hm], rest2⟩
      · obtain ⟨nm, c2, meta, hm, rest2⟩ := h1
        exact Or.inr ⟨nm, c2, meta, List.mem_cons_of_mem _ hm, rest2⟩
    · intro f hf
      rcases hrec.2.2.2.2 f hf with h1 | h1
      · rcases hstep2.2.2.2.2 f h1 with h2 | h2
        · exact Or.inl h2
        · obtain ⟨d, hm, rest2⟩ := h2
          simp only [List.mem_singleton] at hm
          exact Or.inr ⟨d, by simp [hm], rest2⟩
      · obtain ⟨d, hm, rest2⟩ := h1
        exact Or.inr ⟨d, List.mem_cons_of_mem _ hm, rest2⟩

theorem collectStep_arch_mono (root : FsPath) (name : String) (c : FNode)
    (acc : RuleScan × List (String × FsPath × Nat) × List (String × FsPath))
    (a : String × FsPath × Nat) (ha : a ∈ acc.2.1) :
    a ∈ (collectStep root name c acc).2.1 := by
  obtain ⟨scan, archives, folders⟩ := acc
  cases c with
  | errEnt => simpa [collectStep] using ha
  | file sz md fl =>
    simp only [collectStep, utf8Of, ftypeOkOf, isSymlinkNode, isDirNode,
      Bool.false_eq_true, if_false]
    split_ifs
    · exact ha
    · exact ha
    · cases hb : archive_base_name name with
      | none => exact ha
      | some base =>
        cases hl : lstat (FNode.file sz md fl) with
        | none => exact ha
        | some meta => exact List.mem_append_left _ ha
  | symlink sz te fl =>
    simp only [collectStep, utf8Of, ftypeOkOf, isSymlinkNode, if_true]
    split_ifs <;> exact ha
  | dir ch ro dev fl =>
    simp only [collectStep, utf8Of, ftypeOkOf, isSymlinkNode, isDirNode,
      Bool.false_eq_true, if_false, if_true]
    split_ifs <;> exact ha

theorem collectDownloads_arch_mono (root : FsPath) :
    ∀ (l : List (String × FNode))
      (acc : RuleScan × List (String × FsPath × Nat) × List (String × FsPath))
      (a : String × FsPath × Nat), a ∈ acc.2.1 →
      a ∈ (collectDownloads root l acc).2.1 := by
  intro l
  induction l with
  | nil => intro acc a ha; simpa [collectDownloads] using ha
  | cons e rest ih =>
    intro acc a ha
    obtain ⟨name, c⟩ := e
    exact ih (collectStep root name c acc) a (collectStep_arch_mono root name c acc a ha)

theorem collectDownloads_arch_intro (root : FsPath) :
    ∀ (l : List (String × FNode))
      (acc : RuleScan × List (String × FsPath × Nat) × List (String × FsPath))
      (nm : String) (c : FNode) (meta : MetaM) (base : String),
      (nm, c) ∈ l → utf8Of c = true → ftypeOkOf c = true →
      isSymlinkNode c = false → isDirNode c = false → c ≠ .errEnt →
      archive_base_name nm = some base → lstat c = some meta →
      (base, root ++ [nm], meta.size) ∈ (collectDownloads root l acc).2.1 := by
  intro l
  induction l with
  | nil => intro acc nm c meta base hm; simp at hm
  | cons e rest ih =>
    intro acc nm c meta base hm hu hft hs hd he hb hl
    obtain ⟨name, c0⟩ := e
    rcases List.mem_cons.mp hm with heq | hm2
    · cases heq
      have hstep : (base, root ++ [nm], meta.size) ∈ (collectStep root nm c acc).2.1 := by
        obtain ⟨scan, archives, folders⟩ := acc
        cases c with
        | errEnt => exact absurd rfl he
        | symlink sz te fl => simp [isSymlinkNode] at hs
        | dir ch ro dev fl => simp [isDirNode] at hd
        | file sz md fl =>
          simp only [utf8Of] at hu
          simp only [ftypeOkOf] at hft
          simp only [collectStep, utf8Of, ftypeOkOf, isSymlinkNode, isDirNode,
            Bool.false_eq_true, if_false, hu, hft, Bool.not_true]
          rw [hb, hl]
          simp
      exact collectDownloads_arch_mono root rest _ _ hstep
    · exact ih (collectStep root name c0 acc) nm c meta base hm2 hu hft hs hd he hb hl

theorem collectStep_folder_lookup_pres (root : FsPath) (name : String) (c : FNode)
    (acc : RuleScan × List (String × FsPath × Nat) × List (String × FsPath))
    (dn : String) (h : lookupA acc.2.2 dn = some (root ++ [dn])) :
    lookupA (collectStep root name c acc).2.2 dn = some (root ++ [dn]) := by
  obtain ⟨scan, archives, folders⟩ := acc
  cases c with
  | errEnt => simpa [collectStep] using h
  | file sz md fl =>
    simp only [collectStep, utf8Of, ftypeOkOf, isSymlinkNode, isDirNode,
      Bool.false_eq_true, if_false]
    split_ifs
    · exact h
    · exact h
    · cases hb : archive_base_name name with
      | none => exact h
      | some base =>
        cases hl : lstat (FNode.file sz md fl) with
        | none => exact h
        | some meta => exact h
  | symlink sz te fl =>
    simp only [collectStep, utf8Of, ftypeOkOf, isSymlinkNode, if_true]
    split_ifs <;> exact h
  | dir ch ro dev fl =>
    simp only [collectStep, utf8Of, ftypeOkOf, isSymlinkNode, isDirNode,
      Bool.false_eq_true, if_false, if_true]
    split_ifs
    · exact h
    · exact h
    · by_cases hdn : name = dn
      · subst hdn
        simpa using lookupA_insertA_same folders name (root ++ [name])
      · simp only
        rw [lookupA_insertA_other folders name (root ++ [name]) dn
          (fun hx => hdn hx.symm)]
        exact h

theorem collectDownloads_folder_lookup_pres (root : FsPath) :
    ∀ (l : List (String × FNode))
      (acc : RuleScan × List (String × FsPath × Nat) × List (String × FsPath))
      (dn : String), lookupA acc.2.2 dn = some (root ++ [dn]) →
      lookupA (collectDownloads root l acc).2.2 dn = some (root ++ [dn]) := by
  intro l
  induction l with
  | nil => intro acc dn h; simpa [collectDownloads] using h
  | cons e rest ih =>
    intro acc dn h
    obtain ⟨name, c⟩ := e
    exact ih (collectStep root name c acc) dn
      (collectStep_folder_lookup_pres root name c acc dn h)

theorem collectDownloads_folder_intro (root : FsPath) :
    ∀ (l : List (String × FNode))
      (acc : RuleScan × List (String × FsPath × Nat) × List (String × FsPath))
      (dn : String) (d : FNode),
      (dn, d) ∈ l → utf8Of d = true → ftypeOkOf d = true →
      isSymlinkNode d = false → isDirNode d = true →
      lookupA (collectDownloads root l acc).2.2 dn = some (root ++ [dn]) := by
  intro l
  induction l with
  | nil => intro acc dn d hm; simp at hm
  | cons e rest ih =>
    intro acc dn d hm hu hft hs hd
    obtain ⟨name, c0⟩ := e
    rcases List.mem_cons.mp hm with heq | hm2
    · cases heq
      have hstep : lookupA (collectStep root dn d acc).2.2 dn = some (root ++ [dn]) := by
        obtain ⟨scan, archives, folders⟩ := acc
        cases d with
        | errEnt => simp [isDirNode] at hd
        | symlink sz te fl => simp [isSymlinkNode] at hs
        | file sz md fl => simp [isDirNode] at hd
        | dir ch ro dev fl =>
          simp only [utf8Of] at hu
          simp only [ftypeOkOf] at hft
          simp only [collectStep, utf8Of, ftypeOkOf, isSymlinkNode, isDirNode,
            Bool.false_eq_true, if_false, if_true, hu, hft, Bool.not_true]
          simpa using lookupA_insertA_same folders dn (root ++ [dn])
      exact collectDownloads_folder_lookup_pres root rest _ dn hstep
    · exact ih (collectStep root name c0 acc) dn d hm2 hu hft hs hd

theorem pairDownloadsA_master (fs : FNode) (folders : List (String × FsPath)) :
    ∀ (archives : List (String × FsPath × Nat)) (scan : RuleScan) (seen : List FsPath),
      (∀ a ∈ archives, a.2.2 = readSize fs a.2.1) →
      ∃ fd,
        ((pairDownloads fs .archives folders archives (scan, seen)).1.files =
          scan.files ++ fd) ∧
        ((pairDownloads fs .archives folders archives (scan, seen)).1.dirs =
          scan.dirs) ∧
        ((pairDownloads fs .archives folders archives (scan, seen)).1.bytes =
          scan.bytes + (fd.map (readSize fs)).sum) ∧
        (∀ p ∈ fd, ∃ b sz v, ((b, p, sz) : String × FsPath × Nat) ∈ archives ∧
          lookupA folders b = some v) := by
  intro archives
  induction archives with
  | nil =>
    intro scan seen _
    exact ⟨[], by simp [pairDownloads], by simp [pairDownloads],
      by simp [pairDownloads], by simp⟩
  | cons e rest ih =>
    intro scan seen harch
    obtain ⟨b, ap, sz⟩ := e
    have harch2 : ∀ a ∈ rest, a.2.2 = readSize fs a.2.1 :=
      fun a ha => harch a (List.mem_cons_of_mem _ ha)
    simp only [pairDownloads]
    cases hlk : lookupA folders b with
    | none =>
      dsimp only
      obtain ⟨fd2, ha2, hb2, hc2, hd2⟩ := ih scan seen harch2
      refine ⟨fd2, ha2, hb2, hc2, ?_⟩
      intro p hp
      obtain ⟨b2, sz2, v2, hm, hl2⟩ := hd2 p hp
      exact ⟨b2, sz2, v2, List.mem_cons_of_mem _ hm, hl2⟩
    | some dpath =>
      dsimp only
      obtain ⟨fd2, ha2, hb2, hc2, hd2⟩ := ih
        { scan with entries := scan.entries + 1, bytes := scan.bytes + sz,
                    files := scan.files ++ [ap] } seen harch2
      refine ⟨ap :: fd2, ?_, ?_, ?_, ?_⟩
      · rw [ha2]
        simp
      · rw [hb2]
      · rw [hc2]
        have hsz : sz = readSize fs ap := harch (b, ap, sz) (List.mem_cons_self _ _)
        simp only [List.map_cons, List.sum_cons]
        try dsimp only
        omega
      · intro p hp
        rcases List.mem_cons.mp hp with h1 | h1
        · subst h1
          exact ⟨b, sz, dpath, List.mem_cons_self _ _, hlk⟩
        · obtain ⟨b2, sz2, v2, hm, hl2⟩ := hd2 p h1
          exact ⟨b2, sz2, v2, List.mem_cons_of_mem _ hm, hl2⟩

theorem pairDownloadsF_master (fs : FNode) (folders : List (String × FsPath))
    (hwf : wfb fs = true)
    (hfold : ∀ kv ∈ folders, ∃ m, resolveK fs kv.2 = .found m ∧ isDirNode m = true) :
    ∀ (archives : List (String × FsPath × Nat)) (scan : RuleScan) (seen : List FsPath),
      ∃ fd dd,
        ((pairDownloads fs .folders folders archives (scan, seen)).1.files =
          scan.files ++ fd) ∧
        ((pairDownloads fs .folders folders archives (scan, seen)).1.dirs =
          scan.dirs ++ dd) ∧
        ((pairDownloads fs .folders folders archives (scan, seen)).1.bytes =
          scan.bytes + (fd.map (readSize fs)).sum) ∧
        (∀ p ∈ fd, (∃ m, resolveK fs p = .found m ∧ isDirNode m = false) ∧
          ∃ dpath, (∃ b ap sz, ((b, ap, sz) : String × FsPath × Nat) ∈ archives ∧
            lookupA folders b = some dpath) ∧
            (p = dpath ∨ strictUnder dpath p = true)) ∧
        (∀ p ∈ dd, (∃ m, resolveK fs p = .found m ∧ isDirNode m = true) ∧
          ∃ dpath, (∃ b ap sz, ((b, ap, sz) : String × FsPath × Nat) ∈ archives ∧
            lookupA folders b = some dpath) ∧
            (p = dpath ∨ strictUnder dpath p = true)) := by
  intro archives
  induction archives with
  | nil =>
    intro scan seen
    exact ⟨[], [], by simp [pairDownloads], by simp [pairDownloads],
      by simp [pairDownloads], by simp, by simp⟩
  | cons e rest ih =>
    intro scan seen
    obtain ⟨b, ap, sz⟩ := e
    simp only [pairDownloads]
    cases hlk : lookupA folders b with
    | none =>
      dsimp only
      obtain ⟨fd2, dd2, ha2, hb2, hc2, hd2, he2⟩ := ih scan seen
      refine ⟨fd2, dd2, ha2, hb2, hc2, ?_, ?_⟩
      · intro p hp
        obtain ⟨hm, dpath, ⟨b2, ap2, sz2, hmem, hl2⟩, ho⟩ := hd2 p hp
        exact ⟨hm, dpath, ⟨b2, ap2, sz2, List.mem_cons_of_mem _ hmem, hl2⟩, ho⟩
      · intro p hp
        obtain ⟨hm, dpath, ⟨b2, ap2, sz2, hmem, hl2⟩, ho⟩ := he2 p hp
        exact ⟨hm, dpath, ⟨b2, ap2, sz2, List.mem_cons_of_mem _ hmem, hl2⟩, ho⟩
    | some dpath =>
      dsimp only
      by_cases hseen : seen.contains dpath
      · rw [if_pos hseen]
        obtain ⟨fd2, dd2, ha2, hb2, hc2, hd2, he2⟩ := ih scan seen
        refine ⟨fd2, dd2, ha2, hb2, hc2, ?_, ?_⟩
        · intro p hp
          obtain ⟨hm, dpath2, ⟨b2, ap2, sz2, hmem, hl2⟩, ho⟩ := hd2 p hp
          exact ⟨hm, dpath2, ⟨b2, ap2, sz2, List.mem_cons_of_mem _ hmem, hl2⟩, ho⟩
        · intro p hp
          obtain ⟨hm, dpath2, ⟨b2, ap2, sz2, hmem, hl2⟩, ho⟩ := he2 p hp
          exact ⟨hm, dpath2, ⟨b2, ap2, sz2, List.mem_cons_of_mem _ hmem, hl2⟩, ho⟩
      · rw [if_neg hseen]
        obtain ⟨fd1, dd1, ha1, hb1, hc1, hd1, he1⟩ :=
          scan_root_master fs dpath none scan hwf
        have hfix := foldl_record_error_fixed (scan_root fs dpath none scan).2
          (scan_root fs dpath none scan).1
        obtain ⟨fd2, dd2, ha2, hb2, hc2, hd2, he2⟩ := ih
          { (scan_root fs dpath none scan).2.foldl record_error
              (scan_root fs dpath none scan).1 with
            dirs := ((scan_root fs dpath none scan).2.foldl record_error
              (scan_root fs dpath none scan).1).dirs ++ [dpath] }
          (seen ++ [dpath])
        have hdres : ∃ m, resolveK fs dpath = .found m ∧ isDirNode m = true :=
          hfold (b, dpath) (lookupA_mem folders b dpath hlk)
        refine ⟨fd1 ++ fd2, (dd1 ++ [dpath]) ++ dd2, ?_, ?_, ?_, ?_, ?_⟩
        · rw [ha2]
          dsimp only
          rw [hfix.1, ha1, List.append_assoc]
        · rw [hb2]
          dsimp only
          rw [hfix.2.1, hb1]
          simp [List.append_assoc]
        · rw [hc2]
          dsimp only
          rw [hfix.2.2.1, hc1]
          simp only [List.map_append, List.sum_append]
          omega
        · intro p hp
          rcases List.mem_append.mp hp with h1 | h1
          · exact ⟨(hd1 p h1).1, dpath,
              ⟨b, ap, sz, List.mem_cons_self _ _, hlk⟩, (hd1 p h1).2⟩
          · obtain ⟨hm, dpath2, ⟨b2, ap2, sz2, hmem, hl2⟩, ho⟩ := hd2 p h1
            exact ⟨hm, dpath2, ⟨b2, ap2, sz2, List.mem_cons_of_mem _ hmem, hl2⟩, ho⟩
        · intro p hp
          rcases List.mem_append.mp hp with h1 | h1
          · rcases List.mem_append.mp h1 with h2 | h2
            · exact ⟨(he1 p h2).1, dpath,
                ⟨b, ap, sz, List.mem_cons_self _ _, hlk⟩, Or.inr (he1 p h2).2⟩
            · simp only [List.mem_singleton] at h2
              subst h2
              exact ⟨hdres, p,
                ⟨b, ap, sz, List.mem_cons_self _ _, hlk⟩, Or.inl rfl⟩
          · obtain ⟨hm, dpath2, ⟨b2, ap2, sz2, hmem, hl2⟩, ho⟩ := he2 p h1
            exact ⟨hm, dpath2, ⟨b2, ap2, sz2, List.mem_cons_of_mem _ hmem, hl2⟩, ho⟩

theorem downloadsRoots_master (fs : FNode) (choice : DownloadsChoice)
    (hwf : wfb fs = true) :
    ∀ (roots : List FsPath) (scan : RuleScan),
      ∃ fd dd,
        ((downloadsRoots fs choice roots scan).files = scan.files ++ fd) ∧
        ((downloadsRoots fs choice roots scan).dirs = scan.dirs ++ dd) ∧
        ((downloadsRoots fs choice roots scan).bytes =
          scan.bytes + (fd.map (readSize fs)).sum) ∧
        (∀ p ∈ fd, (∃ m, resolveK fs p = .found m ∧ isDirNode m = false) ∧
          ∃ r ∈ roots, (p = r ∨ strictUnder r p = true)) ∧
        (∀ p ∈ dd, (∃ m, resolveK fs p = .found m ∧ isDirNode m = true) ∧
          ∃ r ∈ roots, strictUnder r p = true) := by
  intro roots
  induction roots with
  | nil =>
    intro scan
    exact ⟨[], [], by simp [downloadsRoots], by simp [downloadsRoots],
      by simp [downloadsRoots], by simp, by simp⟩
  | cons root rest ih =>
    intro scan
    have hskip : ∀ (s2 : RuleScan), s2.files = scan.files → s2.dirs = scan.dirs →
        s2.bytes = scan.bytes →
        ∃ fd dd,
          ((downloadsRoots fs choice rest s2).files = scan.files ++ fd) ∧
          ((downloadsRoots fs choice rest s2).dirs = scan.dirs ++ dd) ∧
          ((downloadsRoots fs choice rest s2).bytes =
            scan.bytes + (fd.map (readSize fs)).sum) ∧
          (∀ p ∈ fd, (∃ m, resolveK fs p = .found m ∧ isDirNode m = false) ∧
            ∃ r ∈ root :: rest, (p = r ∨ strictUnder r p = true)) ∧
          (∀ p ∈ dd, (∃ m, resolveK fs p = .found m ∧ isDirNode m = true) ∧
            ∃ r ∈ root :: rest, strictUnder r p = true) := by
      intro s2 hf hd hb
      obtain ⟨fd2, dd2, ha2, hb2, hc2, hd2, he2⟩ := ih s2
      refine ⟨fd2, dd2, by rw [ha2, hf], by rw [hb2, hd], by rw [hc2, hb], ?_, ?_⟩
      · intro p hp
        obtain ⟨hm, r, hr, ho⟩ := hd2 p hp
        exact ⟨hm, ⟨r, by simp [hr], ho⟩⟩
      · intro p hp
        obtain ⟨hm, r, hr, ho⟩ := he2 p hp
        exact ⟨hm, ⟨r, by simp [hr], ho⟩⟩
    simp only [downloadsRoots]
    cases hres : resolveK fs root with
    | missing =>
      dsimp only
      refine hskip _ ?_ ?_ ?_ <;> simp [record_error]
    | notDir =>
      dsimp only
      refine hskip _ ?_ ?_ ?_ <;> simp [record_error]
    | found n =>
      dsimp only
      cases hl : lstat n with
      | none =>
        dsimp only
        refine hskip _ ?_ ?_ ?_ <;> simp [record_error]
      | some meta =>
        dsimp only
        by_cases hsym : (meta.isSymlinkM || !meta.isDirM) = true
        · rw [if_pos hsym]
          exact hskip _ rfl rfl rfl
        · rw [if_neg hsym]
          cases n with
          | file sz md fl => exact hskip _ rfl rfl rfl
          | symlink sz te fl => exact hskip _ rfl rfl rfl
          | errEnt => exact hskip _ rfl rfl rfl
          | dir ch ro dev fl =>
            dsimp only
            by_cases hro : (!ro) = true
            · rw [if_pos hro]
              refine hskip _ ?_ ?_ ?_ <;> simp [record_error]
            · rw [if_neg hro]
              have hwn : wfb (FNode.dir ch ro dev fl) = true :=
                wfb_resolve root fs _ hwf hres
              have hnd : nodupB (ch.map (·.1)) = true := by
                simp only [wfb, Bool.and_eq_true] at hwn
                exact hwn.1
              have hch : ∀ (nm : String) (c : FNode), (nm, c) ∈ ch →
                  resolveK fs (root ++ [nm]) = .found c := by
                intro nm c hm
                have hlk := lookupName_of_mem_nodup ch nm c hnd hm
                rw [resolveK_append root fs _ [nm] hres]
                simp [resolveK, hlk]
              have hcd := collectDownloads_chars root ch (scan, [], [])
              have hcert : ∀ a ∈ (collectDownloads root ch (scan, [], [])).2.1,
                  archCert root ch a := by
                intro a ha
                rcases hcd.2.2.2.1 a ha with h0 | hc
                · simp at h0
                · exact hc
              have harch : ∀ a ∈ (collectDownloads root ch (scan, [], [])).2.1,
                  a.2.2 = readSize fs a.2.1 := by
                intro a ha
                obtain ⟨nm, c, meta2, hm, hl2, hb2, hp1, hp2, hdn, hsn, hne⟩ :=
                  hcert a ha
                have hresc := hch nm c hm
                have hfile : meta2.isFileM = true := by
                  cases c with
                  | file sz2 md2 fl2 =>
                    simp only [lstat] at hl2
                    split_ifs at hl2
                    cases hl2
                    rfl
                  | symlink _ _ _ => simp [isSymlinkNode] at hsn
                  | dir _ _ _ _ => simp [isDirNode] at hdn
                  | errEnt => exact absurd rfl hne
                rw [hp2, hp1]
                exact lstat_file_readSize fs (root ++ [nm]) c meta2 hl2 hfile hresc
              have harchres : ∀ a ∈ (collectDownloads root ch (scan, [], [])).2.1,
                  (∃ m, resolveK fs a.2.1 = .found m ∧ isDirNode m = false) ∧
                  strictUnder root a.2.1 = true := by
                intro a ha
                obtain ⟨nm, c, meta2, hm, hl2, hb2, hp1, hp2, hdn, hsn, hne⟩ :=
                  hcert a ha
                refine ⟨⟨c, ?_, hdn⟩, ?_⟩
                · rw [hp1]; exact hch nm c hm
                · rw [hp1]; exact strictUnder_append root [nm] (by simp)
              have hfcert : ∀ kv ∈ (collectDownloads root ch (scan, [], [])).2.2,
                  folderCert root ch kv := by
                intro kv hkv
                rcases hcd.2.2.2.2 kv hkv with h0 | hc
                · simp at h0
                · exact hc
              have hfold : ∀ kv ∈ (collectDownloads root ch (scan, [], [])).2.2,
                  ∃ m, resolveK fs kv.2 = .found m ∧ isDirNode m = true := by
                intro kv hkv
                obtain ⟨d, hm, hdn, hsn, hv⟩ := hfcert kv hkv
                exact ⟨d, by rw [hv]; exact hch kv.1 d hm, hdn⟩
              have hfoldsu : ∀ kv ∈ (collectDownloads root ch (scan, [], [])).2.2,
                  strictUnder root kv.2 = true := by
                intro kv hkv
                obtain ⟨d, hm, hdn, hsn, hv⟩ := hfcert kv hkv
                rw [hv]
                exact strictUnder_append root [kv.1] (by simp)
              cases choice with
              | archives =>
                obtain ⟨fd1, ha1, hb1, hc1, hd1⟩ := pairDownloadsA_master fs
                  (collectDownloads root ch (scan, [], [])).2.2
                  (collectDownloads root ch (scan, [], [])).2.1
                  (collectDownloads root ch (scan, [], [])).1 [] harch
                obtain ⟨fd2, dd2, ha2, hb2, hc2, hd2, he2⟩ := ih
                  (pairDownloads fs .archives
                    (collectDownloads root ch (scan, [], [])).2.2
                    (collectDownloads root ch (scan, [], [])).2.1
                    ((collectDownloads root ch (scan, [], [])).1, [])).1
                refine ⟨fd1 ++ fd2, dd2, ?_, ?_, ?_, ?_, ?_⟩
                · rw [ha2, ha1, hcd.1, List.append_assoc]
                · rw [hb2, hb1, hcd.2.1]
                · rw [hc2, hc1, hcd.2.2.1]
                  simp only [List.map_append, List.sum_append]
                  omega
                · intro p hp
                  rcases List.mem_append.mp hp with h1 | h1
                  · obtain ⟨b, sz, v, hmem, hlk⟩ := hd1 p h1
                    have := harchres (b, p, sz) hmem
                    exact ⟨this.1, ⟨root, by simp, Or.inr this.2⟩⟩
                  · obtain ⟨hm, r, hr, ho⟩ := hd2 p h1
                    exact ⟨hm, ⟨r, by simp [hr], ho⟩⟩
                · intro p hp
                  obtain ⟨hm, r, hr, ho⟩ := he2 p hp
                  exact ⟨hm, ⟨r, by simp [hr], ho⟩⟩
              | folders =>
                obtain ⟨fd1, dd1, ha1, hb1, hc1, hd1, he1⟩ := pairDownloadsF_master fs
                  (collectDownloads root ch (scan, [], [])).2.2 hwf hfold
                  (collectDownloads root ch (scan, [], [])).2.1
                  (collectDownloads root ch (scan, [], [])).1 []
                obtain ⟨fd2, dd2, ha2, hb2, hc2, hd2, he2⟩ := ih
                  (pairDownloads fs .folders
                    (collectDownloads root ch (scan, [], [])).2.2
                    (collectDownloads root ch (scan, [], [])).2.1
                    ((collectDownloads root ch (scan, [], [])).1, [])).1
                refine ⟨fd1 ++ fd2, dd1 ++ dd2, ?_, ?_, ?_, ?_, ?_⟩
                · rw [ha2, ha1, hcd.1, List.append_assoc]
                · rw [hb2, hb1, hcd.2.1, List.append_assoc]
                · rw [hc2, hc1, hcd.2.2.1]
                  simp only [List.map_append, List.sum_append]
                  omega
                · intro p hp
                  rcases List.mem_append.mp hp with h1 | h1
                  · obtain ⟨hm, dpath, ⟨b, ap, sz, hmem, hlk⟩, ho⟩ := hd1 p h1
                    have hsu := hfoldsu (b, dpath)
                      (lookupA_mem _ b dpath hlk)
                    refine ⟨hm, ⟨root, by simp, Or.inr ?_⟩⟩
                    rcases ho with he | he
                    · exact he ▸ hsu
                    · exact strictUnder_trans_of root dpath p hsu he
                  · obtain ⟨hm, r, hr, ho⟩ := hd2 p h1
                    exact ⟨hm, ⟨r, by simp [hr], ho⟩⟩
                · intro p hp
                  rcases List.mem_append.mp hp with h1 | h1
                  · obtain ⟨hm, dpath, ⟨b, ap, sz, hmem, hlk⟩, ho⟩ := he1 p h1
                    have hsu := hfoldsu (b, dpath)
                      (lookupA_mem _ b dpath hlk)
                    refine ⟨hm, ⟨root, by simp, ?_⟩⟩
                    rcases ho with he | he
                    · exact he ▸ hsu
                    · exact strictUnder_trans_of root dpath p hsu he
                  · obtain ⟨hm, r, hr, ho⟩ := he2 p h1
                    exact ⟨hm, ⟨r, by simp [hr], ho⟩⟩

theorem scan_rule_master {G : Type} (lib : GlobLib G) (now : Nat) (fs : FNode)
    (rule : Rule) (options : ScanOptions) (hwf : wfb fs = true) :
    ((scan_rule lib now fs rule options).bytes =
      ((scan_rule lib now fs rule options).files.map (readSize fs)).sum) ∧
    (∀ p ∈ (scan_rule lib now fs rule options).files,
      (∃ m, resolveK fs p = .found m ∧ isDirNode m = false) ∧
      ∃ r ∈ rule.expandedPaths, (p = r ∨ strictUnder r p = true)) ∧
    (∀ p ∈ (scan_rule lib now fs rule options).dirs,
      (∃ m, resolveK fs p = .found m ∧ isDirNode m = true) ∧
      ∃ r ∈ rule.expandedPaths, strictUnder r p = true) := by
  unfold scan_rule
  cases hk : rule.kind with
  | paths =>
    dsimp only
    unfold scan_paths_rule
    have hfix := foldl_record_error_fixed
      (build_globset lib rule.exclude_globs).2 (emptyScan rule)
    obtain ⟨fd, dd, ha, hb, hc, hd, he⟩ := pathsRoots_master fs
      (build_globset lib rule.exclude_globs).1 hwf rule.expandedPaths
      ((build_globset lib rule.exclude_globs).2.foldl record_error (emptyScan rule))
    rw [ha, hb, hc, hfix.1, hfix.2.1, hfix.2.2.1]
    simp only [emptyScan, List.nil_append]
    exact ⟨by simp, hd, he⟩
  | logs =>
    dsimp only
    unfold scan_logs_rule
    have hfix := foldl_record_error_fixed
      (build_globset lib rule.exclude_globs).2 (emptyScan rule)
    obtain ⟨fd, ha, hb, hc, hd⟩ := logsRoots_master fs
      (build_globset lib rule.exclude_globs).1
      (rule.older_than_days.bind (cutoff_from_days now)) hwf rule.expandedPaths
      ((build_globset lib rule.exclude_globs).2.foldl record_error (emptyScan rule))
    rw [ha, hb, hc, hfix.1, hfix.2.1, hfix.2.2.1]
    simp only [emptyScan, List.nil_append]
    refine ⟨by simp, ?_, by simp⟩
    intro p hp
    exact ⟨(hd p hp).1, (hd p hp).2⟩
  | downloads =>
    dsimp only
    unfold scan_downloads_rule
    cases options.downloadsChoice with
    | none => simp [emptyScan]
    | some c =>
      dsimp only
      obtain ⟨fd, dd, ha, hb, hc, hd, he⟩ := downloadsRoots_master fs c hwf
        rule.expandedPaths (emptyScan rule)
      rw [ha, hb, hc]
      simp only [emptyScan, List.nil_append]
      exact ⟨by simp, hd, he⟩

/-- C1 (amended): for every `RuleScan` produced by `scan_rule` over a
well-formed tree, `bytes` equals the sum over the `files` list of the
sizes the scanner can observe (`readSize`: the stat-reported size, 0 when
the stat call fails), and paths in `dirs` contribute nothing. The
original claim, read with the actual on-disk sizes, fails: a file whose
metadata read fails is still listed in `files` but contributes 0. -/
theorem scan_bytes_sum_files_sizes {G : Type} (lib : GlobLib G) (now : Nat)
    (fs : FNode) (rule : Rule) (options : ScanOptions) (hwf : wfb fs = true) :
    (scan_rule lib now fs rule options).bytes =
      ((scan_rule lib now fs rule options).files.map (readSize fs)).sum :=
  (scan_rule_master lib now fs rule options hwf).1

/-- Witness for C1 at a concrete input: a well-formed one-file tree,
where the sum is the file's size 5. -/
theorem scan_bytes_sum_files_sizes_witness :
    wfb exFsOneFile = true ∧
    (scan_rule exGlobLib 0 exFsOneFile exRulePaths ⟨none⟩).bytes =
      ((scan_rule exGlobLib 0 exFsOneFile exRulePaths ⟨none⟩).files.map
        (readSize exFsOneFile)).sum :=
  ⟨by decide, scan_bytes_sum_files_sizes exGlobLib 0 exFsOneFile exRulePaths ⟨none⟩
    (by decide)⟩

/-- Counterexample for C1 as stated: a file of actual size 5 whose stat
call fails is listed in `files` yet `bytes` is 0, so `bytes` is not the
sum of the sizes of the paths in `files`. -/
theorem scan_bytes_sum_files_sizes_counterexample :
    (scan_rule exGlobLib 0 exFsStatFail exRulePaths ⟨none⟩).files = [["f"]] ∧
    trueSize exFsStatFail ["f"] = 5 ∧
    (scan_rule exGlobLib 0 exFsStatFail exRulePaths ⟨none⟩).bytes = 0 := by
  refine ⟨?_, ?_, ?_⟩ <;> rfl

/-- C2 (amended): for every `RuleScan` produced by `scan_rule` over a
well-formed tree, no path is in both `files` and `dirs`; when no
configured root lies strictly inside another root's subtree, no expanded
root is ever in `dirs`, and a root can appear in `files` only by
resolving to a non-directory (a file or symlink root is recorded itself,
refuting the unqualified original claim). -/
theorem scan_files_dirs_disjoint {G : Type} (lib : GlobLib G) (now : Nat)
    (fs : FNode) (rule : Rule) (options : ScanOptions) (hwf : wfb fs = true)
    (hnn : rootsNoNest rule.expandedPaths = true) :
    (∀ p ∈ (scan_rule lib now fs rule options).files,
      p ∉ (scan_rule lib now fs rule options).dirs) ∧
    (∀ r ∈ rule.expandedPaths, r ∉ (scan_rule lib now fs rule options).dirs) ∧
    (∀ r ∈ rule.expandedPaths, r ∈ (scan_rule lib now fs rule options).files →
      ∃ m, resolveK fs r = .found m ∧ isDirNode m = false) := by
  obtain ⟨hbytes, hfiles, hdirs⟩ := scan_rule_master lib now fs rule options hwf
  refine ⟨?_, ?_, ?_⟩
  · intro p hpf hpd
    obtain ⟨⟨m1, hm1, hnd1⟩, _⟩ := hfiles p hpf
    obtain ⟨⟨m2, hm2, hnd2⟩, _⟩ := hdirs p hpd
    rw [hm1] at hm2
    cases hm2
    rw [hnd1] at hnd2
    exact Bool.noConfusion hnd2
  · intro r hr hrd
    obtain ⟨_, r2, hr2, hsu⟩ := hdirs r hrd
    simp only [rootsNoNest, List.all_eq_true] at hnn
    have := hnn r2 hr2 r hr
    rw [hsu] at this
    exact Bool.noConfusion this
  · intro r _ hrf
    exact (hfiles r hrf).1

/-- Witness for C2 at a concrete input: a one-file tree with the single
root `f`; the root resolves to a file, `dirs` is empty. -/
theorem scan_files_dirs_disjoint_witness :
    wfb exFsOneFile = true ∧ rootsNoNest exRulePaths.expandedPaths = true ∧
    ((∀ p ∈ (scan_rule exGlobLib 0 exFsOneFile exRulePaths ⟨none⟩).files,
      p ∉ (scan_rule exGlobLib 0 exFsOneFile exRulePaths ⟨none⟩).dirs) ∧
    (∀ r ∈ exRulePaths.expandedPaths,
      r ∉ (scan_rule exGlobLib 0 exFsOneFile exRulePaths ⟨none⟩).dirs) ∧
    (∀ r ∈ exRulePaths.expandedPaths,
      r ∈ (scan_rule exGlobLib 0 exFsOneFile exRulePaths ⟨none⟩).files →
      ∃ m, resolveK exFsOneFile r = .found m ∧ isDirNode m = false)) :=
  ⟨by decide, by decide,
    scan_files_dirs_disjoint exGlobLib 0 exFsOneFile exRulePaths ⟨none⟩
      (by decide) (by decide)⟩

/-- Counterexample for C2 as stated: a Paths rule whose configured root
is itself a regular file records that very root in `files`, so "none of
the rule's own expanded root paths is a member of either list" is false. -/
theorem scan_files_dirs_disjoint_counterexample :
    exRulePaths.expandedPaths = [["f"]] ∧
    (scan_rule exGlobLib 0 exFsOneFile exRulePaths ⟨none⟩).files = [["f"]] :=
  ⟨rfl, rfl⟩

/-- C6 (amended): symlinks met by the walk are never followed: over a
well-formed tree, if a path resolves to a symlink, then no path strictly
below it is in the `files` or `dirs` of any `scan_rule` result (below a
symlink nothing resolves, and every recorded path resolves). The
"nor records it" half of the original claim is false: the symlink leaf
itself is recorded in `files`. -/
theorem walk_symlink_leaf_not_followed {G : Type} (lib : GlobLib G) (now : Nat)
    (fs : FNode) (rule : Rule) (options : ScanOptions) (q : FsPath)
    (sz : Nat) (te : Bool) (fl : Flags) (hwf : wfb fs = true)
    (hq : resolveK fs q = .found (.symlink sz te fl)) :
    ∀ p, strictUnder q p = true →
      p ∉ (scan_rule lib now fs rule options).files ∧
      p ∉ (scan_rule lib now fs rule options).dirs := by
  obtain ⟨_, hfiles, hdirs⟩ := scan_rule_master lib now fs rule options hwf
  intro p hsu
  obtain ⟨x, hxne, hpx⟩ := strictUnder_exists q p hsu
  have hnres : resolveK fs p = .notDir := by
    rw [hpx, resolveK_append q fs _ x hq]
    cases x with
    | nil => exact absurd rfl hxne
    | cons a x2 => rfl
  constructor
  · intro hpf
    obtain ⟨⟨m, hm, _⟩, _⟩ := hfiles p hpf
    rw [hnres] at hm
    exact ResolveRes.noConfusion hm
  · intro hpd
    obtain ⟨⟨m, hm, _⟩, _⟩ := hdirs p hpd
    rw [hnres] at hm
    exact ResolveRes.noConfusion hm

/-- Witness for C6 at a concrete input: a tree with symlink `r/s`;
nothing strictly under `r/s` is recorded. -/
theorem walk_symlink_leaf_not_followed_witness :
    wfb exFsSym = true ∧
    resolveK exFsSym ["r", "s"] = .found (.symlink 3 true Flags.good) ∧
    (∀ p, strictUnder ["r", "s"] p = true →
      p ∉ (scan_rule exGlobLib 0 exFsSym exRuleSymPaths ⟨none⟩).files ∧
      p ∉ (scan_rule exGlobLib 0 exFsSym exRuleSymPaths ⟨none⟩).dirs) :=
  ⟨by decide, rfl,
    walk_symlink_leaf_not_followed exGlobLib 0 exFsSym exRuleSymPaths ⟨none⟩
      ["r", "s"] 3 true Flags.good (by decide) rfl⟩

/-- Counterexample for C6 as stated: the walk over root `r` records the
symlink leaf `r/s` in `files` (and adds its own size), so symlink leaves
ARE recorded as files. -/
theorem walk_symlink_leaf_not_followed_counterexample :
    (scan_rule exGlobLib 0 exFsSym exRuleSymPaths ⟨none⟩).files = [["r", "s"]] ∧
    (scan_rule exGlobLib 0 exFsSym exRuleSymPaths ⟨none⟩).bytes = 3 :=
  ⟨rfl, rfl⟩

theorem append_singleton_inj (r : FsPath) (a b : String)
    (h : r ++ [a] = r ++ [b]) : a = b := by
  induction r with
  | nil => simpa using h
  | cons x r2 ih =>
    simp only [List.cons_append, List.cons.injEq] at h
    exact ih h.2

theorem mem_of_contains_path (l : List FsPath) (x : FsPath)
    (h : l.contains x = true) : x ∈ l := by
  simpa using h

theorem pairDownloadsA_files_mono (fs : FNode) (folders : List (String × FsPath)) :
    ∀ (archives : List (String × FsPath × Nat)) (scan : RuleScan)
      (seen : List FsPath) (p : FsPath), p ∈ scan.files →
      p ∈ (pairDownloads fs .archives folders archives (scan, seen)).1.files := by
  intro archives
  induction archives with
  | nil => intro scan seen p hp; simpa [pairDownloads] using hp
  | cons e rest ih =>
    intro scan seen p hp
    obtain ⟨b, ap, sz⟩ := e
    simp only [pairDownloads]
    cases hlk : lookupA folders b with
    | none => exact ih scan seen p hp
    | some dpath =>
      dsimp only
      exact ih _ seen p (List.mem_append_left _ hp)

theorem pairDownloadsA_mem (fs : FNode) (folders : List (String × FsPath)) :
    ∀ (archives : List (String × FsPath × Nat)) (scan : RuleScan)
      (seen : List FsPath) (b : String) (ap : FsPath) (sz : Nat),
      (b, ap, sz) ∈ archives → (lookupA folders b).isSome = true →
      ap ∈ (pairDownloads fs .archives folders archives (scan, seen)).1.files := by
  intro archives
  induction archives with
  | nil => intro scan seen b ap sz hm; simp at hm
  | cons e rest ih =>
    intro scan seen b ap sz hm hsome
    obtain ⟨b2, ap2, sz2⟩ := e
    rcases List.mem_cons.mp hm with heq | hm2
    · cases heq
      simp only [pairDownloads]
      cases hlk : lookupA folders b with
      | none => rw [hlk] at hsome; simp at hsome
      | some dpath =>
        dsimp only
        exact pairDownloadsA_files_mono fs folders rest _ seen ap
          (List.mem_append_right _ (List.mem_singleton.mpr rfl))
    · simp only [pairDownloads]
      cases hlk : lookupA folders b2 with
      | none => exact ih scan seen b ap sz hm2 hsome
      | some dpath =>
        dsimp only
        exact ih _ seen b ap sz hm2 hsome

theorem pairDownloadsF_dirs_mono (fs : FNode) (folders : List (String × FsPath))
    (hwf : wfb fs = true) :
    ∀ (archives : List (String × FsPath × Nat)) (scan : RuleScan)
      (seen : List FsPath) (p : FsPath), p ∈ scan.dirs →
      p ∈ (pairDownloads fs .folders folders archives (scan, seen)).1.dirs := by
  intro archives
  induction archives with
  | nil => intro scan seen p hp; simpa [pairDownloads] using hp
  | cons e rest ih =>
    intro scan seen p hp
    obtain ⟨b, ap, sz⟩ := e
    simp only [pairDownloads]
    cases hlk : lookupA folders b with
    | none => exact ih scan seen p hp
    | some dpath =>
      dsimp only
      by_cases hseen : seen.contains dpath
      · rw [if_pos hseen]
        exact ih scan seen p hp
      · rw [if_neg hseen]
        refine ih _ _ p ?_
        dsimp only
        have hfix := foldl_record_error_fixed (scan_root fs dpath none scan).2
          (scan_root fs dpath none scan).1
        obtain ⟨fd1, dd1, _, hb1, _, _, _⟩ := scan_root_master fs dpath none scan hwf
        rw [hfix.2.1, hb1]
        exact List.mem_append_left _ (List.mem_append_left _ hp)

theorem pairDownloadsF_dirs_mem (fs : FNode) (folders : List (String × FsPath))
    (hwf : wfb fs = true) :
    ∀ (archives : List (String × FsPath × Nat)) (scan : RuleScan)
      (seen : List FsPath) (b : String) (ap : FsPath) (sz : Nat) (dpath : FsPath),
      (b, ap, sz) ∈ archives → lookupA folders b = some dpath →
      (∀ q ∈ seen, q ∈ scan.dirs) →
      dpath ∈ (pairDownloads fs .folders folders archives (scan, seen)).1.dirs := by
  intro archives
  induction archives with
  | nil => intro scan seen b ap sz dpath hm; simp at hm
  | cons e rest ih =>
    intro scan seen b ap sz dpath hm hlk hinv
    obtain ⟨b2, ap2, sz2⟩ := e
    rcases List.mem_cons.mp hm with heq | hm2
    · cases heq
      simp only [pairDownloads]
      rw [hlk]
      dsimp only
      by_cases hseen : seen.contains dpath
      · rw [if_pos hseen]
        exact pairDownloadsF_dirs_mono fs folders hwf rest scan seen dpath
          (hinv dpath (mem_of_contains_path seen dpath hseen))
      · rw [if_neg hseen]
        refine pairDownloadsF_dirs_mono fs folders hwf rest _ _ dpath ?_
        dsimp only
        exact List.mem_append_right _ (List.mem_singleton.mpr rfl)
    · simp only [pairDownloads]
      cases hlk2 : lookupA folders b2 with
      | none => exact ih scan seen b ap sz dpath hm2 hlk hinv
      | some dpath2 =>
        dsimp only
        by_cases hseen : seen.contains dpath2
        · rw [if_pos hseen]
          exact ih scan seen b ap sz dpath hm2 hlk hinv
        · rw [if_neg hseen]
          refine ih _ _ b ap sz dpath hm2 hlk ?_
          intro q hq
          dsimp only
          have hfix := foldl_record_error_fixed (scan_root fs dpath2 none scan).2
            (scan_root fs dpath2 none scan).1
          obtain ⟨fd1, dd1, _, hb1, _, _, _⟩ := scan_root_master fs dpath2 none scan hwf
          rw [hfix.2.1, hb1]
          rcases List.mem_append.mp hq with h1 | h1
          · exact List.mem_append_left _ (List.mem_append_left _ (hinv q h1))
          · simp only [List.mem_singleton] at h1
            subst h1
            exact List.mem_append_right _ (List.mem_singleton.mpr rfl)

theorem scan_downloads_dir_eq (fs : FNode) (rule : Rule) (choice : DownloadsChoice)
    (root : FsPath) (ch : List (String × FNode)) (dev : Nat) (fl : Flags)
    (hpaths : rule.expandedPaths = [root])
    (hres : resolveK fs root = .found (.dir ch true dev fl))
    (hstat : fl.statOk = true) :
    scan_downloads_rule fs rule (some choice) =
      (pairDownloads fs choice
        (collectDownloads root ch (emptyScan rule, [], [])).2.2
        (collectDownloads root ch (emptyScan rule, [], [])).2.1
        ((collectDownloads root ch (emptyScan rule, [], [])).1, [])).1 := by
  unfold scan_downloads_rule
  dsimp only
  rw [hpaths]
  simp only [downloadsRoots]
  rw [hres]
  dsimp only
  simp only [lstat, hstat, if_true]
  dsimp only
  simp

/-- C7: in a Downloads-kind scan of a readable directory root (over a
well-formed tree), pairing is exactly by base name: (1) an archive child
whose base name matches no non-symlink directory sibling appears in
neither `files` nor `dirs`; (2) a non-symlink directory child matched by
no archive sibling appears in neither list; (3) under the Archives
choice a matched archive is recorded in `files`; (4) under the Folders
choice the matched directory is recorded in `dirs`. -/
theorem downloads_pairing_by_base_name {G : Type} (lib : GlobLib G) (now : Nat)
    (fs : FNode) (rule : Rule) (choice : DownloadsChoice) (root : FsPath)
    (ch : List (String × FNode)) (dev : Nat) (fl : Flags)
    (hwf : wfb fs = true) (hkind : rule.kind = .downloads)
    (hpaths : rule.expandedPaths = [root])
    (hres : resolveK fs root = .found (.dir ch true dev fl))
    (hstat : fl.statOk = true) :
    (∀ nm c base, (nm, c) ∈ ch → isDirNode c = false → isSymlinkNode c = false →
      c ≠ .errEnt → archive_base_name nm = some base →
      (¬ ∃ d, (base, d) ∈ ch ∧ isDirNode d = true ∧ isSymlinkNode d = false) →
      root ++ [nm] ∉ (scan_rule lib now fs rule ⟨some choice⟩).files ∧
      root ++ [nm] ∉ (scan_rule lib now fs rule ⟨some choice⟩).dirs) ∧
    (∀ dn d, (dn, d) ∈ ch → isDirNode d = true → isSymlinkNode d = false →
      (¬ ∃ nm c, (nm, c) ∈ ch ∧ isDirNode c = false ∧ isSymlinkNode c = false ∧
        c ≠ .errEnt ∧ archive_base_name nm = some dn) →
      root ++ [dn] ∉ (scan_rule lib now fs rule ⟨some choice⟩).files ∧
      root ++ [dn] ∉ (scan_rule lib now fs rule ⟨some choice⟩).dirs) ∧
    (∀ nm c meta base d, choice = .archives → (nm, c) ∈ ch →
      utf8Of c = true → ftypeOkOf c = true → isSymlinkNode c = false →
      isDirNode c = false → c ≠ .errEnt → archive_base_name nm = some base →
      lstat c = some meta → (base, d) ∈ ch → isDirNode d = true →
      isSymlinkNode d = false → utf8Of d = true → ftypeOkOf d = true →
      root ++ [nm] ∈ (scan_rule lib now fs rule ⟨some choice⟩).files) ∧
    (∀ nm c meta base d, choice = .folders → (nm, c) ∈ ch →
      utf8Of c = true → ftypeOkOf c = true → isSymlinkNode c = false →
      isDirNode c = false → c ≠ .errEnt → archive_base_name nm = some base →
      lstat c = some meta → (base, d) ∈ ch → isDirNode d = true →
      isSymlinkNode d = false → utf8Of d = true → ftypeOkOf d = true →
      root ++ [base] ∈ (scan_rule lib now fs rule ⟨some choice⟩).dirs) := by
  have heq : scan_rule lib now fs rule ⟨some choice⟩ =
      (pairDownloads fs choice
        (collectDownloads root ch (emptyScan rule, [], [])).2.2
        (collectDownloads root ch (emptyScan rule, [], [])).2.1
        ((collectDownloads root ch (emptyScan rule, [], [])).1, [])).1 := by
    unfold scan_rule
    rw [hkind]
    exact scan_downloads_dir_eq fs rule choice root ch dev fl hpaths hres hstat
  have hwn : wfb (FNode.dir ch true dev fl) = true := wfb_resolve root fs _ hwf hres
  have hnd : nodupB (ch.map (·.1)) = true := by
    simp only [wfb, Bool.and_eq_true] at hwn
    exact hwn.1
  have hch : ∀ (nm : String) (c : FNode), (nm, c) ∈ ch →
      resolveK fs (root ++ [nm]) = .found c := by
    intro nm c hm
    have hlk := lookupName_of_mem_nodup ch nm c hnd hm
    rw [resolveK_append root fs _ [nm] hres]
    simp [resolveK, hlk]
  have hcd := collectDownloads_chars root ch (emptyScan rule, [], [])
  have hcert : ∀ a ∈ (collectDownloads root ch (emptyScan rule, [], [])).2.1,
      archCert root ch a := by
    intro a ha
    rcases hcd.2.2.2.1 a ha with h0 | hc
    · simp at h0
    · exact hc
  have hfcert : ∀ kv ∈ (collectDownloads root ch (emptyScan rule, [], [])).2.2,
      folderCert root ch kv := by
    intro kv hkv
    rcases hcd.2.2.2.2 kv hkv with h0 | hc
    · simp at h0
    · exact hc
  have harch : ∀ a ∈ (collectDownloads root ch (emptyScan rule, [], [])).2.1,
      a.2.2 = readSize fs a.2.1 := by
    intro a ha
    obtain ⟨nm, c, meta2, hm, hl2, hb2, hp1, hp2, hdn, hsn, hne⟩ := hcert a ha
    have hresc := hch nm c hm
    have hfile : meta2.isFileM = true := by
      cases c with
      | file sz2 md2 fl2 =>
        simp only [lstat] at hl2
        split_ifs at hl2
        cases hl2
        rfl
      | symlink _ _ _ => simp [isSymlinkNode] at hsn
      | dir _ _ _ _ => simp [isDirNode] at hdn
      | errEnt => exact absurd rfl hne
    rw [hp2, hp1]
    exact lstat_file_readSize fs (root ++ [nm]) c meta2 hl2 hfile hresc
  have hfold : ∀ kv ∈ (collectDownloads root ch (emptyScan rule, [], [])).2.2,
      ∃ m, resolveK fs kv.2 = .found m ∧ isDirNode m = true := by
    intro kv hkv
    obtain ⟨d, hm, hdn, hsn, hv⟩ := hfcert kv hkv
    exact ⟨d, by rw [hv]; exact hch kv.1 d hm, hdn⟩
  have hSfiles : (collectDownloads root ch (emptyScan rule, [], [])).1.files = [] := by
    rw [hcd.1]
    rfl
  have hSdirs : (collectDownloads root ch (emptyScan rule, [], [])).1.dirs = [] := by
    rw [hcd.2.1]
    rfl
  obtain ⟨_, hmfiles, hmdirs⟩ := scan_rule_master lib now fs rule ⟨some choice⟩ hwf
  refine ⟨?_, ?_, ?_, ?_⟩
  · -- (1) unpaired archive: in neither list
    intro nm c base hm hdnc hsnc hnec hb hnodir
    have hresc := hch nm c hm
    constructor
    · intro hmem
      rw [heq] at hmem
      cases choice with
      | archives =>
        obtain ⟨fd1, ha1, hb1, hc1, hd1⟩ := pairDownloadsA_master fs
          (collectDownloads root ch (emptyScan rule, [], [])).2.2
          (collectDownloads root ch (emptyScan rule, [], [])).2.1
          (collectDownloads root ch (emptyScan rule, [], [])).1 [] harch
        rw [ha1, hSfiles, List.nil_append] at hmem
        obtain ⟨b, sz, v, hmemA, hlkF⟩ := hd1 _ hmem
        obtain ⟨nm2, c2, meta2, hm2, hl2, hb2, hp1, hp2, hdn2, hsn2, hne2⟩ :=
          hcert _ hmemA
        simp only at hp1
        have hnm : nm2 = nm := append_singleton_inj root nm2 nm hp1.symm
        subst hnm
        rw [hb] at hb2
        have hbb : b = base := (Option.some.inj hb2).symm
        subst hbb
        obtain ⟨d2, hmd2, hdd2, hds2, hv2⟩ :=
          hfcert (b, v) (lookupA_mem _ b v hlkF)
        exact hnodir ⟨d2, hmd2, hdd2, hds2⟩
      | folders =>
        obtain ⟨fd1, dd1, ha1, hb1, hc1, hd1, he1⟩ := pairDownloadsF_master fs
          (collectDownloads root ch (emptyScan rule, [], [])).2.2 hwf hfold
          (collectDownloads root ch (emptyScan rule, [], [])).2.1
          (collectDownloads root ch (emptyScan rule, [], [])).1 []
        rw [ha1, hSfiles, List.nil_append] at hmem
        obtain ⟨_, dpath, ⟨b2, ap2, sz2, hmemA, hlk2⟩, ho⟩ := hd1 _ hmem
        obtain ⟨d2, hmd2, hdd2, hds2, hv2⟩ :=
          hfcert (b2, dpath) (lookupA_mem _ b2 dpath hlk2)
        simp only at hv2
        rcases ho with hpe | hsu
        · rw [hv2] at hpe
          have hb2n : b2 = nm := append_singleton_inj root b2 nm hpe.symm
          subst hb2n
          have hcd2 : c = d2 := mem_nodup_unique ch b2 c d2 hnd hm hmd2
          rw [← hcd2] at hdd2
          rw [hdnc] at hdd2
          exact Bool.noConfusion hdd2
        · have hlen := strictUnder_length_lt dpath (root ++ [nm]) hsu
          rw [hv2] at hlen
          simp at hlen
    · intro hmem
      obtain ⟨⟨m, hmres, hmd⟩, _⟩ := hmdirs _ hmem
      rw [hresc] at hmres
      cases hmres
      rw [hdnc] at hmd
      exact Bool.noConfusion hmd
  · -- (2) unpaired directory: in neither list
    intro dn d hm hdd hds hnoarch
    have hresd := hch dn d hm
    constructor
    · intro hmem
      obtain ⟨⟨m, hmres, hmd⟩, _⟩ := hmfiles _ hmem
      rw [hresd] at hmres
      cases hmres
      rw [hdd] at hmd
      exact Bool.noConfusion hmd
    · intro hmem
      rw [heq] at hmem
      cases choice with
      | archives =>
        obtain ⟨fd1, ha1, hb1, hc1, hd1⟩ := pairDownloadsA_master fs
          (collectDownloads root ch (emptyScan rule, [], [])).2.2
          (collectDownloads root ch (emptyScan rule, [], [])).2.1
          (collectDownloads root ch (emptyScan rule, [], [])).1 [] harch
        rw [hb1, hSdirs] at hmem
        simp at hmem
      | folders =>
        obtain ⟨fd1, dd1, ha1, hb1, hc1, hd1, he1⟩ := pairDownloadsF_master fs
          (collectDownloads root ch (emptyScan rule, [], [])).2.2 hwf hfold
          (collectDownloads root ch (emptyScan rule, [], [])).2.1
          (collectDownloads root ch (emptyScan rule, [], [])).1 []
        rw [hb1, hSdirs, List.nil_append] at hmem
        obtain ⟨_, dpath, ⟨b2, ap2, sz2, hmemA, hlk2⟩, ho⟩ := he1 _ hmem
        obtain ⟨d2, hmd2, hdd2, hds2, hv2⟩ :=
          hfcert (b2, dpath) (lookupA_mem _ b2 dpath hlk2)
        simp only at hv2
        rcases ho with hpe | hsu
        · rw [hv2] at hpe
          have hb2n : b2 = dn := append_singleton_inj root b2 dn hpe.symm
          subst hb2n
          obtain ⟨nm2, c2, meta2, hm2, hl2, hb2c, hp1, hp2, hdn2, hsn2, hne2⟩ :=
            hcert _ hmemA
          exact hnoarch ⟨nm2, c2, hm2, hdn2, hsn2, hne2, hb2c⟩
        · have hlen := strictUnder_length_lt dpath (root ++ [dn]) hsu
          rw [hv2] at hlen
          simp at hlen
  · -- (3) paired archive recorded under Archives
    intro nm c meta base d hc hm hu hft hs hd2 hne hb hl hmd hdd hds hud hfd
    subst hc
    rw [heq]
    have hA := collectDownloads_arch_intro root ch (emptyScan rule, [], [])
      nm c meta base hm hu hft hs hd2 hne hb hl
    have hF := collectDownloads_folder_intro root ch (emptyScan rule, [], [])
      base d hmd hud hfd hds hdd
    exact pairDownloadsA_mem fs _ _ _ [] base (root ++ [nm]) meta.size hA
      (by rw [hF]; rfl)
  · -- (4) paired directory recorded under Folders
    intro nm c meta base d hc hm hu hft hs hd2 hne hb hl hmd hdd hds hud hfd
    subst hc
    rw [heq]
    have hA := collectDownloads_arch_intro root ch (emptyScan rule, [], [])
      nm c meta base hm hu hft hs hd2 hne hb hl
    have hF := collectDownloads_folder_intro root ch (emptyScan rule, [], [])
      base d hmd hud hfd hds hdd
    exact pairDownloadsF_dirs_mem fs _ hwf _ _ [] base (root ++ [nm]) meta.size
      (root ++ [base]) hA hF (by simp)

/-- Witness for C7 at a concrete input: under the Archives choice,
`dl/proj.tar.gz` (paired with `dl/proj`) is recorded while the unpaired
`dl/lone.zip` and `dl/unpaired` are in neither list. -/
theorem downloads_pairing_by_base_name_witness :
    wfb exFsDl = true ∧
    ["dl", "proj.tar.gz"] ∈
      (scan_rule exGlobLib 0 exFsDl exRuleDl ⟨some .archives⟩).files ∧
    ["dl", "lone.zip"] ∉
      (scan_rule exGlobLib 0 exFsDl exRuleDl ⟨some .archives⟩).files ∧
    ["dl", "unpaired"] ∉
      (scan_rule exGlobLib 0 exFsDl exRuleDl ⟨some .archives⟩).dirs := by
  have h := downloads_pairing_by_base_name exGlobLib 0 exFsDl exRuleDl .archives
    ["dl"]
    [("proj.tar.gz", .file 11 none Flags.good),
     ("proj", .dir [("inner.txt", .file 4 none Flags.good)] true 0 Flags.good),
     ("lone.zip", .file 13 none Flags.good),
     ("unpaired", .dir [] true 0 Flags.good)] 0 Flags.good
    (by decide) rfl rfl rfl rfl
  refine ⟨by decide, ?_, ?_, ?_⟩
  · exact h.2.2.1 "proj.tar.gz" (.file 11 none Flags.good)
      ⟨true, false, false, 11, none⟩ "proj"
      (.dir [("inner.txt", .file 4 none Flags.good)] true 0 Flags.good)
      rfl (.head _) rfl rfl rfl rfl (fun hx => FNode.noConfusion hx) (by decide)
      rfl (.tail _ (.head _)) rfl rfl rfl rfl
  · intro hmem
    refine (h.1 "lone.zip" (.file 13 none Flags.good) "lone"
      (.tail _ (.tail _ (.head _))) rfl rfl (fun hx => FNode.noConfusion hx)
      (by decide) ?_).1 hmem
    rintro ⟨d, hd, hdir, hsym⟩
    simp only [List.mem_cons, List.not_mem_nil, or_false, Prod.mk.injEq] at hd
    rcases hd with ⟨h1, h2⟩ | ⟨h1, h2⟩ | ⟨h1, h2⟩ | ⟨h1, h2⟩ <;> exact absurd h1 (by decide)
  · intro hmem
    refine (h.2.1 "unpaired" (.dir [] true 0 Flags.good)
      (.tail _ (.tail _ (.tail _ (.head _)))) rfl rfl ?_).2 hmem
    rintro ⟨nm, c, hmc, hdnc, hsnc, hnec, hbc⟩
    simp only [List.mem_cons, List.not_mem_nil, or_false, Prod.mk.injEq] at hmc
    rcases hmc with ⟨h1, h2⟩ | ⟨h1, h2⟩ | ⟨h1, h2⟩ | ⟨h1, h2⟩
    · subst h1; subst h2
      exact absurd hbc (by decide)
    · subst h2
      simp [isDirNode] at hdnc
    · subst h1; subst h2
      exact absurd hbc (by decide)
    · subst h2
      simp [isDirNode] at hdnc

end Vole
